import Mathlib

/-!
Verification development for the dbuf_db repository: a shallow embedding of
the storage layer (storage, buffer pool, paged storage), the executor layer
(schema values, object storage, table manager, operators) and the planner
layer (type deduction, projection dependency tracking), with theorems about
the behaviour of the embedded operations.

Modelling conventions:
- Machine integers are modelled as Nat (usize, u32, u64) or Int (i32);
  f32 payloads are modelled by their 32-bit pattern as a Nat, and value
  equality on them is bit equality.
- Fallible Rust functions returning Result are modelled with Except; Rust
  panics (unwrap, explicit panic, out-of-bounds indexing) are modelled by
  an outer Option layer where none means the process aborted.
- The external crates are abstracted: the marble blob store becomes a map
  from ids to optional byte strings, and the bincode encoder becomes a
  record of encoding and decoding functions (the Bincode structure below),
  about which theorems assume exactly the documented bincode contract
  (deterministic prefix decoding).  Byte cells are an arbitrary type
  parameter since no operation of the repository inspects individual bytes.
- Rust HashMap state is modelled by association lists; iteration order of
  a HashMap, which Rust leaves unspecified, is determinised to list order.
-/

namespace DbufDb

/-! ## Schema and value model, from src/lib/src/executor_layer/schema.rs -/

mutual

/-- DBType from schema.rs. -/
inductive DBType where
  | bool
  | double
  | int
  | uint
  | string
  | messageType (t : MessageType)
  | enumType (t : EnumType)

/-- Column from schema.rs: name, type and column-index dependencies. -/
inductive Column where
  | mk (column_name : String) (column_type : DBType) (dependencies : List Nat)

/-- MessageType from schema.rs: a named ordered list of columns. -/
inductive MessageType where
  | mk (name : String) (columns : List Column)

/-- EnumVariantType from schema.rs: a named list of (field name, type). -/
inductive EnumVariantType where
  | mk (name : String) (content : List (String × DBType))

/-- EnumType from schema.rs: name, dependencies and variants. -/
inductive EnumType where
  | mk (name : String) (dependencies : List (String × DBType))
      (variants : List EnumVariantType)

end

mutual

/-- DBValue from schema.rs.  The double payload is the 32-bit pattern. -/
inductive DBValue where
  | bool (b : Bool)
  | double (bits : Nat)
  | int (i : Int)
  | uint (u : Nat)
  | string (s : String)
  | message (m : Message)
  | enumValue (e : EnumValue)

/-- Message from schema.rs: optional literal type name plus field values. -/
inductive Message where
  | mk (type_name : Option String) (fields : List DBValue)

/-- EnumValue from schema.rs. -/
inductive EnumValue where
  | mk (type_name : Option String) (dependencies : List DBValue) (choice : Nat)
      (values : List DBValue)

end

def Column.column_name : Column → String
  | .mk n _ _ => n

def Column.column_type : Column → DBType
  | .mk _ t _ => t

def Column.dependencies : Column → List Nat
  | .mk _ _ d => d

def MessageType.name : MessageType → String
  | .mk n _ => n

def MessageType.columns : MessageType → List Column
  | .mk _ c => c

def Message.type_name : Message → Option String
  | .mk t _ => t

def Message.fields : Message → List DBValue
  | .mk _ f => f

def EnumValue.choice : EnumValue → Nat
  | .mk _ _ c _ => c

def EnumValue.values : EnumValue → List DBValue
  | .mk _ _ _ v => v

def EnumVariantType.name : EnumVariantType → String
  | .mk n _ => n

def EnumVariantType.content : EnumVariantType → List (String × DBType)
  | .mk _ c => c

def EnumType.variants : EnumType → List EnumVariantType
  | .mk _ _ v => v

mutual

/-- Structural type and value check, match_type_value from schema.rs. -/
def match_type_value : DBType → DBValue → Bool
  | .bool, .bool _ => true
  | .double, .double _ => true
  | .int, .int _ => true
  | .uint, .uint _ => true
  | .string, .string _ => true
  | .messageType t, .message m => match_message t m
  | .enumType t, .enumValue e => match_enum t e
  | _, _ => false

/-- MessageType.match_message from schema.rs: length check plus a zipped
structural check of every column against the corresponding field. -/
def match_message : MessageType → Message → Bool
  | .mk _ cols, .mk _ fields =>
    cols.length == fields.length && match_columns cols fields

/-- The zip-and-all part of match_message (zip truncates at the shorter
list, the length equality is checked separately). -/
def match_columns : List Column → List DBValue → Bool
  | [], _ => true
  | _, [] => true
  | c :: cs, v :: vs => match_type_value c.column_type v && match_columns cs vs

/-- EnumType.match_enum from schema.rs. -/
def match_enum : EnumType → EnumValue → Bool
  | .mk _ deps variants, .mk _ vdeps choice values =>
    deps.length == vdeps.length
      && match_dep_list deps vdeps
      && decide (choice < variants.length)
      && (match variants[choice]? with
          | some (.mk _ content) =>
            content.length == values.length && match_dep_list content values
          | none => false)

/-- The zipped check of declared (name, type) pairs against values. -/
def match_dep_list : List (String × DBType) → List DBValue → Bool
  | [], _ => true
  | _, [] => true
  | d :: ds, v :: vs => match_type_value d.2 v && match_dep_list ds vs

end

mutual

/-- Decidable structural equality for DBType, mirroring the derived
PartialEq of schema.rs. -/
def DBType.decEq : (a b : DBType) → Decidable (a = b)
  | .bool, .bool => .isTrue rfl
  | .double, .double => .isTrue rfl
  | .int, .int => .isTrue rfl
  | .uint, .uint => .isTrue rfl
  | .string, .string => .isTrue rfl
  | .messageType t1, .messageType t2 =>
    match MessageType.decEq t1 t2 with
    | .isTrue h => .isTrue (by rw [h])
    | .isFalse h => .isFalse (fun he => by cases he; exact h rfl)
  | .enumType t1, .enumType t2 =>
    match EnumType.decEq t1 t2 with
    | .isTrue h => .isTrue (by rw [h])
    | .isFalse h => .isFalse (fun he => by cases he; exact h rfl)
  | .bool, .double => .isFalse (fun h => by cases h)
  | .bool, .int => .isFalse (fun h => by cases h)
  | .bool, .uint => .isFalse (fun h => by cases h)
  | .bool, .string => .isFalse (fun h => by cases h)
  | .bool, .messageType _ => .isFalse (fun h => by cases h)
  | .bool, .enumType _ => .isFalse (fun h => by cases h)
  | .double, .bool => .isFalse (fun h => by cases h)
  | .double, .int => .isFalse (fun h => by cases h)
  | .double, .uint => .isFalse (fun h => by cases h)
  | .double, .string => .isFalse (fun h => by cases h)
  | .double, .messageType _ => .isFalse (fun h => by cases h)
  | .double, .enumType _ => .isFalse (fun h => by cases h)
  | .int, .bool => .isFalse (fun h => by cases h)
  | .int, .double => .isFalse (fun h => by cases h)
  | .int, .uint => .isFalse (fun h => by cases h)
  | .int, .string => .isFalse (fun h => by cases h)
  | .int, .messageType _ => .isFalse (fun h => by cases h)
  | .int, .enumType _ => .isFalse (fun h => by cases h)
  | .uint, .bool => .isFalse (fun h => by cases h)
  | .uint, .double => .isFalse (fun h => by cases h)
  | .uint, .int => .isFalse (fun h => by cases h)
  | .uint, .string => .isFalse (fun h => by cases h)
  | .uint, .messageType _ => .isFalse (fun h => by cases h)
  | .uint, .enumType _ => .isFalse (fun h => by cases h)
  | .string, .bool => .isFalse (fun h => by cases h)
  | .string, .double => .isFalse (fun h => by cases h)
  | .string, .int => .isFalse (fun h => by cases h)
  | .string, .uint => .isFalse (fun h => by cases h)
  | .string, .messageType _ => .isFalse (fun h => by cases h)
  | .string, .enumType _ => .isFalse (fun h => by cases h)
  | .messageType _, .bool => .isFalse (fun h => by cases h)
  | .messageType _, .double => .isFalse (fun h => by cases h)
  | .messageType _, .int => .isFalse (fun h => by cases h)
  | .messageType _, .uint => .isFalse (fun h => by cases h)
  | .messageType _, .string => .isFalse (fun h => by cases h)
  | .messageType _, .enumType _ => .isFalse (fun h => by cases h)
  | .enumType _, .bool => .isFalse (fun h => by cases h)
  | .enumType _, .double => .isFalse (fun h => by cases h)
  | .enumType _, .int => .isFalse (fun h => by cases h)
  | .enumType _, .uint => .isFalse (fun h => by cases h)
  | .enumType _, .string => .isFalse (fun h => by cases h)
  | .enumType _, .messageType _ => .isFalse (fun h => by cases h)

/-- Decidable equality for Column. -/
def Column.decEq : (a b : Column) → Decidable (a = b)
  | .mk n1 t1 d1, .mk n2 t2 d2 =>
    match decEq n1 n2, DBType.decEq t1 t2, decEq d1 d2 with
    | .isTrue h1, .isTrue h2, .isTrue h3 => .isTrue (by rw [h1, h2, h3])
    | .isFalse h1, _, _ => .isFalse (fun he => by cases he; exact h1 rfl)
    | _, .isFalse h2, _ => .isFalse (fun he => by cases he; exact h2 rfl)
    | _, _, .isFalse h3 => .isFalse (fun he => by cases he; exact h3 rfl)

/-- Decidable equality for lists of columns. -/
def Column.decEqList : (a b : List Column) → Decidable (a = b)
  | [], [] => .isTrue rfl
  | [], _ :: _ => .isFalse (fun h => by cases h)
  | _ :: _, [] => .isFalse (fun h => by cases h)
  | x :: xs, y :: ys =>
    match Column.decEq x y, Column.decEqList xs ys with
    | .isTrue h1, .isTrue h2 => .isTrue (by rw [h1, h2])
    | .isFalse h1, _ => .isFalse (fun he => by cases he; exact h1 rfl)
    | _, .isFalse h2 => .isFalse (fun he => by cases he; exact h2 rfl)

/-- Decidable equality for MessageType. -/
def MessageType.decEq : (a b : MessageType) → Decidable (a = b)
  | .mk n1 c1, .mk n2 c2 =>
    match decEq n1 n2, Column.decEqList c1 c2 with
    | .isTrue h1, .isTrue h2 => .isTrue (by rw [h1, h2])
    | .isFalse h1, _ => .isFalse (fun he => by cases he; exact h1 rfl)
    | _, .isFalse h2 => .isFalse (fun he => by cases he; exact h2 rfl)

/-- Decidable equality for (name, type) pairs. -/
def DBType.decEqPair : (a b : String × DBType) → Decidable (a = b)
  | (s1, t1), (s2, t2) =>
    match decEq s1 s2, DBType.decEq t1 t2 with
    | .isTrue h1, .isTrue h2 => .isTrue (by rw [h1, h2])
    | .isFalse h1, _ => .isFalse (fun he => by cases he; exact h1 rfl)
    | _, .isFalse h2 => .isFalse (fun he => by cases he; exact h2 rfl)

/-- Decidable equality for lists of (name, type) pairs. -/
def DBType.decEqPairList : (a b : List (String × DBType)) → Decidable (a = b)
  | [], [] => .isTrue rfl
  | [], _ :: _ => .isFalse (fun h => by cases h)
  | _ :: _, [] => .isFalse (fun h => by cases h)
  | x :: xs, y :: ys =>
    match DBType.decEqPair x y, DBType.decEqPairList xs ys with
    | .isTrue h1, .isTrue h2 => .isTrue (by rw [h1, h2])
    | .isFalse h1, _ => .isFalse (fun he => by cases he; exact h1 rfl)
    | _, .isFalse h2 => .isFalse (fun he => by cases he; exact h2 rfl)

/-- Decidable equality for EnumVariantType. -/
def EnumVariantType.decEq : (a b : EnumVariantType) → Decidable (a = b)
  | .mk n1 c1, .mk n2 c2 =>
    match decEq n1 n2, DBType.decEqPairList c1 c2 with
    | .isTrue h1, .isTrue h2 => .isTrue (by rw [h1, h2])
    | .isFalse h1, _ => .isFalse (fun he => by cases he; exact h1 rfl)
    | _, .isFalse h2 => .isFalse (fun he => by cases he; exact h2 rfl)

/-- Decidable equality for lists of enum variants. -/
def EnumVariantType.decEqList : (a b : List EnumVariantType) → Decidable (a = b)
  | [], [] => .isTrue rfl
  | [], _ :: _ => .isFalse (fun h => by cases h)
  | _ :: _, [] => .isFalse (fun h => by cases h)
  | x :: xs, y :: ys =>
    match EnumVariantType.decEq x y, EnumVariantType.decEqList xs ys with
    | .isTrue h1, .isTrue h2 => .isTrue (by rw [h1, h2])
    | .isFalse h1, _ => .isFalse (fun he => by cases he; exact h1 rfl)
    | _, .isFalse h2 => .isFalse (fun he => by cases he; exact h2 rfl)

/-- Decidable equality for EnumType. -/
def EnumType.decEq : (a b : EnumType) → Decidable (a = b)
  | .mk n1 d1 v1, .mk n2 d2 v2 =>
    match decEq n1 n2, DBType.decEqPairList d1 d2, EnumVariantType.decEqList v1 v2 with
    | .isTrue h1, .isTrue h2, .isTrue h3 => .isTrue (by rw [h1, h2, h3])
    | .isFalse h1, _, _ => .isFalse (fun he => by cases he; exact h1 rfl)
    | _, .isFalse h2, _ => .isFalse (fun he => by cases he; exact h2 rfl)
    | _, _, .isFalse h3 => .isFalse (fun he => by cases he; exact h3 rfl)

end

instance : DecidableEq DBType := DBType.decEq

instance : DecidableEq MessageType := MessageType.decEq

instance : DecidableEq EnumType := EnumType.decEq

mutual

/-- Decidable structural equality for DBValue, mirroring the derived
PartialEq of schema.rs with doubles compared by bit pattern. -/
def DBValue.decEq : (a b : DBValue) → Decidable (a = b)
  | .bool x, .bool y =>
    match decEq x y with
    | .isTrue h => .isTrue (by rw [h])
    | .isFalse h => .isFalse (fun he => by cases he; exact h rfl)
  | .double x, .double y =>
    match decEq x y with
    | .isTrue h => .isTrue (by rw [h])
    | .isFalse h => .isFalse (fun he => by cases he; exact h rfl)
  | .int x, .int y =>
    match decEq x y with
    | .isTrue h => .isTrue (by rw [h])
    | .isFalse h => .isFalse (fun he => by cases he; exact h rfl)
  | .uint x, .uint y =>
    match decEq x y with
    | .isTrue h => .isTrue (by rw [h])
    | .isFalse h => .isFalse (fun he => by cases he; exact h rfl)
  | .string x, .string y =>
    match decEq x y with
    | .isTrue h => .isTrue (by rw [h])
    | .isFalse h => .isFalse (fun he => by cases he; exact h rfl)
  | .message x, .message y =>
    match Message.decEq x y with
    | .isTrue h => .isTrue (by rw [h])
    | .isFalse h => .isFalse (fun he => by cases he; exact h rfl)
  | .enumValue x, .enumValue y =>
    match EnumValue.decEq x y with
    | .isTrue h => .isTrue (by rw [h])
    | .isFalse h => .isFalse (fun he => by cases he; exact h rfl)
  | .bool _, .double _ => .isFalse (fun h => by cases h)
  | .bool _, .int _ => .isFalse (fun h => by cases h)
  | .bool _, .uint _ => .isFalse (fun h => by cases h)
  | .bool _, .string _ => .isFalse (fun h => by cases h)
  | .bool _, .message _ => .isFalse (fun h => by cases h)
  | .bool _, .enumValue _ => .isFalse (fun h => by cases h)
  | .double _, .bool _ => .isFalse (fun h => by cases h)
  | .double _, .int _ => .isFalse (fun h => by cases h)
  | .double _, .uint _ => .isFalse (fun h => by cases h)
  | .double _, .string _ => .isFalse (fun h => by cases h)
  | .double _, .message _ => .isFalse (fun h => by cases h)
  | .double _, .enumValue _ => .isFalse (fun h => by cases h)
  | .int _, .bool _ => .isFalse (fun h => by cases h)
  | .int _, .double _ => .isFalse (fun h => by cases h)
  | .int _, .uint _ => .isFalse (fun h => by cases h)
  | .int _, .string _ => .isFalse (fun h => by cases h)
  | .int _, .message _ => .isFalse (fun h => by cases h)
  | .int _, .enumValue _ => .isFalse (fun h => by cases h)
  | .uint _, .bool _ => .isFalse (fun h => by cases h)
  | .uint _, .double _ => .isFalse (fun h => by cases h)
  | .uint _, .int _ => .isFalse (fun h => by cases h)
  | .uint _, .string _ => .isFalse (fun h => by cases h)
  | .uint _, .message _ => .isFalse (fun h => by cases h)
  | .uint _, .enumValue _ => .isFalse (fun h => by cases h)
  | .string _, .bool _ => .isFalse (fun h => by cases h)
  | .string _, .double _ => .isFalse (fun h => by cases h)
  | .string _, .int _ => .isFalse (fun h => by cases h)
  | .string _, .uint _ => .isFalse (fun h => by cases h)
  | .string _, .message _ => .isFalse (fun h => by cases h)
  | .string _, .enumValue _ => .isFalse (fun h => by cases h)
  | .message _, .bool _ => .isFalse (fun h => by cases h)
  | .message _, .double _ => .isFalse (fun h => by cases h)
  | .message _, .int _ => .isFalse (fun h => by cases h)
  | .message _, .uint _ => .isFalse (fun h => by cases h)
  | .message _, .string _ => .isFalse (fun h => by cases h)
  | .message _, .enumValue _ => .isFalse (fun h => by cases h)
  | .enumValue _, .bool _ => .isFalse (fun h => by cases h)
  | .enumValue _, .double _ => .isFalse (fun h => by cases h)
  | .enumValue _, .int _ => .isFalse (fun h => by cases h)
  | .enumValue _, .uint _ => .isFalse (fun h => by cases h)
  | .enumValue _, .string _ => .isFalse (fun h => by cases h)
  | .enumValue _, .message _ => .isFalse (fun h => by cases h)

/-- Decidable equality for lists of values. -/
def DBValue.decEqList : (a b : List DBValue) → Decidable (a = b)
  | [], [] => .isTrue rfl
  | [], _ :: _ => .isFalse (fun h => by cases h)
  | _ :: _, [] => .isFalse (fun h => by cases h)
  | x :: xs, y :: ys =>
    match DBValue.decEq x y, DBValue.decEqList xs ys with
    | .isTrue h1, .isTrue h2 => .isTrue (by rw [h1, h2])
    | .isFalse h1, _ => .isFalse (fun he => by cases he; exact h1 rfl)
    | _, .isFalse h2 => .isFalse (fun he => by cases he; exact h2 rfl)

/-- Decidable equality for Message. -/
def Message.decEq : (a b : Message) → Decidable (a = b)
  | .mk n1 f1, .mk n2 f2 =>
    match decEq n1 n2, DBValue.decEqList f1 f2 with
    | .isTrue h1, .isTrue h2 => .isTrue (by rw [h1, h2])
    | .isFalse h1, _ => .isFalse (fun he => by cases he; exact h1 rfl)
    | _, .isFalse h2 => .isFalse (fun he => by cases he; exact h2 rfl)

/-- Decidable equality for EnumValue. -/
def EnumValue.decEq : (a b : EnumValue) → Decidable (a = b)
  | .mk n1 d1 c1 v1, .mk n2 d2 c2 v2 =>
    match decEq n1 n2, DBValue.decEqList d1 d2, decEq c1 c2, DBValue.decEqList v1 v2 with
    | .isTrue h1, .isTrue h2, .isTrue h3, .isTrue h4 => .isTrue (by rw [h1, h2, h3, h4])
    | .isFalse h1, _, _, _ => .isFalse (fun he => by cases he; exact h1 rfl)
    | _, .isFalse h2, _, _ => .isFalse (fun he => by cases he; exact h2 rfl)
    | _, _, .isFalse h3, _ => .isFalse (fun he => by cases he; exact h3 rfl)
    | _, _, _, .isFalse h4 => .isFalse (fun he => by cases he; exact h4 rfl)

end

instance : DecidableEq DBValue := DBValue.decEq

instance : DecidableEq Message := Message.decEq

def MessageType.match_message (t : MessageType) (m : Message) : Bool :=
  DbufDb.match_message t m

/-! ## Typed expressions, from src/lib/src/executor_layer/expression.rs -/

/-- BinaryOperator from expression.rs. -/
inductive BinaryOperator where
  | add
  | subtract
  | multiply
  | divide
  | equals
  | notEquals
  | lessThan
  | greaterThan
  | and
  | or
  deriving DecidableEq

mutual

/-- Expression from expression.rs: the typed expression language. -/
inductive Expression where
  | literal (v : DBValue)
  | columnRef (i : Nat)
  | binaryOp (op : BinaryOperator) (left : Expression) (right : Expression)
  | unaryOp (op : UnaryOperator) (expr : Expression)

/-- UnaryOperator from expression.rs; enumMatch carries one arm per
variant in declaration order. -/
inductive UnaryOperator where
  | negate
  | not
  | messageField (i : Nat)
  | enumMatch (arms : List Expression)

end

/-- Wrapping addition on 32-bit signed integers (release-mode Rust i32). -/
def i32wrap (x : Int) : Int := (x + 2 ^ 31) % 2 ^ 32 - 2 ^ 31

/-- BinaryOperator.apply from expression.rs.  The Rust code panics on
operand kinds outside the matched ones; panic is modelled as none.
Arithmetic on the 32-bit double payload is not interpreted; the result of
float arithmetic is modelled opaquely by pairing the bit patterns, which
no claim inspects. -/
def BinaryOperator.apply : BinaryOperator → DBValue → DBValue → Option DBValue
  | .add, .double l, .double r => some (.double ((l + r) % 2 ^ 32))
  | .add, .int l, .int r => some (.int (i32wrap (l + r)))
  | .add, .uint l, .uint r => some (.uint ((l + r) % 2 ^ 32))
  | .add, _, _ => none
  | .subtract, .double l, .double r => some (.double ((l + 2 ^ 32 - r) % 2 ^ 32))
  | .subtract, .int l, .int r => some (.int (i32wrap (l - r)))
  | .subtract, .uint l, .uint r => some (.uint ((l + 2 ^ 32 - r) % 2 ^ 32))
  | .subtract, _, _ => none
  | .multiply, .double l, .double r => some (.double ((l * r) % 2 ^ 32))
  | .multiply, .int l, .int r => some (.int (i32wrap (l * r)))
  | .multiply, .uint l, .uint r => some (.uint ((l * r) % 2 ^ 32))
  | .multiply, _, _ => none
  | .divide, .double l, .double r => some (.double ((l / max r 1) % 2 ^ 32))
  | .divide, .int l, .int r => some (.int (i32wrap (l / r)))
  | .divide, .uint l, .uint r => some (.uint (l / max r 1))
  | .divide, _, _ => none
  | .equals, l, r => some (.bool (decide (l = r)))
  | .notEquals, l, r => some (.bool (decide (l ≠ r)))
  | .lessThan, .double l, .double r => some (.bool (decide (l < r)))
  | .lessThan, .int l, .int r => some (.bool (decide (l < r)))
  | .lessThan, .uint l, .uint r => some (.bool (decide (l < r)))
  | .lessThan, .string l, .string r => some (.bool (decide (l < r)))
  | .lessThan, _, _ => none
  | .greaterThan, .double l, .double r => some (.bool (decide (r < l)))
  | .greaterThan, .int l, .int r => some (.bool (decide (r < l)))
  | .greaterThan, .uint l, .uint r => some (.bool (decide (r < l)))
  | .greaterThan, .string l, .string r => some (.bool (decide (r < l)))
  | .greaterThan, _, _ => none
  | .and, .bool l, .bool r => some (.bool (l && r))
  | .and, _, _ => none
  | .or, .bool l, .bool r => some (.bool (l || r))
  | .or, _, _ => none

mutual

/-- Expression.evaluate from expression.rs.  Panics (type-mismatched
operands, out-of-range column or field indices, out-of-range match arms)
are modelled by none. -/
def Expression.evaluate : Expression → Message → Option DBValue
  | .literal v, _ => some v
  | .columnRef i, m => m.fields[i]?
  | .binaryOp op left right, m =>
    match left.evaluate m, right.evaluate m with
    | some l, some r => op.apply l r
    | _, _ => none
  | .unaryOp op expr, m =>
    match expr.evaluate m with
    | some v => UnaryOperator.apply op v
    | none => none
termination_by e _ => sizeOf e
decreasing_by all_goals first | (simp_wf; omega) | (simp_wf)

/-- UnaryOperator.apply from expression.rs. -/
def UnaryOperator.apply : UnaryOperator → DBValue → Option DBValue
  | .negate, .int x => some (.int (i32wrap (-x)))
  | .negate, .double x => some (.double ((2 ^ 32 - x) % 2 ^ 32))
  | .negate, _ => none
  | .not, .bool x => some (.bool (!x))
  | .not, _ => none
  | .messageField i, .message m => m.fields[i]?
  | .messageField _, _ => none
  | .enumMatch arms, .enumValue e =>
    match h : arms[e.choice]? with
    | some arm => arm.evaluate (.mk none e.values)
    | none => none
  | .enumMatch _, _ => none
termination_by op _ => sizeOf op
decreasing_by
  have hm : arm ∈ arms := by
    have := List.getElem?_eq_some.mp h
    obtain ⟨hlt, hget⟩ := this
    exact hget ▸ List.getElem_mem hlt
  have := List.sizeOf_lt_of_mem hm
  simp_wf
  omega

end

/-! ## Storage layer model

The marble blob store (external crate) is a map from ids to optional byte
strings; bytes are an opaque cell type since nothing in the repository
inspects individual bytes.  The bincode encoder (external crate) is a
record of encode and decode functions. -/

/-- StorageError from src/lib/src/storage_layer/error.rs. -/
inductive StorageError where
  | encodeError
  | decodeError
  | pageNotFound (id : Nat)
  | pageFull
  | invalidOperation
  | ioError
  deriving DecidableEq

/-- ExecutorError from src/lib/src/executor_layer/error.rs. -/
inductive ExecutorError where
  | messageTypeMismatch
  | tableAlreadyExists
  | tableNotFound
  | storageError (e : StorageError)
  deriving DecidableEq

/-- PageType from src/lib/src/storage_layer/page.rs. -/
inductive PageType where
  | tableData
  | indexData
  | free
  deriving DecidableEq

/-- PageHeader from page.rs. -/
structure PageHeader where
  id : Nat
  page_type : PageType
  obj_count : Nat
  deriving DecidableEq

/-- Page from page.rs, parametrised by the byte cell type. -/
structure Page (γ : Type) where
  header : PageHeader
  data : List γ

/-- StorageState from src/lib/src/storage_layer/storage.rs. -/
structure StorageState where
  page_size : Nat
  next_page_id : Nat
  free_ids : List Nat
  deriving DecidableEq

/-- WrappedMessage from src/lib/src/executor_layer/object_storage.rs. -/
inductive WrappedMessage where
  | real (m : Message)
  | index (id : Nat)
  deriving DecidableEq

/-- ObjectStorage record from object_storage.rs (data only). -/
structure ObjectStorage where
  schema : MessageType
  pages : List Nat
  overflow_pages : List Nat
  deriving DecidableEq

/-- TableManagerState from src/lib/src/executor_layer/table_manager.rs;
the HashMap is modelled as an association list. -/
structure TableManagerState where
  tables : List (String × ObjectStorage)
  deriving DecidableEq

/-- The marble blob store: an id to bytes map with tombstones as none. -/
def Marble (γ : Type) := Nat → Option (List γ)

/-- A single key write, the effect of marble write_batch on one pair. -/
def Marble.write {γ : Type} (mar : Marble γ) (id : Nat) (v : Option (List γ)) :
    Marble γ :=
  fun j => if j = id then v else mar j

/-- The empty blob store of a fresh directory. -/
def Marble.empty {γ : Type} : Marble γ := fun _ => none

/-- Abstraction of the bincode encoder configuration BINCODE_CONFIG from
src/lib/src/storage_layer/utils.rs, specialised to the four record types
the repository persists.  Theorems assume of it only the documented
bincode contract: decoding the result of encoding returns the encoded
value and the number of cells consumed.  The pad cell stands for the 0u8
fill byte used by Vec resize. -/
structure Bincode (γ : Type) where
  pad : γ
  encodeW : WrappedMessage → List γ
  decodeW : List γ → Option (WrappedMessage × Nat)
  encodePage : Page γ → List γ
  decodePage : List γ → Option (Page γ × Nat)
  encodeState : StorageState → List γ
  decodeState : List γ → Option (StorageState × Nat)
  encodeCatalog : TableManagerState → List γ
  decodeCatalog : List γ → Option (TableManagerState × Nat)

/-- DEFAULT_PAGE from storage.rs: first user page id. -/
def DEFAULT_PAGE : Nat := 100

/-- STORAGE_STATE_INDEX (named STATE_INDEX in storage.rs). -/
def STORAGE_STATE_INDEX : Nat := 0

/-- TABLE_STATE_INDEX from indices.rs. -/
def TABLE_STATE_INDEX : Nat := 1

/-- PLANNER_STATE_INDEX from indices.rs. -/
def PLANNER_STATE_INDEX : Nat := 2

/-- Storage from storage.rs: the blob store plus the allocator state. -/
structure Storage (γ : Type) where
  marble : Marble γ
  state : StorageState

variable {γ : Type}

/-- Storage.save_state: persist the allocator state at the reserved id. -/
def Storage.save_state (bc : Bincode γ) (s : Storage γ) : Storage γ :=
  { s with marble :=
      s.marble.write STORAGE_STATE_INDEX (some (bc.encodeState s.state)) }

/-- Storage.new from storage.rs: reuse a persisted state when present
(page_size on disk wins), otherwise initialise and persist a fresh one. -/
def Storage.new (bc : Bincode γ) (mar : Marble γ) (page_size : Nat) :
    Except StorageError (Storage γ) :=
  match mar STORAGE_STATE_INDEX with
  | some bs =>
    match bc.decodeState bs with
    | some (st, _) => .ok { marble := mar, state := st }
    | none => .error .decodeError
  | none =>
    let st : StorageState :=
      { page_size := page_size, next_page_id := DEFAULT_PAGE, free_ids := [] }
    .ok (Storage.save_state bc { marble := mar, state := st })

/-- Storage.page_size accessor. -/
def Storage.page_size (s : Storage γ) : Nat := s.state.page_size

/-- Storage.allocate_id from storage.rs: pop the head of the FIFO free
list when non-empty, otherwise take and increment next_page_id; the state
is persisted either way. -/
def Storage.allocate_id (bc : Bincode γ) (s : Storage γ) : Nat × Storage γ :=
  match s.state.free_ids with
  | id :: rest =>
    (id, Storage.save_state bc { s with state := { s.state with free_ids := rest } })
  | [] =>
    let id := s.state.next_page_id
    (id, Storage.save_state bc
      { s with state := { s.state with next_page_id := id + 1 } })

/-- Storage.free_id from storage.rs: tombstone the id in the blob store,
append it to the free list, persist the state. -/
def Storage.free_id (bc : Bincode γ) (s : Storage γ) (id : Nat) : Storage γ :=
  Storage.save_state bc
    { marble := s.marble.write id none,
      state := { s.state with free_ids := s.state.free_ids ++ [id] } }

/-- Storage.write_page from storage.rs: encode and store a whole page at
its own header id. -/
def Storage.write_page (bc : Bincode γ) (s : Storage γ) (page : Page γ) :
    Storage γ :=
  { s with marble := s.marble.write page.header.id (some (bc.encodePage page)) }

/-- Storage.allocate_page from storage.rs: always takes a fresh id from
next_page_id (never from the free list), persists state, writes an
initial empty page. -/
def Storage.allocate_page (bc : Bincode γ) (s : Storage γ) (page_type : PageType) :
    Page γ × Storage γ :=
  let page_id := s.state.next_page_id
  let s := Storage.save_state bc
    { s with state := { s.state with next_page_id := page_id + 1 } }
  let page : Page γ :=
    { header := { id := page_id, page_type := page_type, obj_count := 0 },
      data := [] }
  (page, Storage.write_page bc s page)

/-- Storage.read_page from storage.rs: decode the blob at the id; a
missing id is PageNotFound. -/
def Storage.read_page (bc : Bincode γ) (s : Storage γ) (id : Nat) :
    Except StorageError (Page γ) :=
  match s.marble id with
  | some bs =>
    match bc.decodePage bs with
    | some (p, _) => .ok p
    | none => .error .decodeError
  | none => .error (.pageNotFound id)

/-- Storage.delete_page from storage.rs: tombstone plus push onto the
free list (same body as free_id). -/
def Storage.delete_page (bc : Bincode γ) (s : Storage γ) (id : Nat) : Storage γ :=
  Storage.save_state bc
    { marble := s.marble.write id none,
      state := { s.state with free_ids := s.state.free_ids ++ [id] } }

/-! ## Buffer pool, from src/lib/src/storage_layer/buffer_pool.rs -/

/-- Lookup in an association list, modelling HashMap get. -/
def alookup {α : Type} : List (Nat × α) → Nat → Option α
  | [], _ => none
  | (k, v) :: rest, key => if k = key then some v else alookup rest key

/-- Remove a key from an association list, modelling HashMap remove. -/
def aerase {α : Type} : List (Nat × α) → Nat → List (Nat × α)
  | [], _ => []
  | (k, v) :: rest, key => if k = key then rest else (k, v) :: aerase rest key

/-- Insert or replace a key, modelling HashMap insert. -/
def aupdate {α : Type} : List (Nat × α) → Nat → α → List (Nat × α)
  | [], key, v => [(key, v)]
  | (k, w) :: rest, key, v =>
    if k = key then (key, v) :: rest else (k, w) :: aupdate rest key v

/-- BufferPool from buffer_pool.rs: storage plus a bounded cache of
(page, dirty) entries keyed by page id. -/
structure BufferPool (γ : Type) where
  storage : Storage γ
  pages : List (Nat × Page γ × Bool)
  capacity : Nat

/-- BufferPool.new from buffer_pool.rs; zero capacity panics (none). -/
def BufferPool.new (bc : Bincode γ) (mar : Marble γ) (page_size capacity : Nat) :
    Option (Except StorageError (BufferPool γ)) :=
  if capacity = 0 then none
  else some (do
    let storage ← Storage.new bc mar page_size
    pure { storage := storage, pages := [], capacity := capacity })

/-- BufferPool.pop_page from buffer_pool.rs: evict the first clean entry;
if every entry is dirty, write back the first entry and drop it. -/
def BufferPool.pop_page (bc : Bincode γ) (bp : BufferPool γ) : BufferPool γ :=
  match bp.pages.find? (fun e => !e.2.2) with
  | some (id, _, _) => { bp with pages := aerase bp.pages id }
  | none =>
    match bp.pages with
    | [] => bp
    | (_, p, _) :: rest =>
      { bp with storage := Storage.write_page bc bp.storage p, pages := rest }

/-- BufferPool.allocate_page from buffer_pool.rs: allocate in storage,
evict if at capacity, cache the new page clean; the caller receives the
page id. -/
def BufferPool.allocate_page (bc : Bincode γ) (bp : BufferPool γ)
    (page_type : PageType) : Nat × BufferPool γ :=
  let (page, st) := Storage.allocate_page bc bp.storage page_type
  let bp := { bp with storage := st }
  let bp := if bp.pages.length ≥ bp.capacity then bp.pop_page bc else bp
  (page.header.id,
    { bp with pages := aupdate bp.pages page.header.id (page, false) })

/-- BufferPool.delete_page from buffer_pool.rs. -/
def BufferPool.delete_page (bc : Bincode γ) (bp : BufferPool γ) (id : Nat) :
    BufferPool γ :=
  { bp with pages := aerase bp.pages id,
            storage := Storage.delete_page bc bp.storage id }

/-- BufferPool.bump_page from buffer_pool.rs: place a missing page into
the cache, evicting if at capacity. -/
def BufferPool.bump_page (bc : Bincode γ) (bp : BufferPool γ) (id : Nat) :
    Except StorageError (BufferPool γ) :=
  if (alookup bp.pages id).isSome then .ok bp
  else
    match Storage.read_page bc bp.storage id with
    | .error e => .error e
    | .ok page =>
      let bp := if bp.pages.length ≥ bp.capacity then bp.pop_page bc else bp
      .ok { bp with pages := aupdate bp.pages id (page, false) }

/-- BufferPool.get_page from buffer_pool.rs: bump then read the cache
entry (the unreachable missing case is PageNotFound where Rust unwraps). -/
def BufferPool.get_page (bc : Bincode γ) (bp : BufferPool γ) (id : Nat) :
    Except StorageError (Page γ × Bool × BufferPool γ) :=
  match BufferPool.bump_page bc bp id with
  | .error e => .error e
  | .ok bp =>
    match alookup bp.pages id with
    | some (p, d) => .ok (p, d, bp)
    | none => .error (.pageNotFound id)

/-- The write-back loop of BufferPool.flush: write every dirty page and
clear its dirty bit. -/
def flushEntries (bc : Bincode γ) (st : Storage γ) :
    List (Nat × Page γ × Bool) → Storage γ × List (Nat × Page γ × Bool)
  | [] => (st, [])
  | (id, p, d) :: rest =>
    if d then
      let st := Storage.write_page bc st p
      let (st, rest) := flushEntries bc st rest
      (st, (id, p, false) :: rest)
    else
      let (st, rest) := flushEntries bc st rest
      (st, (id, p, d) :: rest)

/-- BufferPool.flush from buffer_pool.rs. -/
def BufferPool.flush (bc : Bincode γ) (bp : BufferPool γ) : BufferPool γ :=
  let (st, entries) := flushEntries bc bp.storage bp.pages
  { bp with storage := st, pages := entries }

/-! ## Paged storage, from src/lib/src/storage_layer/paged_storage.rs -/

/-- PagedStorage from paged_storage.rs: a facade over the buffer pool. -/
structure PagedStorage (γ : Type) where
  buffer_pool : BufferPool γ

/-- PagedStorage.new from paged_storage.rs. -/
def PagedStorage.new (bc : Bincode γ) (mar : Marble γ) (page_size capacity : Nat) :
    Option (Except StorageError (PagedStorage γ)) :=
  (BufferPool.new bc mar page_size capacity).map (·.map (fun bp => ⟨bp⟩))

def PagedStorage.page_size (ps : PagedStorage γ) : Nat :=
  ps.buffer_pool.storage.page_size

def PagedStorage.marble (ps : PagedStorage γ) : Marble γ :=
  ps.buffer_pool.storage.marble

def PagedStorage.storage (ps : PagedStorage γ) : Storage γ :=
  ps.buffer_pool.storage

/-- PagedStorage.allocate_page from paged_storage.rs. -/
def PagedStorage.allocate_page (bc : Bincode γ) (ps : PagedStorage γ)
    (page_type : PageType) : Nat × PagedStorage γ :=
  let (id, bp) := BufferPool.allocate_page bc ps.buffer_pool page_type
  (id, ⟨bp⟩)

/-- PagedStorage.delete_page from paged_storage.rs. -/
def PagedStorage.delete_page (bc : Bincode γ) (ps : PagedStorage γ) (id : Nat) :
    PagedStorage γ :=
  ⟨BufferPool.delete_page bc ps.buffer_pool id⟩

/-- PagedStorage.write_data from paged_storage.rs: overwrite at offset,
growing the data vector to offset plus length with zero fill; PageFull
when the end would exceed page_size; sets the dirty bit.  The state is
returned alongside the result because the cache mutates even on the
PageFull path. -/
def PagedStorage.write_data (bc : Bincode γ) (ps : PagedStorage γ)
    (page_id offset : Nat) (data : List γ) :
    Except StorageError Unit × PagedStorage γ :=
  let page_size := ps.page_size
  match BufferPool.bump_page bc ps.buffer_pool page_id with
  | .error e => (.error e, ps)
  | .ok bp =>
    match alookup bp.pages page_id with
    | none => (.error (.pageNotFound page_id), ⟨bp⟩)
    | some (page, _) =>
      let data_end := offset + data.length
      if data_end > page_size then (.error .pageFull, ⟨bp⟩)
      else
        let grown :=
          if data_end > page.data.length then
            page.data ++ List.replicate (data_end - page.data.length) bc.pad
          else page.data
        let newData := grown.take offset ++ data ++ grown.drop data_end
        (.ok (),
          ⟨{ bp with pages :=
              aupdate bp.pages page_id ({ page with data := newData }, true) }⟩)

/-- PagedStorage.read_data from paged_storage.rs: copy out a range;
InvalidOperation beyond the current data length. -/
def PagedStorage.read_data (bc : Bincode γ) (ps : PagedStorage γ)
    (page_id offset len : Nat) :
    Except StorageError (List γ) × PagedStorage γ :=
  match BufferPool.get_page bc ps.buffer_pool page_id with
  | .error e => (.error e, ps)
  | .ok (page, _, bp) =>
    if offset + len > page.data.length then (.error .invalidOperation, ⟨bp⟩)
    else (.ok ((page.data.drop offset).take len), ⟨bp⟩)

/-- PagedStorage.get_obj_count from paged_storage.rs. -/
def PagedStorage.get_obj_count (bc : Bincode γ) (ps : PagedStorage γ)
    (page_id : Nat) : Except StorageError Nat × PagedStorage γ :=
  match BufferPool.get_page bc ps.buffer_pool page_id with
  | .error e => (.error e, ps)
  | .ok (page, _, bp) => (.ok page.header.obj_count, ⟨bp⟩)

/-- PagedStorage.set_obj_count from paged_storage.rs: writes the header
object count through get_page_mut; the source sets no dirty bit here. -/
def PagedStorage.set_obj_count (bc : Bincode γ) (ps : PagedStorage γ)
    (page_id obj_count : Nat) : Except StorageError Unit × PagedStorage γ :=
  match BufferPool.bump_page bc ps.buffer_pool page_id with
  | .error e => (.error e, ps)
  | .ok bp =>
    match alookup bp.pages page_id with
    | none => (.error (.pageNotFound page_id), ⟨bp⟩)
    | some (page, dirty) =>
      let entry := ({ page with header :=
        { page.header with obj_count := obj_count } }, dirty)
      (.ok (), ⟨{ bp with pages := aupdate bp.pages page_id entry }⟩)

/-- PagedStorage.append_data from paged_storage.rs: append at the tail,
PageFull when the new length would exceed page_size; sets the dirty bit
and returns the new length. -/
def PagedStorage.append_data (bc : Bincode γ) (ps : PagedStorage γ)
    (page_id : Nat) (data : List γ) :
    Except StorageError Nat × PagedStorage γ :=
  let page_size := ps.page_size
  match BufferPool.bump_page bc ps.buffer_pool page_id with
  | .error e => (.error e, ps)
  | .ok bp =>
    match alookup bp.pages page_id with
    | none => (.error (.pageNotFound page_id), ⟨bp⟩)
    | some (page, _) =>
      let offset := page.data.length
      let data_end := offset + data.length
      if data_end > page_size then (.error .pageFull, ⟨bp⟩)
      else
        let entry := ({ page with data := page.data ++ data }, true)
        (.ok data_end, ⟨{ bp with pages := aupdate bp.pages page_id entry }⟩)

/-- PagedStorage.cut_data from paged_storage.rs: truncate to len, a
no-op when len is at least the current length; sets the dirty bit when
it truncates. -/
def PagedStorage.cut_data (bc : Bincode γ) (ps : PagedStorage γ)
    (page_id len : Nat) : Except StorageError Unit × PagedStorage γ :=
  match BufferPool.bump_page bc ps.buffer_pool page_id with
  | .error e => (.error e, ps)
  | .ok bp =>
    match alookup bp.pages page_id with
    | none => (.error (.pageNotFound page_id), ⟨bp⟩)
    | some (page, _) =>
      let offset := page.data.length
      if len ≥ offset then (.ok (), ⟨bp⟩)
      else
        let entry := ({ page with data := page.data.take len }, true)
        (.ok (), ⟨{ bp with pages := aupdate bp.pages page_id entry }⟩)

/-- Modelled from the spec: bump_obj_count is called by
ObjectStorage::insert_messages but its definition is absent from
paged_storage.rs under src.  Per the specification it maintains the
per-page object count in the header (an increment) and, like every
mutator of the paged storage section, sets the dirty bit. -/
def PagedStorage.bump_obj_count (bc : Bincode γ) (ps : PagedStorage γ)
    (page_id : Nat) : Except StorageError Unit × PagedStorage γ :=
  match BufferPool.bump_page bc ps.buffer_pool page_id with
  | .error e => (.error e, ps)
  | .ok bp =>
    match alookup bp.pages page_id with
    | none => (.error (.pageNotFound page_id), ⟨bp⟩)
    | some (page, _) =>
      let entry := ({ page with header :=
        { page.header with obj_count := page.header.obj_count + 1 } }, true)
      (.ok (), ⟨{ bp with pages := aupdate bp.pages page_id entry }⟩)

/-- PagedStorage.flush from paged_storage.rs. -/
def PagedStorage.flush (bc : Bincode γ) (ps : PagedStorage γ) : PagedStorage γ :=
  ⟨BufferPool.flush bc ps.buffer_pool⟩

/-! ## Object storage, from src/lib/src/executor_layer/object_storage.rs -/

/-- ObjectStorage::new from object_storage.rs. -/
def ObjectStorage.new (schema : MessageType) : ObjectStorage :=
  { schema := schema, pages := [], overflow_pages := [] }

/-- ObjectStorage::wrap_and_encode from object_storage.rs: encode the
message as Real; if the encoding fits into page_size return it, else
allocate an id from the storage allocator, write the Real encoding to
that id in the blob store, record the id in overflow_pages and return
the encoding of Index(id).  Encoding itself cannot fail in the model, so
the Result wrapper of the source is dropped. -/
def ObjectStorage.wrap_and_encode (bc : Bincode γ) (os : ObjectStorage)
    (message : Message) (storage : Storage γ) :
    List γ × ObjectStorage × Storage γ :=
  let encoded := bc.encodeW (.real message)
  if encoded.length ≤ storage.page_size then (encoded, os, storage)
  else
    let (page_id, storage) := Storage.allocate_id bc storage
    let os := { os with overflow_pages := os.overflow_pages ++ [page_id] }
    let storage :=
      { storage with marble := storage.marble.write page_id (some encoded) }
    (bc.encodeW (.index page_id), os, storage)

/-- ObjectStorage::decode_and_unwrap from object_storage.rs: decode one
WrappedMessage from the segment; Real yields the message, Index performs
an extra blob read (a missing blob, a failed decode, or a nested Index
panic are all none). -/
def ObjectStorage.decode_and_unwrap (bc : Bincode γ) (storage : Storage γ)
    (encoded : List γ) : Option (Message × Nat) :=
  match bc.decodeW encoded with
  | none => none
  | some (.real message, read) => some (message, read)
  | some (.index id, read) =>
    match storage.marble id with
    | none => none
    | some bs =>
      match bc.decodeW bs with
      | some (.real message, _) => some (message, read)
      | some (.index _, _) => none
      | none => none

/-- ObjectStorage::add_page from object_storage.rs. -/
def ObjectStorage.add_page (bc : Bincode γ) (os : ObjectStorage)
    (ps : PagedStorage γ) : ObjectStorage × PagedStorage γ :=
  let (id, ps) := PagedStorage.allocate_page bc ps .tableData
  ({ os with pages := os.pages ++ [id] }, ps)

/-- ObjectStorage::try_push from object_storage.rs: append the encoded
record to the last page (the source unwraps last(), only called with
non-empty pages; the empty case is dead code mapped to none). -/
def ObjectStorage.try_push (bc : Bincode γ) (os : ObjectStorage)
    (ps : PagedStorage γ) (encoded : List γ) :
    Option (Except StorageError Unit × PagedStorage γ) :=
  match os.pages.getLast? with
  | none => none
  | some id =>
    let (r, ps) := PagedStorage.append_data bc ps id encoded
    some (r.map (fun _ => ()), ps)

/-- The body of the for loop of ObjectStorage::insert_messages: validate,
wrap and encode, append to the last page with a fresh page on PageFull
(where the second push unwraps: its failure is a panic, none), then bump
the object count of the last page. -/
def ObjectStorage.insert_loop (bc : Bincode γ) :
    List Message → ObjectStorage → PagedStorage γ →
    Option (Except ExecutorError Unit × ObjectStorage × PagedStorage γ)
  | [], os, ps => some (.ok (), os, ps)
  | message :: rest, os, ps =>
    if !os.schema.match_message message then
      some (.error .messageTypeMismatch, os, ps)
    else
      let (encoded, os, storage) :=
        ObjectStorage.wrap_and_encode bc os message ps.storage
      let ps : PagedStorage γ := ⟨{ ps.buffer_pool with storage := storage }⟩
      match ObjectStorage.try_push bc os ps encoded with
      | none => none
      | some (.error _, ps) =>
        let (os, ps) := ObjectStorage.add_page bc os ps
        match ObjectStorage.try_push bc os ps encoded with
        | none => none
        | some (.error _, _) => none
        | some (.ok _, ps) =>
          match os.pages.getLast? with
          | none => none
          | some lastId =>
            match PagedStorage.bump_obj_count bc ps lastId with
            | (.error e, ps) => some (.error (.storageError e), os, ps)
            | (.ok _, ps) => ObjectStorage.insert_loop bc rest os ps
      | some (.ok _, ps) =>
        match os.pages.getLast? with
        | none => none
        | some lastId =>
          match PagedStorage.bump_obj_count bc ps lastId with
          | (.error e, ps) => some (.error (.storageError e), os, ps)
          | (.ok _, ps) => ObjectStorage.insert_loop bc rest os ps

/-- ObjectStorage::insert_messages from object_storage.rs: ensure at
least one data page exists, then run the insertion loop. -/
def ObjectStorage.insert_messages (bc : Bincode γ) (os : ObjectStorage)
    (ps : PagedStorage γ) (messages : List Message) :
    Option (Except ExecutorError Unit × ObjectStorage × PagedStorage γ) :=
  let (os, ps) :=
    if os.pages.length = 0 then ObjectStorage.add_page bc os ps else (os, ps)
  ObjectStorage.insert_loop bc messages os ps

/-- ObjectStorage::drop_items from object_storage.rs: delete every data
page, free every overflow id, clear both lists. -/
def ObjectStorage.drop_items (bc : Bincode γ) (os : ObjectStorage)
    (ps : PagedStorage γ) : ObjectStorage × PagedStorage γ :=
  let ps := os.pages.foldl (fun ps id => PagedStorage.delete_page bc ps id) ps
  let os := { os with pages := [] }
  let storage := os.overflow_pages.foldl
    (fun st id => Storage.free_id bc st id) ps.storage
  let ps : PagedStorage γ := ⟨{ ps.buffer_pool with storage := storage }⟩
  (( { os with overflow_pages := [] } : ObjectStorage), ps)

/-- The cursor state of MessageIterator from object_storage.rs. -/
structure MessageIterator where
  page_index : Nat
  page_offset : Nat
  page_obj_count : Nat
  deriving DecidableEq

/-- ObjectStorage::iter from object_storage.rs. -/
def ObjectStorage.iter : MessageIterator :=
  { page_index := 0, page_offset := 0, page_obj_count := 0 }

/-- MessageIterator::next from object_storage.rs.  Returns none on a
panic (get_page or decode unwrap), some none when the iterator is
exhausted, and otherwise the decoded message, the advanced cursor and
the paged storage (whose cache the read may have mutated). -/
def iterNext (bc : Bincode γ) (os : ObjectStorage) (ps : PagedStorage γ)
    (it : MessageIterator) :
    Option (Option (Message × MessageIterator) × PagedStorage γ) :=
  match os.pages[it.page_index]? with
  | none => some (none, ps)
  | some page_id =>
    match BufferPool.get_page bc ps.buffer_pool page_id with
    | .error _ => none
    | .ok (page, _, bp) =>
      let ps : PagedStorage γ := ⟨bp⟩
      match ObjectStorage.decode_and_unwrap bc ps.storage
          (page.data.drop it.page_offset) with
      | none => none
      | some (message, len) =>
        let it :=
          { it with page_offset := it.page_offset + len,
                    page_obj_count := it.page_obj_count + 1 }
        let it :=
          if it.page_obj_count = page.header.obj_count then
            { page_index := it.page_index + 1, page_offset := 0,
              page_obj_count := 0 }
          else it
        some (some (message, it), ps)

/-- Pull from the message iterator until exhaustion, with explicit fuel;
fuel running out, like a panic inside next, gives none. -/
def runIter (bc : Bincode γ) (os : ObjectStorage) :
    Nat → PagedStorage γ → MessageIterator → Option (List Message × PagedStorage γ)
  | 0, _, _ => none
  | fuel + 1, ps, it =>
    match iterNext bc os ps it with
    | none => none
    | some (none, ps) => some ([], ps)
    | some (some (message, it), ps) =>
      match runIter bc os fuel ps it with
      | none => none
      | some (rest, ps) => some (message :: rest, ps)

/-! ## Table manager, from src/lib/src/executor_layer/table_manager.rs -/

/-- Association lookup for string keys, modelling HashMap get. -/
def slookup {α : Type} : List (String × α) → String → Option α
  | [], _ => none
  | (k, v) :: rest, key => if k = key then some v else slookup rest key

/-- Insert or replace for string keys, modelling HashMap insert. -/
def supdate {α : Type} : List (String × α) → String → α → List (String × α)
  | [], key, v => [(key, v)]
  | (k, w) :: rest, key, v =>
    if k = key then (key, v) :: rest else (k, w) :: supdate rest key v

/-- TableManager from table_manager.rs. -/
structure TableManager (γ : Type) where
  state : TableManagerState
  paged_storage : PagedStorage γ

/-- TableManager::new from table_manager.rs: load the catalog at the
reserved id when present, else start empty. -/
def TableManager.new (bc : Bincode γ) (ps : PagedStorage γ) :
    Except ExecutorError (TableManager γ) :=
  match ps.marble TABLE_STATE_INDEX with
  | some bs =>
    match bc.decodeCatalog bs with
    | some (st, _) => .ok { state := st, paged_storage := ps }
    | none => .error (.storageError .decodeError)
  | none => .ok { state := { tables := [] }, paged_storage := ps }

/-- The catalog save of table_manager.rs (save to TABLE_STATE_INDEX). -/
def TableManager.save_catalog (bc : Bincode γ) (tm : TableManager γ) :
    TableManager γ :=
  let storage := tm.paged_storage.storage
  let mar := storage.marble.write TABLE_STATE_INDEX (some (bc.encodeCatalog tm.state))
  let storage := { storage with marble := mar }
  { tm with paged_storage := ⟨{ tm.paged_storage.buffer_pool with storage := storage }⟩ }

/-- TableManager::create_table from table_manager.rs. -/
def TableManager.create_table (bc : Bincode γ) (tm : TableManager γ)
    (table_name : String) (schema : MessageType) :
    Except ExecutorError (TableManager γ) :=
  if (slookup tm.state.tables table_name).isSome then .error .tableAlreadyExists
  else
    let tm := { tm with state :=
      { tables := supdate tm.state.tables table_name (ObjectStorage.new schema) } }
    let tm := TableManager.save_catalog bc tm
    .ok { tm with paged_storage := PagedStorage.flush bc tm.paged_storage }

/-- TableManager::insert_messages from table_manager.rs: forward to the
object storage of the table (mutated in place), then save the catalog
and flush; on an insertion error the catalog is neither saved nor
flushed.  The outer Option is a panic inside the insertion. -/
def TableManager.insert_messages (bc : Bincode γ) (tm : TableManager γ)
    (table_name : String) (messages : List Message) :
    Option (Except ExecutorError Unit × TableManager γ) :=
  match slookup tm.state.tables table_name with
  | none => some (.error .tableNotFound, tm)
  | some os =>
    match ObjectStorage.insert_messages bc os tm.paged_storage messages with
    | none => none
    | some (r, os, ps) =>
      let st : TableManagerState := { tables := supdate tm.state.tables table_name os }
      let tm := { tm with paged_storage := ps, state := st }
      match r with
      | .error e => some (.error e, tm)
      | .ok _ =>
        let tm := TableManager.save_catalog bc tm
        some (.ok (), { tm with paged_storage := PagedStorage.flush bc tm.paged_storage })

/-- TableManager::iter from table_manager.rs: a fresh iterator over the
rows of the named table. -/
def TableManager.iter (tm : TableManager γ) (table_name : String) :
    Except ExecutorError (ObjectStorage × MessageIterator) :=
  match slookup tm.state.tables table_name with
  | none => .error .tableNotFound
  | some os => .ok (os, ObjectStorage.iter)

/-! ## Physical operators, from src/lib/src/executor_layer/operator.rs -/

/-- TableScan from operator.rs: the iterator field stays none until open
installs one. -/
structure TableScan (γ : Type) where
  table_manager : TableManager γ
  table_name : String
  iterator : Option (ObjectStorage × MessageIterator)

/-- TableScan::new from operator.rs. -/
def TableScan.new (tm : TableManager γ) (table_name : String) : TableScan γ :=
  { table_manager := tm, table_name := table_name, iterator := none }

/-- TableScan open from operator.rs: acquire the row iterator. -/
def TableScan.openScan (_bc : Bincode γ) (ts : TableScan γ) :
    Except ExecutorError (TableScan γ) :=
  match TableManager.iter ts.table_manager ts.table_name with
  | .error e => .error e
  | .ok it => .ok { ts with iterator := some it }

/-- TableScan next from operator.rs: and_then over the optional
iterator, so before open it yields nothing; afterwards it forwards to
MessageIterator::next (whose panics are the outer none). -/
def TableScan.next (bc : Bincode γ) (ts : TableScan γ) :
    Option (Option Message × TableScan γ) :=
  match ts.iterator with
  | none => some (none, ts)
  | some (os, it) =>
    match iterNext bc os ts.table_manager.paged_storage it with
    | none => none
    | some (none, ps) =>
      some (none, { ts with table_manager := { ts.table_manager with paged_storage := ps } })
    | some (some (message, it), ps) =>
      some (some message,
        { ts with iterator := some (os, it),
                  table_manager := { ts.table_manager with paged_storage := ps } })

/-- The body of the while loop of the Filter Iterator::next in
operator.rs, over the sequence of rows the source will yield: discard
rows whose evaluation is not Bool(true), return the first passing row
and the remaining source rows; none is a panic inside evaluate. -/
def filterNext (e : Expression) :
    List Message → Option (Option (Message × List Message))
  | [] => some none
  | m :: rest =>
    match Expression.evaluate e m with
    | none => none
    | some v =>
      if v = DBValue.bool true then some (some (m, rest)) else filterNext e rest

/-- Drain a Filter operator over a source sequence, with fuel. -/
def runFilter (e : Expression) : Nat → List Message → Option (List Message)
  | 0, _ => none
  | fuel + 1, src =>
    match filterNext e src with
    | none => none
    | some none => some []
    | some (some (m, rest)) =>
      match runFilter e fuel rest with
      | none => none
      | some out => some (m :: out)

/-- Projection::project from operator.rs: each expression evaluated on
the input row (a panic in any evaluation is none). -/
def projectRow (expressions : List Expression) (m : Message) : Option Message :=
  (expressions.mapM (fun e => Expression.evaluate e m)).map (fun fs => .mk none fs)

/-! ## Planner layer, from src/lib/src/planner_layer/query_planner.rs -/

/-- PlannerError from src/lib/src/planner_layer/error.rs. -/
inductive PlannerError where
  | wrongOperandTypes
  | ambiguousMatchType
  | emptyMatchCases
  | columnNotFound (name : String)
  | unexistingMessageType (name : String)
  | unexistingEnumType (name : String)
  | mismatchedFieldTypes (name : String)
  | enumVariantNotFound (enum_name variant_name : String)
  | illFormedMatchStatement
  | duplicateMessageType (name : String)
  | duplicateEnumType (name : String)
  | dependencyDropped
  | executorError (e : ExecutorError)
  deriving DecidableEq

/-- QueryPlannerState from query_planner.rs, HashMaps as association
lists. -/
structure QueryPlannerState where
  message_types : List (String × MessageType)
  enum_types : List (String × EnumType)

/-- QueryPlanner::get_message_type. -/
def QueryPlannerState.get_message_type (st : QueryPlannerState) (name : String) :
    Except PlannerError MessageType :=
  match slookup st.message_types name with
  | some t => .ok t
  | none => .error (.unexistingMessageType name)

/-- QueryPlanner::get_enum_type. -/
def QueryPlannerState.get_enum_type (st : QueryPlannerState) (name : String) :
    Except PlannerError EnumType :=
  match slookup st.enum_types name with
  | some t => .ok t
  | none => .error (.unexistingEnumType name)

def EnumValue.type_name : EnumValue → Option String
  | .mk t _ _ _ => t

/-- The From conversion of an EnumVariantType into a MessageType from
schema.rs: each field becomes a dependency-free column. -/
def EnumVariantType.toMessageType (v : EnumVariantType) : MessageType :=
  .mk v.name (v.content.map (fun p => .mk p.1 p.2 []))

/-- QueryPlanner::deduce_literal_type; the source unwraps the literal
type name, so a storage-row value without one panics (none). -/
def deduce_literal_type (st : QueryPlannerState) :
    DBValue → Option (Except PlannerError DBType)
  | .bool _ => some (.ok .bool)
  | .double _ => some (.ok .double)
  | .int _ => some (.ok .int)
  | .uint _ => some (.ok .uint)
  | .string _ => some (.ok .string)
  | .message m =>
    match m.type_name with
    | none => none
    | some n => some ((st.get_message_type n).map .messageType)
  | .enumValue e =>
    match e.type_name with
    | none => none
    | some n => some ((st.get_enum_type n).map .enumType)

/-- QueryPlanner::deduce_binary_op_type from query_planner.rs: operand
types must be equal; Add through Divide demand a numeric type and return
it, Equals and NotEquals accept any type (returning the operand type),
LessThan and GreaterThan demand numeric or string and return Bool, And
and Or demand Bool. -/
def deduce_binary_op_type (op : BinaryOperator) (left_type right_type : DBType) :
    Except PlannerError DBType :=
  if left_type ≠ right_type then .error .wrongOperandTypes
  else
    match op with
    | .add | .subtract | .multiply | .divide =>
      if left_type = .double ∨ left_type = .uint ∨ left_type = .int then
        .ok left_type
      else .error .wrongOperandTypes
    | .equals | .notEquals => .ok left_type
    | .lessThan | .greaterThan =>
      if left_type = .double ∨ left_type = .uint ∨ left_type = .int ∨
          left_type = .string then
        .ok .bool
      else .error .wrongOperandTypes
    | .and | .or =>
      if left_type = .bool then .ok .bool else .error .wrongOperandTypes

mutual

/-- QueryPlanner::deduce_expression_type; the out-of-bounds column index
panic of the source is none. -/
def deduce_expression_type (st : QueryPlannerState) :
    Expression → MessageType → Option (Except PlannerError DBType)
  | .literal v, _ => deduce_literal_type st v
  | .columnRef i, mt =>
    match mt.columns[i]? with
    | none => none
    | some c => some (.ok c.column_type)
  | .binaryOp op l r, mt =>
    match deduce_expression_type st l mt with
    | none => none
    | some (.error e) => some (.error e)
    | some (.ok lt) =>
      match deduce_expression_type st r mt with
      | none => none
      | some (.error e) => some (.error e)
      | some (.ok rt) => some (deduce_binary_op_type op lt rt)
  | .unaryOp op expr, mt =>
    match deduce_expression_type st expr mt with
    | none => none
    | some (.error e) => some (.error e)
    | some (.ok t) => deduce_unary_op_type st op t
termination_by e _ => sizeOf e

/-- QueryPlanner::deduce_unary_op_type. -/
def deduce_unary_op_type (st : QueryPlannerState) :
    UnaryOperator → DBType → Option (Except PlannerError DBType)
  | .negate, t =>
    some (if t = .double ∨ t = .int then .ok t else .error .wrongOperandTypes)
  | .not, t =>
    some (if t = .bool then .ok .bool else .error .wrongOperandTypes)
  | .messageField i, t =>
    match t with
    | .messageType mt =>
      match mt.columns[i]? with
      | some c => some (.ok c.column_type)
      | none => some (.error .wrongOperandTypes)
    | _ => some (.error .wrongOperandTypes)
  | .enumMatch arms, t =>
    match t with
    | .enumType et =>
      if arms.isEmpty then some (.error .emptyMatchCases)
      else if arms.length ≠ et.variants.length then
        some (.error .wrongOperandTypes)
      else
        match deduceArms st arms et.variants with
        | none => none
        | some (.error e) => some (.error e)
        | some (.ok types) =>
          match types with
          | [] => none
          | first :: _ =>
            if types.all (fun u => u = first) then some (.ok first)
            else some (.error .ambiguousMatchType)
    | _ => some (.error .wrongOperandTypes)
termination_by op _ => sizeOf op

/-- The zipped arm type deduction inside the EnumMatch branch of
deduce_unary_op_type: each arm deduced against the message type of the
matching variant. -/
def deduceArms (st : QueryPlannerState) :
    List Expression → List EnumVariantType →
    Option (Except PlannerError (List DBType))
  | [], _ => some (.ok [])
  | _ :: _, [] => some (.ok [])
  | arm :: arms, v :: vs =>
    match deduce_expression_type st arm v.toMessageType with
    | none => none
    | some (.error e) => some (.error e)
    | some (.ok t) =>
      match deduceArms st arms vs with
      | none => none
      | some (.error e) => some (.error e)
      | some (.ok ts) => some (.ok (t :: ts))
termination_by arms _ => sizeOf arms

end

/-- QueryPlanner::get_leaf_ref: some(column index) exactly when the
expression is a chain of unary operators over a column reference. -/
def get_leaf_ref : Expression → Option Nat
  | .columnRef i => some i
  | .unaryOp _ expr => get_leaf_ref expr
  | _ => none

/-- QueryPlanner::is_complex_type. -/
def is_complex_type : DBType → Bool
  | .messageType _ => true
  | .enumType _ => true
  | _ => false

/-- The ref_map insertion step: a bare column reference item records
source index to output index. -/
def refInsert (ref_map : List (Nat × Nat)) (e : Expression) (i : Nat) :
    List (Nat × Nat) :=
  match e with
  | .columnRef idx => aupdate ref_map idx i
  | _ => ref_map

/-- The first loop of the Projection arm of build_logical_plan: build
the ref_map from bare column references (HashMap insert, later items
override) while deducing every item type in order, with the deduction
error of the earliest failing item. -/
def projTypesRef (st : QueryPlannerState) (source_type : MessageType) :
    List (String × Expression) → Nat → List (Nat × Nat) →
    Option (Except PlannerError (List DBType × List (Nat × Nat)))
  | [], _, ref_map => some (.ok ([], ref_map))
  | (_, e) :: rest, i, ref_map =>
    let ref_map := refInsert ref_map e i
    match deduce_expression_type st e source_type with
    | none => none
    | some (.error er) => some (.error er)
    | some (.ok t) =>
      match projTypesRef st source_type rest (i + 1) ref_map with
      | none => none
      | some (.error er) => some (.error er)
      | some (.ok (types, ref_map)) => some (.ok (t :: types, ref_map))

/-- The inner dependency translation of the second loop: every source
dependency must be a ref_map key, else DependencyDropped; images keep
order. -/
def mapDeps (ref_map : List (Nat × Nat)) : List Nat → Except PlannerError (List Nat)
  | [] => .ok []
  | d :: ds =>
    match alookup ref_map d with
    | none => .error .dependencyDropped
    | some nd =>
      match mapDeps ref_map ds with
      | .error e => .error e
      | .ok nds => .ok (nd :: nds)

/-- The second loop of the Projection arm of build_logical_plan: for
every output column of composite deduced type whose expression bottoms
out in a column reference, translate the source column dependencies
through ref_map; all other columns get no dependencies.  The
out-of-bounds source column panic is none. -/
def projDeps (source_type : MessageType) (ref_map : List (Nat × Nat)) :
    List (Expression × DBType) → Option (Except PlannerError (List (List Nat)))
  | [] => some (.ok [])
  | (e, t) :: rest =>
    if is_complex_type t then
      match get_leaf_ref e with
      | some idx =>
        match source_type.columns[idx]? with
        | none => none
        | some col =>
          match mapDeps ref_map col.dependencies with
          | .error er => some (.error er)
          | .ok ds =>
            match projDeps source_type ref_map rest with
            | none => none
            | some (.error er) => some (.error er)
            | some (.ok dss) => some (.ok (ds :: dss))
      | none =>
        match projDeps source_type ref_map rest with
        | none => none
        | some (.error er) => some (.error er)
        | some (.ok dss) => some (.ok ([] :: dss))
    else
      match projDeps source_type ref_map rest with
      | none => none
      | some (.error er) => some (.error er)
      | some (.ok dss) => some (.ok ([] :: dss))

/-- The full Projection arm of build_logical_plan on already-built typed
expressions: deduce all types, build ref_map, compute dependencies and
assemble the output MessageType named by the empty string. -/
def build_projection_type (st : QueryPlannerState) (source_type : MessageType)
    (items : List (String × Expression)) :
    Option (Except PlannerError MessageType) :=
  match projTypesRef st source_type items 0 [] with
  | none => none
  | some (.error e) => some (.error e)
  | some (.ok (types, ref_map)) =>
    match projDeps source_type ref_map ((items.map (·.2)).zip types) with
    | none => none
    | some (.error e) => some (.error e)
    | some (.ok deps) =>
      let columns := (items.zip (types.zip deps)).map
        (fun p => Column.mk p.1.1 p.2.1 p.2.2)
      some (.ok (.mk "" columns))

/-! ## Derived views and invariants used by the theorems -/

/-- The keys currently cached by a buffer pool. -/
def cacheKeys (bp : BufferPool γ) : List Nat := bp.pages.map (·.1)

/-- The dirty bit the cache holds for a page id. -/
def PagedStorage.dirtyOf (ps : PagedStorage γ) (id : Nat) : Option Bool :=
  (alookup ps.buffer_pool.pages id).map (fun e => e.2)

/-- The page a get_page call would observe: the cache entry when
present, else the decoded blob. -/
def bpView (bc : Bincode γ) (bp : BufferPool γ) (id : Nat) : Option (Page γ) :=
  match alookup bp.pages id with
  | some (p, _) => some p
  | none =>
    match bp.storage.marble id with
    | some bs => (bc.decodePage bs).map (·.1)
    | none => none

/-- The page view through a paged storage. -/
def pageView (bc : Bincode γ) (ps : PagedStorage γ) (id : Nat) : Option (Page γ) :=
  bpView bc ps.buffer_pool id

/-- A stored wrapper denotes a message: Real directly, Index through a
blob that decodes to Real. -/
def UnwrapOK (bc : Bincode γ) (mar : Marble γ) : WrappedMessage → Message → Prop
  | .real m', m => m' = m
  | .index id, m => ∃ bs, mar id = some bs ∧ ∃ k, bc.decodeW bs = some (.real m, k)

/-- The data vector of a page is the concatenation of encoded wrapped
records denoting the given messages; Index wrappers point into the
overflow id list. -/
inductive PageRep (bc : Bincode γ) (mar : Marble γ) (ovf : List Nat) :
    List γ → List Message → Prop
  | nil : PageRep bc mar ovf [] []
  | cons (chunk : List γ) (w : WrappedMessage) (m : Message) (data : List γ)
      (ms : List Message)
      (hdec : ∀ rest, bc.decodeW (chunk ++ rest) = some (w, chunk.length))
      (hunwrap : UnwrapOK bc mar w m)
      (hovf : ∀ id, w = .index id → id ∈ ovf)
      (htail : PageRep bc mar ovf data ms) :
      PageRep bc mar ovf (chunk ++ data) (m :: ms)

/-- Well-formedness of the buffer pool cache: unique keys, entries keyed
by their own header id, and clean entries equal to their persisted
encoding. -/
structure CacheOK (bc : Bincode γ) (bp : BufferPool γ) : Prop where
  nodup : (bp.pages.map (·.1)).Nodup
  headerId : ∀ k p d, alookup bp.pages k = some (p, d) → p.header.id = k
  cleanDisk : ∀ k p, alookup bp.pages k = some (p, false) →
      ∃ bs, bp.storage.marble k = some bs ∧
        ∃ k2, bc.decodePage bs = some (p, k2)

/-- The run invariant of a single-table system grown from a fresh
directory: allocator freshness, id hygiene, cache well-formedness,
persisted allocator state, and per-page representation of the stored
messages. -/
structure Inv (bc : Bincode γ) (ps : PagedStorage γ) (os : ObjectStorage)
    (msgss : List (List Message)) : Prop where
  freeNil : ps.storage.state.free_ids = []
  pagesLen : os.pages.length = msgss.length
  pagesNodup : os.pages.Nodup
  ovfNodup : os.overflow_pages.Nodup
  pagesOvfDisjoint : ∀ id ∈ os.pages, id ∉ os.overflow_pages
  pagesLB : ∀ id ∈ os.pages, DEFAULT_PAGE ≤ id
  ovfLB : ∀ id ∈ os.overflow_pages, DEFAULT_PAGE ≤ id
  pagesUB : ∀ id ∈ os.pages, id < ps.storage.state.next_page_id
  ovfUB : ∀ id ∈ os.overflow_pages, id < ps.storage.state.next_page_id
  nextLB : DEFAULT_PAGE ≤ ps.storage.state.next_page_id
  marbleUB : ∀ id, ps.storage.state.next_page_id ≤ id → ps.marble id = none
  cacheSub : ∀ k ∈ cacheKeys ps.buffer_pool, k ∈ os.pages
  cache : CacheOK bc ps.buffer_pool
  statePersisted :
      ps.marble STORAGE_STATE_INDEX = some (bc.encodeState ps.storage.state)
  pageRep : ∀ (i : Nat) (pid : Nat), os.pages[i]? = some pid →
      ∃ pg, pageView bc ps pid = some pg ∧ pg.header.id = pid ∧
        ∃ ms, msgss[i]? = some ms ∧ pg.header.obj_count = ms.length ∧
          PageRep bc ps.marble os.overflow_pages pg.data ms

/-- The cursor invariant of a running message iterator: either past the
last page with nothing left, or inside page i at a record boundary with
a non-empty run of messages still to decode. -/
def CursorOK (bc : Bincode γ) (ps : PagedStorage γ) (os : ObjectStorage)
    (msgss : List (List Message)) (it : MessageIterator)
    (remaining : List Message) : Prop :=
  (it.page_index = msgss.length ∧ remaining = []) ∨
  (∃ pid pg done restdata rest_ms,
    it.page_index < msgss.length ∧
    os.pages[it.page_index]? = some pid ∧
    pageView bc ps pid = some pg ∧
    pg.data = done ++ restdata ∧
    it.page_offset = done.length ∧
    PageRep bc ps.storage.marble os.overflow_pages restdata rest_ms ∧
    rest_ms ≠ [] ∧
    it.page_obj_count + rest_ms.length = pg.header.obj_count ∧
    remaining = rest_ms ++ ((msgss.drop (it.page_index + 1)).flatten))

/-- The observable effect of a cache-managing buffer pool step: page
views are preserved, blobs outside the previously cached keys are
untouched, the allocator state is unchanged, and the key set grows by at
most the named keys. -/
structure BPStep (bc : Bincode γ) (bp bp2 : BufferPool γ) (newKeys : List Nat) :
    Prop where
  view : ∀ id, bpView bc bp2 id = bpView bc bp id
  marbleOut : ∀ id, id ∉ bp.pages.map (·.1) →
      bp2.storage.marble id = bp.storage.marble id
  stateEq : bp2.storage.state = bp.storage.state
  keysSub : ∀ k ∈ bp2.pages.map (·.1), k ∈ newKeys ∨ k ∈ bp.pages.map (·.1)
  cacheOk : CacheOK bc bp2
  capEq : bp2.capacity = bp.capacity

/-- The observable effect of a successful page mutator: the view of the
touched page becomes the new page, everything else is as in BPStep. -/
structure PSWrite (bc : Bincode γ) (ps ps2 : PagedStorage γ) (id : Nat)
    (newpg : Page γ) : Prop where
  viewId : pageView bc ps2 id = some newpg
  viewNe : ∀ j, j ≠ id → pageView bc ps2 j = pageView bc ps j
  marbleOut : ∀ j, j ∉ ps.buffer_pool.pages.map (·.1) →
      ps2.marble j = ps.marble j
  stateEq : ps2.buffer_pool.storage.state = ps.buffer_pool.storage.state
  keysSub : ∀ k ∈ ps2.buffer_pool.pages.map (·.1),
      k = id ∨ k ∈ ps.buffer_pool.pages.map (·.1)
  cacheOk : CacheOK bc ps2.buffer_pool
  capEq : ps2.buffer_pool.capacity = ps.buffer_pool.capacity

/-- The cache insertion tail shared by bump_page and allocate_page:
evict when at capacity, then cache the page clean. -/
def placeEntry (bc : Bincode γ) (bp : BufferPool γ) (id : Nat) (pg : Page γ) :
    BufferPool γ :=
  let bp := if bp.pages.length ≥ bp.capacity then bp.pop_page bc else bp
  { bp with pages := aupdate bp.pages id (pg, false) }

/-- The bincode contract assumed of the abstract encoder: decoding an
encoding (with any continuation for the record stream on pages) returns
the value and the consumed length, and an Index wrapper encodes into at
most 64 cells (a discriminant plus a varint id in the real encoder). -/
structure BincodeOK (bc : Bincode γ) : Prop where
  decW : ∀ w rest, bc.decodeW (bc.encodeW w ++ rest) = some (w, (bc.encodeW w).length)
  decPage : ∀ p : Page γ, ∃ k, bc.decodePage (bc.encodePage p) = some (p, k)
  decState : ∀ s : StorageState, ∃ k, bc.decodeState (bc.encodeState s) = some (s, k)
  decCatalog : ∀ c : TableManagerState, ∃ k, bc.decodeCatalog (bc.encodeCatalog c) = some (c, k)
  indexSmall : ∀ id, (bc.encodeW (.index id)).length ≤ 64

/-! ## Scenario runs for the round-trip claims -/

/-- Scenario of claim C1: from a fresh directory, create a table, insert
one message through the table manager, iterate; then reopen the persisted
blob store as a new process and iterate again.  Any error or panic along
the way is none. -/
def c1Run (bc : Bincode γ) (page_size cap psz2 cap2 : Nat) (name : String)
    (schema : MessageType) (m : Message) : Option (List Message × List Message) :=
  match PagedStorage.new bc Marble.empty page_size cap with
  | none => none
  | some (.error _) => none
  | some (.ok ps) =>
    match TableManager.new bc ps with
    | .error _ => none
    | .ok tm =>
      match TableManager.create_table bc tm name schema with
      | .error _ => none
      | .ok tm =>
        match TableManager.insert_messages bc tm name [m] with
        | none => none
        | some (.error _, _) => none
        | some (.ok _, tm) =>
          match TableManager.iter tm name with
          | .error _ => none
          | .ok (os, it) =>
            match runIter bc os 2 tm.paged_storage it with
            | none => none
            | some (out1, _) =>
              match PagedStorage.new bc tm.paged_storage.marble psz2 cap2 with
              | none => none
              | some (.error _) => none
              | some (.ok ps2) =>
                match TableManager.new bc ps2 with
                | .error _ => none
                | .ok tm2 =>
                  match TableManager.iter tm2 name with
                  | .error _ => none
                  | .ok (os2, it2) =>
                    match runIter bc os2 2 tm2.paged_storage it2 with
                    | none => none
                    | some (out2, _) => some (out1, out2)

/-- Scenario of claim C2: from a fresh directory, insert a batch into a
fresh object storage and then iterate what remains stored; reports the
insertion result together with the iteration output (none for an
iteration panic). -/
def c2Run (bc : Bincode γ) (page_size cap : Nat) (schema : MessageType)
    (msgs : List Message) :
    Option (Except ExecutorError Unit × Option (List Message)) :=
  match PagedStorage.new bc Marble.empty page_size cap with
  | none => none
  | some (.error _) => none
  | some (.ok ps) =>
    match ObjectStorage.insert_messages bc (ObjectStorage.new schema) ps msgs with
    | none => none
    | some (r, os, ps) =>
      match runIter bc os (msgs.length + 2) ps ObjectStorage.iter with
      | none => some (r, none)
      | some (out, _) => some (r, some out)

/-! ## Allocator scenario for claim C5 -/

/-- Fold free_id over a list of ids, in order. -/
def freeList (bc : Bincode γ) (s : Storage γ) : List Nat → Storage γ
  | [] => s
  | id :: rest => freeList bc (Storage.free_id bc s id) rest

/-- Collect the results of n successive allocate_id calls. -/
def allocList (bc : Bincode γ) : Storage γ → Nat → List Nat
  | _, 0 => []
  | s, n + 1 =>
    let (id, s) := Storage.allocate_id bc s
    id :: allocList bc s n

/-! ## Spec-side dependency description for claim C6 -/

/-- Images of a dependency list through the ref map, in order, skipping
absent keys (the skipping case never fires under the hypotheses of the
theorems below). -/
def refImages (ref_map : List (Nat × Nat)) (ds : List Nat) : List Nat :=
  ds.filterMap (alookup ref_map)

/-- The dependency list claim C6 ascribes to one projection output
column: for a composite-typed column whose expression bottoms out in a
column reference, the ref_map images of the source column dependencies;
otherwise no dependencies. -/
def depSpec (source_type : MessageType) (ref_map : List (Nat × Nat))
    (p : Expression × DBType) : List Nat :=
  if is_complex_type p.2 then
    match get_leaf_ref p.1 with
    | some idx =>
      match source_type.columns[idx]? with
      | some col => refImages ref_map col.dependencies
      | none => []
    | none => []
  else []

/-! ## Concrete instantiations used by witnesses and counterexamples -/

/-- Witness cell type: a cell can carry a whole persisted record, which
makes single-cell encoders with exact decoders. -/
inductive WVal where
  | w (v : WrappedMessage)
  | pg (h : PageHeader) (data : List WVal)
  | st (s : StorageState)
  | cat (c : TableManagerState)
  | pad

/-- A Bincode instance over WVal cells satisfying the bincode contract
by construction. -/
def wvalBincode : Bincode WVal :=
  { pad := .pad
    encodeW := fun v => [.w v]
    decodeW := fun l =>
      match l with
      | .w v :: _ => some (v, 1)
      | _ => none
    encodePage := fun p => [.pg p.header p.data]
    decodePage := fun l =>
      match l with
      | .pg h d :: _ => some (⟨h, d⟩, 1)
      | _ => none
    encodeState := fun s => [.st s]
    decodeState := fun l =>
      match l with
      | .st s :: _ => some (s, 1)
      | _ => none
    encodeCatalog := fun c => [.cat c]
    decodeCatalog := fun l =>
      match l with
      | .cat c :: _ => some (c, 1)
      | _ => none }

/-- A trivial Bincode over Nat cells for theorems that never decode. -/
def natBincode : Bincode Nat :=
  { pad := 0
    encodeW := fun _ => []
    decodeW := fun _ => none
    encodePage := fun _ => []
    decodePage := fun _ => none
    encodeState := fun _ => []
    decodeState := fun _ => none
    encodeCatalog := fun _ => []
    decodeCatalog := fun _ => none }

/-- A concrete cached page for the claim C4 counterexample. -/
def c4Page : Page Nat :=
  { header := { id := 100, page_type := .tableData, obj_count := 0 }, data := [] }

/-- A concrete paged storage whose cache holds c4Page clean. -/
def c4PS : PagedStorage Nat :=
  ⟨{ storage :=
      { marble := Marble.empty,
        state := { page_size := 64, next_page_id := 101, free_ids := [] } },
     pages := [(100, c4Page, false)],
     capacity := 4 }⟩

/-! ## Association list lemmas -/

theorem alookup_aupdate_self {α : Type} (l : List (Nat × α)) (k : Nat) (v : α) :
    alookup (aupdate l k v) k = some v := by
  induction l with
  | nil => simp [aupdate, alookup]
  | cons e rest ih =>
    obtain ⟨k', w⟩ := e
    by_cases h : k' = k
    · subst h
      simp [aupdate, alookup]
    · simp only [aupdate, if_neg h]
      simp only [alookup, if_neg h]
      exact ih

theorem alookup_aupdate_ne {α : Type} (l : List (Nat × α)) (k k' : Nat) (v : α)
    (h : k' ≠ k) : alookup (aupdate l k v) k' = alookup l k' := by
  induction l with
  | nil =>
    simp only [aupdate, alookup, if_neg (fun he : k = k' => h he.symm)]
  | cons e rest ih =>
    obtain ⟨k0, w⟩ := e
    by_cases h0 : k0 = k
    · subst h0
      simp [aupdate, alookup, if_neg (fun he : k0 = k' => h he.symm)]
    · simp only [aupdate, if_neg h0, alookup]
      by_cases h1 : k0 = k'
      · simp [h1]
      · simp only [if_neg h1]
        exact ih

theorem slookup_supdate_self {α : Type} (l : List (String × α)) (k : String) (v : α) :
    slookup (supdate l k v) k = some v := by
  induction l with
  | nil => simp [supdate, slookup]
  | cons e rest ih =>
    obtain ⟨k', w⟩ := e
    by_cases h : k' = k
    · subst h
      simp [supdate, slookup]
    · simp only [supdate, if_neg h]
      simp only [slookup, if_neg h]
      exact ih

/-! ## Claim C7 -/

/-- C7: deduce_binary_op_type on LessThan and GreaterThan returns Bool
whenever both operand types are equal and one of Int, UInt, Double or
String, returns WrongOperandTypes for every other combination, and never
returns the left operand type. -/
theorem deduce_compare_returns_bool (op : BinaryOperator) (l r : DBType)
    (hop : op = .lessThan ∨ op = .greaterThan) :
    (l = r ∧ (l = .int ∨ l = .uint ∨ l = .double ∨ l = .string) →
      deduce_binary_op_type op l r = .ok .bool) ∧
    (¬(l = r ∧ (l = .int ∨ l = .uint ∨ l = .double ∨ l = .string)) →
      deduce_binary_op_type op l r = .error .wrongOperandTypes) ∧
    deduce_binary_op_type op l r ≠ .ok l := by
  have main : deduce_binary_op_type op l r =
      if l = r ∧ (l = .int ∨ l = .uint ∨ l = .double ∨ l = .string) then
        Except.ok DBType.bool
      else Except.error PlannerError.wrongOperandTypes := by
    by_cases hlr : l = r
    · subst hlr
      rcases hop with rfl | rfl <;> cases l <;> simp [deduce_binary_op_type]
    · rw [if_neg (fun hand => hlr hand.1)]
      rcases hop with rfl | rfl <;> simp [deduce_binary_op_type, hlr]
  refine ⟨fun h => by rw [main, if_pos h], fun h => by rw [main, if_neg h], ?_⟩
  rw [main]
  by_cases h : l = r ∧ (l = .int ∨ l = .uint ∨ l = .double ∨ l = .string)
  · rw [if_pos h]
    rcases h.2 with rfl | rfl | rfl | rfl <;> simp
  · rw [if_neg h]
    simp

/-- Witness for C7 at Int operands. -/
theorem deduce_compare_returns_bool_witness :
    deduce_binary_op_type .lessThan .int .int = .ok .bool :=
  (deduce_compare_returns_bool .lessThan .int .int (Or.inl rfl)).1 ⟨rfl, Or.inl rfl⟩

/-! ## Claim C9 -/

/-- C9: pulling from a TableScan before open returns no row and leaves
the operator untouched, for every table manager state and table name,
because the iterator option is still none. -/
theorem tablescan_next_before_open {γ : Type} (bc : Bincode γ)
    (tm : TableManager γ) (name : String) :
    TableScan.next bc (TableScan.new tm name) =
      some (none, TableScan.new tm name) := rfl

/-! ## Claim C10 -/

/-- C10: insert_messages on an object storage with an empty pages list
allocates one data page (at the current next_page_id) and appends it to
pages before touching any message, so an empty batch still leaves the
table owning exactly one page, with nothing stored on it. -/
theorem insert_empty_batch_allocates_page {γ : Type} (bc : Bincode γ)
    (os : ObjectStorage) (ps : PagedStorage γ) (h : os.pages = []) :
    (ObjectStorage.insert_messages bc os ps []).map (fun r => (r.1, r.2.1)) =
      some (.ok (), { os with pages := [ps.storage.state.next_page_id] }) ∧
    (ObjectStorage.insert_messages bc os ps []).map
        (fun r => alookup r.2.2.buffer_pool.pages ps.storage.state.next_page_id) =
      some (some ({ header := { id := ps.storage.state.next_page_id,
                                page_type := .tableData, obj_count := 0 },
                    data := [] }, false)) := by
  have hlen : os.pages.length = 0 := by rw [h]; rfl
  constructor
  · unfold ObjectStorage.insert_messages ObjectStorage.add_page
      PagedStorage.allocate_page BufferPool.allocate_page Storage.allocate_page
    rw [if_pos hlen, h]
    rfl
  · unfold ObjectStorage.insert_messages ObjectStorage.add_page
      PagedStorage.allocate_page BufferPool.allocate_page Storage.allocate_page
    rw [if_pos hlen]
    exact congrArg some (alookup_aupdate_self _ _ _)

/-! ## Claim C4 -/

/-- Counterexample for C4 as stated: a successful set_obj_count call on
a clean cached page leaves the dirty bit false, not true. -/
theorem set_obj_count_leaves_clean_counterexample :
    (PagedStorage.set_obj_count natBincode c4PS 100 5).1 = .ok () ∧
    PagedStorage.dirtyOf (PagedStorage.set_obj_count natBincode c4PS 100 5).2 100 =
      some false ∧
    ¬ PagedStorage.dirtyOf (PagedStorage.set_obj_count natBincode c4PS 100 5).2 100 =
      some true := by
  refine ⟨rfl, rfl, by decide⟩

/-- C4 amended: append_data and write_data set the dirty bit on every
successful call, cut_data sets it when it shortens the data, and
set_obj_count leaves the dirty bit exactly as it was. -/
theorem mutators_dirty_amended {γ : Type} (bc : Bincode γ) (ps : PagedStorage γ)
    (id off len cnt : Nat) (data : List γ) :
    (∀ n, (PagedStorage.append_data bc ps id data).1 = .ok n →
      PagedStorage.dirtyOf (PagedStorage.append_data bc ps id data).2 id = some true) ∧
    ((PagedStorage.write_data bc ps id off data).1 = .ok () →
      PagedStorage.dirtyOf (PagedStorage.write_data bc ps id off data).2 id = some true) ∧
    (∀ bp page d, BufferPool.bump_page bc ps.buffer_pool id = .ok bp →
      alookup bp.pages id = some (page, d) → len < page.data.length →
      PagedStorage.dirtyOf (PagedStorage.cut_data bc ps id len).2 id = some true) ∧
    (∀ bp page d, BufferPool.bump_page bc ps.buffer_pool id = .ok bp →
      alookup bp.pages id = some (page, d) →
      PagedStorage.dirtyOf (PagedStorage.set_obj_count bc ps id cnt).2 id = some d) := by
  refine ⟨?_, ?_, ?_, ?_⟩
  · intro n hok
    unfold PagedStorage.append_data at hok ⊢
    cases hbump : BufferPool.bump_page bc ps.buffer_pool id with
    | error e => simp only [hbump] at hok; exact absurd hok (by simp)
    | ok bp =>
      simp only [hbump] at hok ⊢
      cases hl : alookup bp.pages id with
      | none => simp only [hl] at hok; exact absurd hok (by simp)
      | some entry =>
        obtain ⟨page, d⟩ := entry
        simp only [hl] at hok ⊢
        by_cases hfull : page.data.length + data.length > ps.page_size
        · simp only [if_pos hfull] at hok; exact absurd hok (by simp)
        · simp only [if_neg hfull]
          unfold PagedStorage.dirtyOf
          simp [alookup_aupdate_self]
  · intro hok
    unfold PagedStorage.write_data at hok ⊢
    cases hbump : BufferPool.bump_page bc ps.buffer_pool id with
    | error e => simp only [hbump] at hok; exact absurd hok (by simp)
    | ok bp =>
      simp only [hbump] at hok ⊢
      cases hl : alookup bp.pages id with
      | none => simp only [hl] at hok; exact absurd hok (by simp)
      | some entry =>
        obtain ⟨page, d⟩ := entry
        simp only [hl] at hok ⊢
        by_cases hfull : off + data.length > ps.page_size
        · simp only [if_pos hfull] at hok; exact absurd hok (by simp)
        · simp only [if_neg hfull]
          unfold PagedStorage.dirtyOf
          simp [alookup_aupdate_self]
  · intro bp page d hbump hl hshort
    unfold PagedStorage.cut_data
    simp only [hbump, hl, if_neg (by omega : ¬ len ≥ page.data.length)]
    unfold PagedStorage.dirtyOf
    simp [alookup_aupdate_self]
  · intro bp page d hbump hl
    unfold PagedStorage.set_obj_count
    simp only [hbump, hl]
    unfold PagedStorage.dirtyOf
    simp [alookup_aupdate_self]

/-- Witness for the amended C4 at a concrete append on the c4 state. -/
theorem mutators_dirty_amended_witness :
    PagedStorage.dirtyOf (PagedStorage.append_data natBincode c4PS 100 [7]).2 100 =
      some true :=
  (mutators_dirty_amended natBincode c4PS 100 0 0 0 [7]).1 1 rfl

/-- Witness for C10 on a concrete empty-pages storage. -/
theorem insert_empty_batch_allocates_page_witness :
    (ObjectStorage.insert_messages natBincode (ObjectStorage.new (.mk "T" []))
        c4PS []).map (fun r => (r.1, r.2.1)) =
      some (.ok (), { ObjectStorage.new (.mk "T" []) with pages := [101] }) :=
  (insert_empty_batch_allocates_page natBincode (ObjectStorage.new (.mk "T" []))
    c4PS rfl).1

/-! ## Claim C5 -/

theorem freeList_free_ids {γ : Type} (bc : Bincode γ) :
    ∀ (ids : List Nat) (s : Storage γ),
      (freeList bc s ids).state.free_ids = s.state.free_ids ++ ids := by
  intro ids
  induction ids with
  | nil => intro s; simp [freeList]
  | cons id rest ih =>
    intro s
    rw [freeList, ih]
    simp [Storage.free_id, Storage.save_state]

theorem allocList_drains {γ : Type} (bc : Bincode γ) :
    ∀ (q : List Nat) (s : Storage γ), s.state.free_ids = q →
      allocList bc s q.length = q := by
  intro q
  induction q with
  | nil => intro s _; rfl
  | cons id rest ih =>
    intro s hs
    have hstep : Storage.allocate_id bc s =
        (id, Storage.save_state bc { s with state := { s.state with free_ids := rest } }) := by
      unfold Storage.allocate_id
      rw [hs]
    rw [List.length_cons, allocList, hstep]
    exact congrArg (id :: ·) (ih _ rfl)

/-- C5: allocate_id returns the head of the free id queue when it is
non-empty and otherwise takes and increments next_page_id; consequently,
starting from an empty free queue, freeing ids and then allocating as
many times returns exactly those ids in FIFO order. -/
theorem allocator_fifo {γ : Type} (bc : Bincode γ) :
    (∀ (s : Storage γ) (id : Nat) (rest : List Nat),
      s.state.free_ids = id :: rest →
        (Storage.allocate_id bc s).1 = id ∧
        (Storage.allocate_id bc s).2.state.free_ids = rest) ∧
    (∀ s : Storage γ, s.state.free_ids = [] →
        (Storage.allocate_id bc s).1 = s.state.next_page_id ∧
        (Storage.allocate_id bc s).2.state.next_page_id =
          s.state.next_page_id + 1) ∧
    (∀ (s : Storage γ) (ids : List Nat), s.state.free_ids = [] →
        allocList bc (freeList bc s ids) ids.length = ids) := by
  refine ⟨?_, ?_, ?_⟩
  · intro s id rest hs
    unfold Storage.allocate_id
    rw [hs]
    exact ⟨rfl, rfl⟩
  · intro s hs
    unfold Storage.allocate_id
    rw [hs]
    exact ⟨rfl, rfl⟩
  · intro s ids hs
    have hq : (freeList bc s ids).state.free_ids = ids := by
      rw [freeList_free_ids, hs, List.nil_append]
    exact allocList_drains bc ids _ hq

/-- Witness for C5: free 5 then 7 on a fresh allocator, allocate twice,
get 5 then 7. -/
theorem allocator_fifo_witness :
    allocList natBincode
      (freeList natBincode
        ⟨Marble.empty, { page_size := 64, next_page_id := 100, free_ids := [] }⟩
        [5, 7]) 2 = [5, 7] :=
  (allocator_fifo natBincode).2.2
    ⟨Marble.empty, { page_size := 64, next_page_id := 100, free_ids := [] }⟩
    [5, 7] rfl

/-! ## Claim C3 -/

/-- C3: wrap_and_encode returns the inline Real encoding unchanged when
it fits into page_size; otherwise it allocates an id through
allocate_id, writes the Real encoding to that id in the blob store,
appends the id to overflow_pages, and returns the encoding of
Index(id). -/
theorem wrap_and_encode_spec {γ : Type} (bc : Bincode γ) (os : ObjectStorage)
    (m : Message) (s : Storage γ) :
    ((bc.encodeW (.real m)).length ≤ s.page_size →
      ObjectStorage.wrap_and_encode bc os m s = (bc.encodeW (.real m), os, s)) ∧
    (¬ (bc.encodeW (.real m)).length ≤ s.page_size →
      ObjectStorage.wrap_and_encode bc os m s =
        (bc.encodeW (.index (Storage.allocate_id bc s).1),
         { os with overflow_pages :=
             os.overflow_pages ++ [(Storage.allocate_id bc s).1] },
         { (Storage.allocate_id bc s).2 with marble := (Marble.write
             (Storage.allocate_id bc s).2.marble (Storage.allocate_id bc s).1
             (some (bc.encodeW (.real m)))) })) := by
  constructor
  · intro hfits
    unfold ObjectStorage.wrap_and_encode
    rw [if_pos hfits]
  · intro hbig
    unfold ObjectStorage.wrap_and_encode
    rw [if_neg hbig]

/-- Witness for C3: a one-cell encoding fits a 64-cell page. -/
theorem wrap_and_encode_spec_witness :
    ObjectStorage.wrap_and_encode wvalBincode
      (ObjectStorage.new (.mk "T" [])) (.mk none [])
      ⟨Marble.empty, { page_size := 64, next_page_id := 100, free_ids := [] }⟩ =
      (wvalBincode.encodeW (.real (.mk none [])),
        ObjectStorage.new (.mk "T" []),
        ⟨Marble.empty, { page_size := 64, next_page_id := 100, free_ids := [] }⟩) :=
  (wrap_and_encode_spec wvalBincode (ObjectStorage.new (.mk "T" [])) (.mk none [])
    ⟨Marble.empty, { page_size := 64, next_page_id := 100, free_ids := [] }⟩).1
    (by decide)

/-! ## Claim C8 -/

/-- The predicate a row must satisfy to pass the filter. -/
theorem filterNext_cases (e : Expression) :
    ∀ src : List Message, (∀ m ∈ src, (Expression.evaluate e m).isSome) →
      (src.filter (fun m => decide (Expression.evaluate e m = some (.bool true))) = []
        ∧ filterNext e src = some none) ∨
      (∃ m rest, filterNext e src = some (some (m, rest)) ∧
        Expression.evaluate e m = some (.bool true) ∧
        src.filter (fun m => decide (Expression.evaluate e m = some (.bool true))) =
          m :: rest.filter (fun m => decide (Expression.evaluate e m = some (.bool true))) ∧
        rest.length < src.length ∧
        (∀ x ∈ rest, (Expression.evaluate e x).isSome)) := by
  intro src
  induction src with
  | nil => intro _; exact Or.inl ⟨rfl, rfl⟩
  | cons m rest ih =>
    intro h
    have hm : (Expression.evaluate e m).isSome := h m (by simp)
    obtain ⟨v, hv⟩ := Option.isSome_iff_exists.mp hm
    have hrest : ∀ x ∈ rest, (Expression.evaluate e x).isSome :=
      fun x hx => h x (by simp [hx])
    by_cases hpass : v = DBValue.bool true
    · subst hpass
      refine Or.inr ⟨m, rest, ?_, hv, ?_, by rw [List.length_cons]; omega, hrest⟩
      · unfold filterNext
        rw [hv]
        simp
      · rw [List.filter_cons]
        simp [hv]
    · have hfail : ¬ Expression.evaluate e m = some (.bool true) := by
        rw [hv]
        exact fun he => hpass (Option.some_injective _ he)
      have hstep : filterNext e (m :: rest) = filterNext e rest := by
        simp only [filterNext, hv, if_neg hpass]
      have hfilter : (m :: rest).filter
          (fun m => decide (Expression.evaluate e m = some (.bool true))) =
          rest.filter (fun m => decide (Expression.evaluate e m = some (.bool true))) := by
        rw [List.filter_cons]
        simp [hfail]
      rcases ih hrest with ⟨hf, hn⟩ | ⟨m', rest', hn, hp, hf, hlen, hall⟩
      · exact Or.inl ⟨by rw [hfilter, hf], by rw [hstep, hn]⟩
      · exact Or.inr ⟨m', rest', by rw [hstep, hn], hp, by rw [hfilter, hf],
          by simp at hlen ⊢; omega, hall⟩

/-- C8: draining a Filter over the rows its source yields produces
exactly the subsequence of rows on which the expression evaluates to
Bool(true), in source order (under the well-typedness premise that every
evaluation returns a value, which the planner guarantees; otherwise the
Rust code would panic rather than filter). -/
theorem filter_yields_passing_subsequence (e : Expression) :
    ∀ (fuel : Nat) (src : List Message),
      (∀ m ∈ src, (Expression.evaluate e m).isSome) → src.length < fuel →
      runFilter e fuel src =
        some (src.filter (fun m => decide (Expression.evaluate e m = some (.bool true)))) := by
  intro fuel
  induction fuel with
  | zero => intro src _ h; exact absurd h (by omega)
  | succ fuel ih =>
    intro src hall hlen
    rcases filterNext_cases e src hall with ⟨hf, hn⟩ | ⟨m, rest, hn, hp, hf, hl, hrest⟩
    · simp only [runFilter, hn, hf]
    · simp only [runFilter, hn, ih rest hrest (by omega), hf]

/-- Witness for C8: a two-row source where only the first row passes. -/
theorem filter_yields_passing_subsequence_witness :
    runFilter (.columnRef 0) 3
      [.mk none [.bool true], .mk none [.bool false]] =
      some [.mk none [.bool true]] := by
  have hall : ∀ m ∈ [Message.mk none [DBValue.bool true],
      Message.mk none [DBValue.bool false]],
      (Expression.evaluate (.columnRef 0) m).isSome := by
    intro m hm
    cases hm with
    | head => simp [Expression.evaluate, Message.fields]
    | tail _ hm2 =>
      cases hm2 with
      | head => simp [Expression.evaluate, Message.fields]
      | tail _ hm3 => cases hm3
  have h := filter_yields_passing_subsequence (.columnRef 0) 3
    [.mk none [.bool true], .mk none [.bool false]] hall (by decide)
  rw [h]
  simp [Expression.evaluate, Message.fields]

/-! ## Claim C6 -/

theorem deduce_ok_leaf_inbounds (st : QueryPlannerState) :
    ∀ (e : Expression) (mt : MessageType) (t : DBType),
      deduce_expression_type st e mt = some (.ok t) →
      ∀ idx, get_leaf_ref e = some idx → idx < mt.columns.length
  | .literal _, _, _, _, idx, hleaf => by simp [get_leaf_ref] at hleaf
  | .binaryOp _ _ _, _, _, _, idx, hleaf => by simp [get_leaf_ref] at hleaf
  | .columnRef i, mt, t, hded, idx, hleaf => by
    have hidx : idx = i := by
      simp [get_leaf_ref] at hleaf
      omega
    subst hidx
    simp only [deduce_expression_type] at hded
    cases hc : mt.columns[idx]? with
    | none => rw [hc] at hded; exact absurd hded (by simp)
    | some c => exact List.getElem?_eq_some.mp hc |>.1
  | .unaryOp op expr, mt, t, hded, idx, hleaf => by
    simp only [deduce_expression_type] at hded
    cases hsub : deduce_expression_type st expr mt with
    | none => rw [hsub] at hded; exact absurd hded (by simp)
    | some r =>
      cases r with
      | error e0 => rw [hsub] at hded; exact absurd hded (by simp)
      | ok t0 =>
        have hleaf0 : get_leaf_ref expr = some idx := by
          simpa [get_leaf_ref] using hleaf
        exact deduce_ok_leaf_inbounds st expr mt t0 hsub idx hleaf0

theorem projTypesRef_ok_parts (st : QueryPlannerState) (src : MessageType) :
    ∀ (items : List (String × Expression)) (i : Nat) (rm0 : List (Nat × Nat))
      (types : List DBType) (ref_map : List (Nat × Nat)),
      projTypesRef st src items i rm0 = some (.ok (types, ref_map)) →
      types.length = items.length ∧
      ∀ p ∈ (items.map (·.2)).zip types,
        deduce_expression_type st p.1 src = some (.ok p.2) := by
  intro items
  induction items with
  | nil =>
    intro i rm0 types ref_map h
    simp only [projTypesRef] at h
    have : types = [] := by
      have := Option.some_injective _ h
      have := congrArg (fun r => match r with | .ok p => p.1 | .error _ => []) this
      simpa using this.symm
    subst this
    exact ⟨rfl, by simp⟩
  | cons item rest ih =>
    intro i rm0 types ref_map h
    obtain ⟨alias0, e⟩ := item
    simp only [projTypesRef] at h
    cases hd : deduce_expression_type st e src with
    | none => rw [hd] at h; exact absurd h (by simp)
    | some r =>
      rw [hd] at h
      cases r with
      | error e0 => exact absurd h (by simp)
      | ok t =>
        cases hrest : projTypesRef st src rest (i + 1) (refInsert rm0 e i) with
        | none => rw [hrest] at h; exact absurd h (by simp)
        | some r2 =>
          rw [hrest] at h
          cases r2 with
          | error e0 => exact absurd h (by simp)
          | ok p2 =>
            obtain ⟨types', rm'⟩ := p2
            simp only at h
            have hpair : types = t :: types' ∧ ref_map = rm' := by
              have := Option.some_injective _ h
              have h1 := congrArg (fun r => match r with | Except.ok q => q.1 | .error _ => []) this
              have h2 := congrArg (fun r => match r with | Except.ok q => q.2 | .error _ => []) this
              simp only at h1 h2
              exact ⟨h1.symm, h2.symm⟩
            obtain ⟨ht, _⟩ := hpair
            subst ht
            obtain ⟨hlen, hall⟩ := ih (i + 1) _ types' rm' hrest
            refine ⟨by simp [hlen], ?_⟩
            intro p hp
            simp only [List.map_cons, List.zip_cons_cons, List.mem_cons] at hp
            rcases hp with rfl | hp
            · exact hd
            · exact hall p hp

theorem mapDeps_ok_of_all_present (rm : List (Nat × Nat)) :
    ∀ ds : List Nat, (∀ d ∈ ds, (alookup rm d).isSome) →
      mapDeps rm ds = .ok (refImages rm ds) := by
  intro ds
  induction ds with
  | nil => intro _; rfl
  | cons d rest ih =>
    intro h
    have hd : (alookup rm d).isSome := h d (by simp)
    obtain ⟨nd, hnd⟩ := Option.isSome_iff_exists.mp hd
    have hrest := ih (fun x hx => h x (by simp [hx]))
    simp only [mapDeps, hnd, hrest, refImages, List.filterMap_cons]

theorem mapDeps_error_of_missing (rm : List (Nat × Nat)) :
    ∀ ds : List Nat, (∃ d ∈ ds, alookup rm d = none) →
      mapDeps rm ds = .error .dependencyDropped := by
  intro ds
  induction ds with
  | nil => intro h; simp at h
  | cons d rest ih =>
    intro h
    cases hd : alookup rm d with
    | none => simp only [mapDeps, hd]
    | some nd =>
      obtain ⟨d0, hd0, hmiss⟩ := h
      rcases List.mem_cons.mp hd0 with heq | hd0
      · subst heq
        rw [hd] at hmiss
        exact absurd hmiss (by simp)
      · simp only [mapDeps, hd, ih ⟨d0, hd0, hmiss⟩]

theorem mapDeps_ok_all_present (rm : List (Nat × Nat)) :
    ∀ (ds : List Nat) (out : List Nat), mapDeps rm ds = .ok out →
      ∀ d ∈ ds, (alookup rm d).isSome := by
  intro ds
  induction ds with
  | nil => intro out _ d hd; simp at hd
  | cons d0 rest ih =>
    intro out h d hd
    cases hl : alookup rm d0 with
    | none => rw [mapDeps, hl] at h; exact absurd h (by simp)
    | some nd =>
      rw [mapDeps, hl] at h
      rcases List.mem_cons.mp hd with rfl | hd
      · simp [hl]
      · cases hrest : mapDeps rm rest with
        | error e0 => rw [hrest] at h; exact absurd h (by simp)
        | ok out' => exact ih out' hrest d hd

theorem mapDeps_error_elim (rm : List (Nat × Nat)) :
    ∀ (ds : List Nat) (e : PlannerError), mapDeps rm ds = .error e →
      e = .dependencyDropped := by
  intro ds
  induction ds with
  | nil => intro e h; exact absurd h (by simp [mapDeps])
  | cons d rest ih =>
    intro e h
    cases hl : alookup rm d with
    | none =>
      rw [mapDeps, hl] at h
      injection h with h2
      exact h2.symm
    | some nd =>
      rw [mapDeps, hl] at h
      cases hrest : mapDeps rm rest with
      | error e0 =>
        rw [hrest] at h
        injection h with h2
        exact h2 ▸ ih e0 hrest
      | ok out => rw [hrest] at h; exact absurd h (by simp)

theorem projDeps_ok (src : MessageType) (rm : List (Nat × Nat)) :
    ∀ zipped : List (Expression × DBType),
      (∀ p ∈ zipped, ∀ idx, get_leaf_ref p.1 = some idx →
        ∃ col, src.columns[idx]? = some col) →
      (∀ p ∈ zipped, is_complex_type p.2 = true →
        ∀ idx, get_leaf_ref p.1 = some idx →
        ∀ col, src.columns[idx]? = some col →
        ∀ d ∈ col.dependencies, (alookup rm d).isSome) →
      projDeps src rm zipped = some (.ok (zipped.map (depSpec src rm))) := by
  intro zipped
  induction zipped with
  | nil => intro _ _; rfl
  | cons p rest ih =>
    intro hin hpres
    obtain ⟨e, t⟩ := p
    have hinr : ∀ p ∈ rest, ∀ idx, get_leaf_ref p.1 = some idx →
        ∃ col, src.columns[idx]? = some col :=
      fun p hp => hin p (by simp [hp])
    have hpresr : ∀ p ∈ rest, is_complex_type p.2 = true →
        ∀ idx, get_leaf_ref p.1 = some idx →
        ∀ col, src.columns[idx]? = some col →
        ∀ d ∈ col.dependencies, (alookup rm d).isSome :=
      fun p hp => hpres p (by simp [hp])
    by_cases hcx : is_complex_type t = true
    · cases hleaf : get_leaf_ref e with
      | some idx =>
        obtain ⟨col, hcol⟩ := hin (e, t) (by simp) idx hleaf
        have hmd := mapDeps_ok_of_all_present rm col.dependencies
          (hpres (e, t) (by simp) hcx idx hleaf col hcol)
        simp only [projDeps, if_pos hcx, hleaf, hcol, hmd, ih hinr hpresr,
          List.map_cons, depSpec]
      | none =>
        simp only [projDeps, if_pos hcx, hleaf, ih hinr hpresr,
          List.map_cons, depSpec]
    · simp only [projDeps, if_neg hcx, ih hinr hpresr, List.map_cons, depSpec]

theorem projDeps_error (src : MessageType) (rm : List (Nat × Nat)) :
    ∀ zipped : List (Expression × DBType),
      (∀ p ∈ zipped, ∀ idx, get_leaf_ref p.1 = some idx →
        ∃ col, src.columns[idx]? = some col) →
      (∃ p ∈ zipped, is_complex_type p.2 = true ∧
        ∃ idx, get_leaf_ref p.1 = some idx ∧
          ∃ col, src.columns[idx]? = some col ∧
            ∃ d ∈ col.dependencies, alookup rm d = none) →
      projDeps src rm zipped = some (.error .dependencyDropped) := by
  intro zipped
  induction zipped with
  | nil => intro _ h; simp at h
  | cons p rest ih =>
    intro hin hex
    obtain ⟨e, t⟩ := p
    have hinr : ∀ p ∈ rest, ∀ idx, get_leaf_ref p.1 = some idx →
        ∃ col, src.columns[idx]? = some col :=
      fun p hp => hin p (by simp [hp])
    obtain ⟨p0, hp0, hcx0, idx0, hleaf0, col0, hcol0, hmiss0⟩ := hex
    rcases List.mem_cons.mp hp0 with heq | hp0
    · subst heq
      have hmd := mapDeps_error_of_missing rm col0.dependencies hmiss0
      simp only [projDeps, if_pos hcx0, hleaf0, hcol0, hmd]
    · by_cases hcx : is_complex_type t = true
      · cases hleaf : get_leaf_ref e with
        | some idx =>
          obtain ⟨col, hcol⟩ := hin (e, t) (by simp) idx hleaf
          cases hmd : mapDeps rm col.dependencies with
          | error e0 =>
            have : e0 = .dependencyDropped := mapDeps_error_elim rm _ e0 hmd
            subst this
            simp only [projDeps, if_pos hcx, hleaf, hcol, hmd]
          | ok ds =>
            simp only [projDeps, if_pos hcx, hleaf, hcol, hmd,
              ih hinr ⟨p0, hp0, hcx0, idx0, hleaf0, col0, hcol0, hmiss0⟩]
        | none =>
          simp only [projDeps, if_pos hcx, hleaf,
            ih hinr ⟨p0, hp0, hcx0, idx0, hleaf0, col0, hcol0, hmiss0⟩]
      · simp only [projDeps, if_neg hcx,
          ih hinr ⟨p0, hp0, hcx0, idx0, hleaf0, col0, hcol0, hmiss0⟩]

/-- C6: in the Projection lowering, for every output column of composite
deduced type whose expression is a chain of unary operators over a
column reference, every dependency of the referenced source column must
be a key of the ref_map built from the bare column reference items: if
one is absent the lowering fails with DependencyDropped, and otherwise
the new column carries exactly the ref_map images of the source column
dependencies (and non-composite or non-reference columns carry none). -/
theorem projection_dependency_propagation (st : QueryPlannerState)
    (src : MessageType) (items : List (String × Expression))
    (types : List DBType) (ref_map : List (Nat × Nat))
    (hT : projTypesRef st src items 0 [] = some (.ok (types, ref_map))) :
    ((∃ p ∈ (items.map (·.2)).zip types, is_complex_type p.2 = true ∧
        ∃ idx, get_leaf_ref p.1 = some idx ∧
          ∃ col, src.columns[idx]? = some col ∧
            ∃ d ∈ col.dependencies, alookup ref_map d = none) →
      build_projection_type st src items = some (.error .dependencyDropped)) ∧
    ((∀ p ∈ (items.map (·.2)).zip types, is_complex_type p.2 = true →
        ∀ idx, get_leaf_ref p.1 = some idx →
          ∀ col, src.columns[idx]? = some col →
            ∀ d ∈ col.dependencies, (alookup ref_map d).isSome) →
      build_projection_type st src items =
        some (.ok (.mk "" ((items.zip (types.zip
          (((items.map (·.2)).zip types).map (depSpec src ref_map)))).map
          (fun p => Column.mk p.1.1 p.2.1 p.2.2))))) := by
  obtain ⟨hlen, hded⟩ := projTypesRef_ok_parts st src items 0 [] types ref_map hT
  have hin : ∀ p ∈ (items.map (·.2)).zip types, ∀ idx,
      get_leaf_ref p.1 = some idx → ∃ col, src.columns[idx]? = some col := by
    intro p hp idx hleaf
    have hlt := deduce_ok_leaf_inbounds st p.1 src p.2 (hded p hp) idx hleaf
    exact ⟨src.columns[idx], List.getElem?_eq_getElem hlt⟩
  constructor
  · intro hex
    have hpd := projDeps_error src ref_map _ hin hex
    unfold build_projection_type
    simp only [hT, hpd]
  · intro hpres
    have hpd := projDeps_ok src ref_map _ hin hpres
    unfold build_projection_type
    simp only [hT, hpd]

/-- Witness for C6 at the failing direction: projecting only a composite
column whose source column depends on a dropped column. -/
theorem projection_dependency_propagation_witness :
    build_projection_type
      { message_types := [], enum_types := [] }
      (.mk "S" [.mk "a" .uint [], .mk "b" (.messageType (.mk "M" [])) [0]])
      [("x", .columnRef 1)] =
      some (.error .dependencyDropped) := by
  have hT : projTypesRef { message_types := [], enum_types := [] }
      (.mk "S" [.mk "a" .uint [], .mk "b" (.messageType (.mk "M" [])) [0]])
      [("x", .columnRef 1)] 0 [] =
      some (.ok ([.messageType (.mk "M" [])], [(1, 0)])) := by
    simp [projTypesRef, refInsert, deduce_expression_type, MessageType.columns,
      Column.column_type, aupdate]
  refine (projection_dependency_propagation _ _ _ _ _ hT).1
    ⟨(.columnRef 1, .messageType (.mk "M" [])), by simp, rfl, 1, rfl,
      .mk "b" (.messageType (.mk "M" [])) [0], rfl, 0, by simp [Column.dependencies], rfl⟩

/-! ## Cache bookkeeping lemmas -/

theorem alookup_mem {α : Type} :
    ∀ (l : List (Nat × α)) (k : Nat) (v : α), alookup l k = some v → (k, v) ∈ l := by
  intro l
  induction l with
  | nil => intro k v h; exact absurd h (by simp [alookup])
  | cons e rest ih =>
    intro k v h
    obtain ⟨k0, w⟩ := e
    by_cases hk : k0 = k
    · subst hk
      rw [alookup, if_pos rfl] at h
      injection h with h2
      subst h2
      exact List.mem_cons_self _ _
    · rw [alookup, if_neg hk] at h
      exact List.mem_cons_of_mem _ (ih k v h)

theorem alookup_isSome_iff {α : Type} :
    ∀ (l : List (Nat × α)) (k : Nat),
      (alookup l k).isSome ↔ k ∈ l.map (·.1) := by
  intro l
  induction l with
  | nil => intro k; simp [alookup]
  | cons e rest ih =>
    intro k
    obtain ⟨k0, w⟩ := e
    by_cases hk : k0 = k
    · subst hk
      simp [alookup]
    · rw [alookup, if_neg hk]
      simp only [List.map_cons, List.mem_cons]
      rw [ih]
      constructor
      · exact Or.inr
      · rintro (heq | hm)
        · exact absurd heq.symm hk
        · exact hm

theorem alookup_of_mem_nodup {α : Type} :
    ∀ (l : List (Nat × α)) (k : Nat) (v : α),
      (l.map (·.1)).Nodup → (k, v) ∈ l → alookup l k = some v := by
  intro l
  induction l with
  | nil => intro k v _ h; exact absurd h (by simp)
  | cons e rest ih =>
    intro k v hnd hm
    obtain ⟨k0, w⟩ := e
    rw [List.map_cons, List.nodup_cons] at hnd
    rcases List.mem_cons.mp hm with heq | hm
    · injection heq with h1 h2
      subst h1
      subst h2
      rw [alookup, if_pos rfl]
    · have hk : k0 ≠ k := by
        intro hk
        subst hk
        exact hnd.1 (by
          have : (k0, v) ∈ rest := hm
          exact List.mem_map.mpr ⟨(k0, v), this, rfl⟩)
      rw [alookup, if_neg hk]
      exact ih k v hnd.2 hm

theorem aerase_keys {α : Type} :
    ∀ (l : List (Nat × α)) (k : Nat) (x : Nat),
      x ∈ (aerase l k).map (·.1) → x ∈ l.map (·.1) := by
  intro l
  induction l with
  | nil => intro k x h; simpa [aerase] using h
  | cons e rest ih =>
    intro k x h
    obtain ⟨k0, w⟩ := e
    by_cases hk : k0 = k
    · rw [aerase, if_pos hk] at h
      exact List.mem_cons_of_mem _ h
    · rw [aerase, if_neg hk] at h
      rcases List.mem_cons.mp h with heq | hm
      · exact heq ▸ List.mem_cons_self _ _
      · exact List.mem_cons_of_mem _ (ih k x hm)

theorem aerase_nodup {α : Type} :
    ∀ (l : List (Nat × α)) (k : Nat),
      (l.map (·.1)).Nodup → ((aerase l k).map (·.1)).Nodup := by
  intro l
  induction l with
  | nil => intro k _; simp [aerase]
  | cons e rest ih =>
    intro k hnd
    obtain ⟨k0, w⟩ := e
    rw [List.map_cons, List.nodup_cons] at hnd
    by_cases hk : k0 = k
    · rw [aerase, if_pos hk]
      exact hnd.2
    · rw [aerase, if_neg hk, List.map_cons, List.nodup_cons]
      exact ⟨fun hm => hnd.1 (aerase_keys rest k k0 hm), ih k hnd.2⟩

theorem alookup_aerase_ne {α : Type} :
    ∀ (l : List (Nat × α)) (k k' : Nat), k' ≠ k →
      alookup (aerase l k) k' = alookup l k' := by
  intro l
  induction l with
  | nil => intro k k' _; rfl
  | cons e rest ih =>
    intro k k' hne
    obtain ⟨k0, w⟩ := e
    by_cases hk : k0 = k
    · subst hk
      rw [aerase, if_pos rfl, alookup, if_neg (fun h : k0 = k' => hne h.symm)]
    · rw [aerase, if_neg hk]
      by_cases hk' : k0 = k'
      · rw [alookup, if_pos hk', alookup, if_pos hk']
      · rw [alookup, if_neg hk', alookup, if_neg hk']
        exact ih k k' hne

theorem alookup_aerase_self {α : Type} :
    ∀ (l : List (Nat × α)) (k : Nat), (l.map (·.1)).Nodup →
      alookup (aerase l k) k = none := by
  intro l
  induction l with
  | nil => intro k _; rfl
  | cons e rest ih =>
    intro k hnd
    obtain ⟨k0, w⟩ := e
    rw [List.map_cons, List.nodup_cons] at hnd
    by_cases hk : k0 = k
    · subst hk
      rw [aerase, if_pos rfl]
      cases hl : alookup rest k0 with
      | none => rfl
      | some v =>
        exact absurd (List.mem_map.mpr ⟨(k0, v), alookup_mem rest k0 v hl, rfl⟩) hnd.1
    · rw [aerase, if_neg hk, alookup, if_neg hk]
      exact ih k hnd.2

theorem aupdate_keys {α : Type} :
    ∀ (l : List (Nat × α)) (k : Nat) (v : α) (x : Nat),
      x ∈ (aupdate l k v).map (·.1) → x = k ∨ x ∈ l.map (·.1) := by
  intro l
  induction l with
  | nil => intro k v x h; simpa [aupdate] using h
  | cons e rest ih =>
    intro k v x h
    obtain ⟨k0, w⟩ := e
    by_cases hk : k0 = k
    · rw [aupdate, if_pos hk] at h
      rcases List.mem_cons.mp h with heq | hm
      · exact Or.inl heq
      · exact Or.inr (List.mem_cons_of_mem _ hm)
    · rw [aupdate, if_neg hk] at h
      rcases List.mem_cons.mp h with heq | hm
      · exact Or.inr (heq ▸ List.mem_cons_self _ _)
      · rcases ih k v x hm with heq | hm2
        · exact Or.inl heq
        · exact Or.inr (List.mem_cons_of_mem _ hm2)

theorem aupdate_nodup {α : Type} :
    ∀ (l : List (Nat × α)) (k : Nat) (v : α),
      (l.map (·.1)).Nodup → ((aupdate l k v).map (·.1)).Nodup := by
  intro l
  induction l with
  | nil => intro k v _; simp [aupdate]
  | cons e rest ih =>
    intro k v hnd
    obtain ⟨k0, w⟩ := e
    rw [List.map_cons, List.nodup_cons] at hnd
    by_cases hk : k0 = k
    · subst hk
      rw [aupdate, if_pos rfl, List.map_cons, List.nodup_cons]
      exact hnd
    · rw [aupdate, if_neg hk, List.map_cons, List.nodup_cons]
      refine ⟨fun hm => ?_, ih k v hnd.2⟩
      rcases aupdate_keys rest k v k0 hm with heq | hm2
      · exact hk heq
      · exact hnd.1 hm2

/-! ## PageRep lemmas -/

theorem PageRep_stable {γ : Type} (bc : Bincode γ) (mar mar2 : Marble γ)
    (ovf : List Nat) (hagree : ∀ id ∈ ovf, mar2 id = mar id) :
    ∀ (data : List γ) (ms : List Message),
      PageRep bc mar ovf data ms → PageRep bc mar2 ovf data ms := by
  intro data ms h
  induction h with
  | nil => exact .nil
  | cons chunk w m data0 ms0 hdec hunwrap hovf _ ih =>
    refine .cons chunk w m data0 ms0 hdec ?_ hovf ih
    cases w with
    | real m0 => exact hunwrap
    | index id =>
      obtain ⟨bs, hbs, k, hk⟩ := hunwrap
      exact ⟨bs, (hagree id (hovf id rfl)) ▸ hbs, k, hk⟩

theorem PageRep_mono_ovf {γ : Type} (bc : Bincode γ) (mar : Marble γ)
    (ovf ovf2 : List Nat) (hsub : ∀ id ∈ ovf, id ∈ ovf2) :
    ∀ (data : List γ) (ms : List Message),
      PageRep bc mar ovf data ms → PageRep bc mar ovf2 data ms := by
  intro data ms h
  induction h with
  | nil => exact .nil
  | cons chunk w m data0 ms0 hdec hunwrap hovf _ ih =>
    exact .cons chunk w m data0 ms0 hdec hunwrap
      (fun id hw => hsub id (hovf id hw)) ih

theorem PageRep_snoc {γ : Type} (bc : Bincode γ) (mar : Marble γ)
    (ovf : List Nat) (chunk : List γ) (w : WrappedMessage) (m : Message)
    (hdec : ∀ rest, bc.decodeW (chunk ++ rest) = some (w, chunk.length))
    (hunwrap : UnwrapOK bc mar w m)
    (hovf : ∀ id, w = .index id → id ∈ ovf) :
    ∀ (data : List γ) (ms : List Message), PageRep bc mar ovf data ms →
      PageRep bc mar ovf (data ++ chunk) (ms ++ [m]) := by
  intro data ms h
  induction h with
  | nil =>
    have := @PageRep.cons γ bc mar ovf chunk w m [] []
      hdec hunwrap hovf PageRep.nil
    simpa using this
  | cons chunk0 w0 m0 data0 ms0 hdec0 hunwrap0 hovf0 _ ih =>
    have := @PageRep.cons γ bc mar ovf chunk0 w0 m0
      (data0 ++ chunk) (ms0 ++ [m]) hdec0 hunwrap0 hovf0 ih
    simpa [List.append_assoc] using this

/-! ## Buffer pool step lemmas -/

theorem BPStep_refl {γ : Type} (bc : Bincode γ) (bp : BufferPool γ)
    (hok : CacheOK bc bp) (keys : List Nat) : BPStep bc bp bp keys :=
  ⟨fun _ => rfl, fun _ _ => rfl, rfl, fun k hk => Or.inr hk, hok, rfl⟩

theorem pop_page_step {γ : Type} (bc : Bincode γ) (hbc : BincodeOK bc)
    (bp : BufferPool γ) (hok : CacheOK bc bp) :
    BPStep bc bp (BufferPool.pop_page bc bp) [] := by
  unfold BufferPool.pop_page
  cases hf : bp.pages.find? (fun e => !e.2.2) with
  | some entry =>
    obtain ⟨id, p, d⟩ := entry
    have hmem : (id, p, d) ∈ bp.pages := List.mem_of_find?_eq_some hf
    have hdirty : d = false := by
      have := List.find?_some hf
      simpa using this
    subst hdirty
    have hlk : alookup bp.pages id = some (p, false) :=
      alookup_of_mem_nodup bp.pages id (p, false) hok.nodup hmem
    refine ⟨?_, fun _ _ => rfl, rfl, ?_, ?_, rfl⟩
    · intro j
      by_cases hj : j = id
      · subst hj
        unfold bpView
        rw [alookup_aerase_self bp.pages j hok.nodup, hlk]
        obtain ⟨bs, hbs, k2, hk2⟩ := hok.cleanDisk j p hlk
        simp [hbs, hk2]
      · unfold bpView
        rw [alookup_aerase_ne bp.pages id j hj]
    · intro k hk
      exact Or.inr (aerase_keys bp.pages id k hk)
    · refine ⟨aerase_nodup bp.pages id hok.nodup, ?_, ?_⟩
      · intro k q dq hq
        by_cases hkid : k = id
        · subst hkid
          rw [alookup_aerase_self bp.pages k hok.nodup] at hq
          exact absurd hq (by simp)
        · exact hok.headerId k q dq (alookup_aerase_ne bp.pages id k hkid ▸ hq)
      · intro k q hq
        by_cases hkid : k = id
        · subst hkid
          rw [alookup_aerase_self bp.pages k hok.nodup] at hq
          exact absurd hq (by simp)
        · exact hok.cleanDisk k q (alookup_aerase_ne bp.pages id k hkid ▸ hq)
  | none =>
    simp only [hf]
    cases hpages : bp.pages with
    | nil => exact BPStep_refl bc bp hok []
    | cons entry rest =>
      obtain ⟨k, p, d⟩ := entry
      have hd : d = true := by
        have := List.find?_eq_none.mp hf (k, p, d) (hpages ▸ List.mem_cons_self _ _)
        simpa using this
      subst hd
      have hnd := hok.nodup
      rw [hpages, List.map_cons, List.nodup_cons] at hnd
      have hlk : alookup bp.pages k = some (p, true) := by
        rw [hpages, alookup, if_pos rfl]
      have hhdr : p.header.id = k := hok.headerId k p true hlk
      refine ⟨?_, ?_, rfl, ?_, ?_, rfl⟩
      · intro j
        by_cases hj : j = k
        · subst hj
          have hrest : alookup rest j = none := by
            cases hr : alookup rest j with
            | none => rfl
            | some v =>
              exact absurd (List.mem_map.mpr ⟨(j, v), alookup_mem rest j v hr, rfl⟩)
                hnd.1
          show (match alookup rest j with
            | some (q, _) => some q
            | none =>
              match (Storage.write_page bc bp.storage p).marble j with
              | some bs => (bc.decodePage bs).map (·.1)
              | none => none) = bpView bc bp j
          rw [hrest]
          unfold Storage.write_page Marble.write
          rw [hhdr]
          simp only [if_pos rfl]
          obtain ⟨k2, hk2⟩ := hbc.decPage p
          unfold bpView
          rw [hlk]
          simp [hk2]
        · show (match alookup rest j with
            | some (q, _) => some q
            | none =>
              match (Storage.write_page bc bp.storage p).marble j with
              | some bs => (bc.decodePage bs).map (·.1)
              | none => none) = bpView bc bp j
          have hbpj : alookup bp.pages j = alookup rest j := by
            rw [hpages, alookup, if_neg (fun h : k = j => hj h.symm)]
          unfold bpView
          rw [hbpj]
          cases hr : alookup rest j with
          | some v => rfl
          | none =>
            unfold Storage.write_page Marble.write
            rw [hhdr]
            dsimp only
            rw [if_neg hj]
      · intro j hjnot
        have hjk : j ≠ k := by
          intro hjk
          subst hjk
          exact hjnot (by rw [hpages]; simp)
        show (Storage.write_page bc bp.storage p).marble j = bp.storage.marble j
        unfold Storage.write_page Marble.write
        rw [hhdr]
        dsimp only
        rw [if_neg hjk]
      · intro x hx
        rw [hpages]
        simp only [List.map_cons]
        exact Or.inr (List.mem_cons_of_mem _ hx)
      · refine ⟨hnd.2, ?_, ?_⟩
        · intro j q dq hq
          have hjk : k ≠ j := by
            intro hjk
            subst hjk
            exact hnd.1 (List.mem_map.mpr ⟨(k, q, dq), alookup_mem rest k _ hq, rfl⟩)
          have : alookup bp.pages j = some (q, dq) := by
            rw [hpages, alookup, if_neg hjk]
            exact hq
          exact hok.headerId j q dq this
        · intro j q hq
          have hjk : k ≠ j := by
            intro hjk
            subst hjk
            exact hnd.1 (List.mem_map.mpr ⟨(k, q, false), alookup_mem rest k _ hq, rfl⟩)
          have hold : alookup bp.pages j = some (q, false) := by
            rw [hpages, alookup, if_neg hjk]
            exact hq
          obtain ⟨bs, hbs, k2, hk2⟩ := hok.cleanDisk j q hold
          refine ⟨bs, ?_, k2, hk2⟩
          show (Storage.write_page bc bp.storage p).marble j = some bs
          unfold Storage.write_page Marble.write
          rw [hhdr]
          dsimp only
          rw [if_neg (fun h : j = k => hjk h.symm)]
          exact hbs


theorem bump_page_step {γ : Type} (bc : Bincode γ) (hbc : BincodeOK bc)
    (bp : BufferPool γ) (hok : CacheOK bc bp) (id : Nat) (pg : Page γ)
    (hview : bpView bc bp id = some pg) (hhdr : pg.header.id = id) :
    ∃ bp2 d, BufferPool.bump_page bc bp id = .ok bp2 ∧ BPStep bc bp bp2 [id] ∧
      alookup bp2.pages id = some (pg, d) := by
  cases hl : alookup bp.pages id with
  | some entry =>
    obtain ⟨p, d⟩ := entry
    have hp : p = pg := by
      unfold bpView at hview
      rw [hl] at hview
      exact Option.some_injective _ hview
    subst hp
    refine ⟨bp, d, ?_, BPStep_refl bc bp hok [id], hl⟩
    unfold BufferPool.bump_page
    simp [hl]
  | none =>
    have hnotmem : id ∉ bp.pages.map (·.1) := by
      rw [← alookup_isSome_iff]
      simp [hl]
    have hdisk : ∃ bs pr, bp.storage.marble id = some bs ∧
        bc.decodePage bs = some pr ∧ pr.1 = pg := by
      unfold bpView at hview
      rw [hl] at hview
      cases hm : bp.storage.marble id with
      | none =>
        simp only [hm] at hview
        exact absurd hview (by simp)
      | some bs =>
        simp only [hm] at hview
        cases hd : bc.decodePage bs with
        | none =>
          simp only [hd] at hview
          exact absurd hview (by simp)
        | some pr =>
          simp only [hd] at hview
          exact ⟨bs, pr, rfl, hd, by simpa using hview⟩
    obtain ⟨bs, pr, hm, hd, hpr⟩ := hdisk
    obtain ⟨p1, k1⟩ := pr
    have hp1 : p1 = pg := hpr
    subst hp1
    have hread : Storage.read_page bc bp.storage id = .ok p1 := by
      unfold Storage.read_page
      simp only [hm, hd]
    have hstep3 : BPStep bc bp (if bp.pages.length ≥ bp.capacity
        then BufferPool.pop_page bc bp else bp) [] := by
      by_cases hcap : bp.pages.length ≥ bp.capacity
      · rw [if_pos hcap]
        exact pop_page_step bc hbc bp hok
      · rw [if_neg hcap]
        exact BPStep_refl bc bp hok []
    generalize hbp3 : (if bp.pages.length ≥ bp.capacity
        then BufferPool.pop_page bc bp else bp) = bp3 at hstep3
    have hnot3 : id ∉ bp3.pages.map (·.1) := fun hmem =>
      (hstep3.keysSub id hmem).elim (by simp) hnotmem
    have hmar3 : bp3.storage.marble id = some bs :=
      (hstep3.marbleOut id hnotmem).trans hm
    have hbump : BufferPool.bump_page bc bp id =
        .ok { bp3 with pages := aupdate bp3.pages id (p1, false) } := by
      unfold BufferPool.bump_page
      rw [hl, hbp3]
      simp only [Option.isSome_none, Bool.false_eq_true, if_false, hread]
    refine ⟨_, false, hbump, ⟨?_, ?_, hstep3.stateEq, ?_, ⟨?_, ?_, ?_⟩,
      hstep3.capEq⟩, alookup_aupdate_self _ _ _⟩
    · intro j
      by_cases hj : j = id
      · subst hj
        rw [hview]
        show (match alookup (aupdate bp3.pages j (p1, false)) j with
          | some (q, _) => some q
          | none =>
            match bp3.storage.marble j with
            | some bs2 => (bc.decodePage bs2).map (·.1)
            | none => none) = some p1
        rw [alookup_aupdate_self]
      · show (match alookup (aupdate bp3.pages id (p1, false)) j with
          | some (q, _) => some q
          | none =>
            match bp3.storage.marble j with
            | some bs2 => (bc.decodePage bs2).map (·.1)
            | none => none) = bpView bc bp j
        rw [alookup_aupdate_ne _ _ _ _ hj]
        exact hstep3.view j
    · intro j hjnot
      exact hstep3.marbleOut j hjnot
    · intro k hk
      rcases aupdate_keys bp3.pages id (p1, false) k hk with heq | hmem
      · exact Or.inl (by simp [heq])
      · rcases hstep3.keysSub k hmem with h0 | h1
        · exact absurd h0 (by simp)
        · exact Or.inr h1
    · exact aupdate_nodup bp3.pages id (p1, false) hstep3.cacheOk.nodup
    · intro k q dq hq
      by_cases hk : k = id
      · subst hk
        rw [alookup_aupdate_self] at hq
        injection hq with h2
        cases h2
        exact hhdr
      · rw [alookup_aupdate_ne _ _ _ _ hk] at hq
        exact hstep3.cacheOk.headerId k q dq hq
    · intro k q hq
      by_cases hk : k = id
      · subst hk
        rw [alookup_aupdate_self] at hq
        injection hq with h2
        cases h2
        exact ⟨bs, hmar3, k1, hd⟩
      · rw [alookup_aupdate_ne _ _ _ _ hk] at hq
        exact hstep3.cacheOk.cleanDisk k q hq

theorem get_page_step {γ : Type} (bc : Bincode γ) (hbc : BincodeOK bc)
    (bp : BufferPool γ) (hok : CacheOK bc bp) (id : Nat) (pg : Page γ)
    (hview : bpView bc bp id = some pg) (hhdr : pg.header.id = id) :
    ∃ d bp2, BufferPool.get_page bc bp id = .ok (pg, d, bp2) ∧
      BPStep bc bp bp2 [id] ∧ alookup bp2.pages id = some (pg, d) := by
  obtain ⟨bp2, d, hbump, hstep, hlk⟩ :=
    bump_page_step bc hbc bp hok id pg hview hhdr
  refine ⟨d, bp2, ?_, hstep, hlk⟩
  unfold BufferPool.get_page
  simp only [hbump, hlk]

/-! ## Paged storage mutator lemmas -/

theorem PSWrite_of_update {γ : Type} (bc : Bincode γ) (ps : PagedStorage γ)
    (bp2 : BufferPool γ) (id : Nat)
    (hstep : BPStep bc ps.buffer_pool bp2 [id]) (newpg : Page γ)
    (hnewhdr : newpg.header.id = id) :
    PSWrite bc ps ⟨{ bp2 with pages := aupdate bp2.pages id (newpg, true) }⟩
      id newpg := by
  refine ⟨?_, ?_, ?_, hstep.stateEq, ?_, ⟨?_, ?_, ?_⟩, hstep.capEq⟩
  · show (match alookup (aupdate bp2.pages id (newpg, true)) id with
      | some (q, _) => some q
      | none =>
        match bp2.storage.marble id with
        | some bs => (bc.decodePage bs).map (·.1)
        | none => none) = some newpg
    rw [alookup_aupdate_self]
  · intro j hj
    show (match alookup (aupdate bp2.pages id (newpg, true)) j with
      | some (q, _) => some q
      | none =>
        match bp2.storage.marble j with
        | some bs => (bc.decodePage bs).map (·.1)
        | none => none) = pageView bc ps j
    rw [alookup_aupdate_ne _ _ _ _ hj]
    exact hstep.view j
  · intro j hj
    exact hstep.marbleOut j hj
  · intro k hk
    rcases aupdate_keys bp2.pages id (newpg, true) k hk with heq | hmem
    · exact Or.inl heq
    · rcases hstep.keysSub k hmem with h0 | h1
      · exact Or.inl (by simpa using h0)
      · exact Or.inr h1
  · exact aupdate_nodup bp2.pages id (newpg, true) hstep.cacheOk.nodup
  · intro k q dq hq
    by_cases hk : k = id
    · subst hk
      rw [alookup_aupdate_self] at hq
      injection hq with h2
      cases h2
      exact hnewhdr
    · rw [alookup_aupdate_ne _ _ _ _ hk] at hq
      exact hstep.cacheOk.headerId k q dq hq
  · intro k q hq
    by_cases hk : k = id
    · subst hk
      rw [alookup_aupdate_self] at hq
      injection hq with h2
      exact absurd (congrArg (fun e => e.2) h2) (by simp)
    · rw [alookup_aupdate_ne _ _ _ _ hk] at hq
      exact hstep.cacheOk.cleanDisk k q hq

theorem append_data_ok {γ : Type} (bc : Bincode γ) (hbc : BincodeOK bc)
    (ps : PagedStorage γ) (hok : CacheOK bc ps.buffer_pool) (id : Nat)
    (pg : Page γ) (hview : pageView bc ps id = some pg)
    (hhdr : pg.header.id = id) (data : List γ)
    (hfit : pg.data.length + data.length ≤ ps.page_size) :
    ∃ ps2, PagedStorage.append_data bc ps id data =
        (.ok (pg.data.length + data.length), ps2) ∧
      PSWrite bc ps ps2 id { pg with data := pg.data ++ data } ∧
      alookup ps2.buffer_pool.pages id =
        some ({ pg with data := pg.data ++ data }, true) := by
  obtain ⟨bp2, d, hbump, hstep, hlk⟩ :=
    bump_page_step bc hbc ps.buffer_pool hok id pg hview hhdr
  refine ⟨⟨{ bp2 with pages := (aupdate
      bp2.pages id ({ pg with data := pg.data ++ data }, true)) }⟩, ?_,
    PSWrite_of_update bc ps bp2 id hstep _ hhdr, alookup_aupdate_self _ _ _⟩
  unfold PagedStorage.append_data
  simp only [hbump, hlk,
    if_neg (by omega : ¬ pg.data.length + data.length > ps.page_size)]

theorem append_data_full {γ : Type} (bc : Bincode γ) (hbc : BincodeOK bc)
    (ps : PagedStorage γ) (hok : CacheOK bc ps.buffer_pool) (id : Nat)
    (pg : Page γ) (hview : pageView bc ps id = some pg)
    (hhdr : pg.header.id = id) (data : List γ)
    (hbig : pg.data.length + data.length > ps.page_size) :
    ∃ bp2, PagedStorage.append_data bc ps id data = (.error .pageFull, ⟨bp2⟩) ∧
      BPStep bc ps.buffer_pool bp2 [id] := by
  obtain ⟨bp2, d, hbump, hstep, hlk⟩ :=
    bump_page_step bc hbc ps.buffer_pool hok id pg hview hhdr
  refine ⟨bp2, ?_, hstep⟩
  unfold PagedStorage.append_data
  simp only [hbump, hlk, if_pos hbig]

theorem bump_obj_count_ok {γ : Type} (bc : Bincode γ) (hbc : BincodeOK bc)
    (ps : PagedStorage γ) (hok : CacheOK bc ps.buffer_pool) (id : Nat)
    (pg : Page γ) (hview : pageView bc ps id = some pg)
    (hhdr : pg.header.id = id) :
    ∃ ps2, PagedStorage.bump_obj_count bc ps id = (.ok (), ps2) ∧
      PSWrite bc ps ps2 id
        { pg with header := { pg.header with obj_count := pg.header.obj_count + 1 } } := by
  obtain ⟨bp2, d, hbump, hstep, hlk⟩ :=
    bump_page_step bc hbc ps.buffer_pool hok id pg hview hhdr
  refine ⟨⟨{ bp2 with pages := (aupdate bp2.pages id
      ({ pg with header := { pg.header with obj_count := pg.header.obj_count + 1 } },
        true)) }⟩, ?_, PSWrite_of_update bc ps bp2 id hstep _ hhdr⟩
  unfold PagedStorage.bump_obj_count
  simp only [hbump, hlk]

/-! ## Invariant preservation lemmas -/

theorem place_entry_step {γ : Type} (bc : Bincode γ) (hbc : BincodeOK bc)
    (bp : BufferPool γ) (hok : CacheOK bc bp) (id : Nat) (pg : Page γ)
    (hnot : id ∉ bp.pages.map (·.1))
    (hdisk : ∃ bs, bp.storage.marble id = some bs ∧
      ∃ k2, bc.decodePage bs = some (pg, k2))
    (hhdr : pg.header.id = id) :
    BPStep bc bp (placeEntry bc bp id pg) [id] ∧
      alookup (placeEntry bc bp id pg).pages id = some (pg, false) := by
  obtain ⟨bs, hm, k2, hd⟩ := hdisk
  have hlnone : alookup bp.pages id = none := by
    cases hl : alookup bp.pages id with
    | none => rfl
    | some v =>
      exact absurd ((alookup_isSome_iff bp.pages id).mp (by simp [hl])) hnot
  have hbview : bpView bc bp id = some pg := by
    unfold bpView
    simp [hlnone, hm, hd]
  have hstep3 : BPStep bc bp (if bp.pages.length ≥ bp.capacity
      then BufferPool.pop_page bc bp else bp) [] := by
    by_cases hcap : bp.pages.length ≥ bp.capacity
    · rw [if_pos hcap]
      exact pop_page_step bc hbc bp hok
    · rw [if_neg hcap]
      exact BPStep_refl bc bp hok []
  generalize hbp3 : (if bp.pages.length ≥ bp.capacity
      then BufferPool.pop_page bc bp else bp) = bp3 at hstep3
  have hplace : placeEntry bc bp id pg =
      { bp3 with pages := aupdate bp3.pages id (pg, false) } := by
    unfold placeEntry
    rw [hbp3]
  have hmar3 : bp3.storage.marble id = some bs :=
    (hstep3.marbleOut id hnot).trans hm
  rw [hplace]
  refine ⟨⟨?_, ?_, hstep3.stateEq, ?_, ⟨?_, ?_, ?_⟩, hstep3.capEq⟩,
    alookup_aupdate_self _ _ _⟩
  · intro j
    by_cases hj : j = id
    · subst hj
      rw [hbview]
      show (match alookup (aupdate bp3.pages j (pg, false)) j with
        | some (q, _) => some q
        | none =>
          match bp3.storage.marble j with
          | some bs2 => (bc.decodePage bs2).map (·.1)
          | none => none) = some pg
      rw [alookup_aupdate_self]
    · show (match alookup (aupdate bp3.pages id (pg, false)) j with
        | some (q, _) => some q
        | none =>
          match bp3.storage.marble j with
          | some bs2 => (bc.decodePage bs2).map (·.1)
          | none => none) = bpView bc bp j
      rw [alookup_aupdate_ne _ _ _ _ hj]
      exact hstep3.view j
  · intro j hj
    exact hstep3.marbleOut j hj
  · intro k hk
    rcases aupdate_keys bp3.pages id (pg, false) k hk with heq | hmem
    · exact Or.inl (by simp [heq])
    · rcases hstep3.keysSub k hmem with h0 | h1
      · exact absurd h0 (by simp)
      · exact Or.inr h1
  · exact aupdate_nodup bp3.pages id (pg, false) hstep3.cacheOk.nodup
  · intro k q dq hq
    by_cases hk : k = id
    · subst hk
      rw [alookup_aupdate_self] at hq
      injection hq with h2
      cases h2
      exact hhdr
    · rw [alookup_aupdate_ne _ _ _ _ hk] at hq
      exact hstep3.cacheOk.headerId k q dq hq
  · intro k q hq
    by_cases hk : k = id
    · subst hk
      rw [alookup_aupdate_self] at hq
      injection hq with h2
      cases h2
      exact ⟨bs, hmar3, k2, hd⟩
    · rw [alookup_aupdate_ne _ _ _ _ hk] at hq
      exact hstep3.cacheOk.cleanDisk k q hq

theorem Inv_ovf_agree {γ : Type} {bc : Bincode γ} {ps : PagedStorage γ}
    {os : ObjectStorage} {msgss : List (List Message)}
    (hinv : Inv bc ps os msgss) (mar2 : Marble γ)
    (hout : ∀ j, j ∉ ps.buffer_pool.pages.map (·.1) → mar2 j = ps.marble j) :
    ∀ b ∈ os.overflow_pages, mar2 b = ps.marble b := by
  intro b hb
  refine hout b (fun hmem => ?_)
  exact hinv.pagesOvfDisjoint b (hinv.cacheSub b hmem) hb

theorem Inv_of_BPStep {γ : Type} {bc : Bincode γ} {ps : PagedStorage γ}
    {os : ObjectStorage} {msgss : List (List Message)}
    (hinv : Inv bc ps os msgss) (bp2 : BufferPool γ) (pid : Nat)
    (hstep : BPStep bc ps.buffer_pool bp2 [pid]) (hpid : pid ∈ os.pages) :
    Inv bc ⟨bp2⟩ os msgss := by
  have hagree : ∀ b ∈ os.overflow_pages, bp2.storage.marble b = ps.marble b :=
    Inv_ovf_agree hinv bp2.storage.marble hstep.marbleOut
  refine ⟨?_, hinv.pagesLen, hinv.pagesNodup, hinv.ovfNodup,
    hinv.pagesOvfDisjoint, hinv.pagesLB, hinv.ovfLB, ?_, ?_, ?_, ?_, ?_,
    hstep.cacheOk, ?_, ?_⟩
  · show bp2.storage.state.free_ids = []
    rw [hstep.stateEq]
    exact hinv.freeNil
  · intro id hid
    show id < bp2.storage.state.next_page_id
    rw [hstep.stateEq]
    exact hinv.pagesUB id hid
  · intro id hid
    show id < bp2.storage.state.next_page_id
    rw [hstep.stateEq]
    exact hinv.ovfUB id hid
  · show DEFAULT_PAGE ≤ bp2.storage.state.next_page_id
    rw [hstep.stateEq]
    exact hinv.nextLB
  · intro id hid
    show bp2.storage.marble id = none
    have hid2 : bp2.storage.state.next_page_id ≤ id := hid
    rw [hstep.stateEq] at hid2
    have hnot : id ∉ ps.buffer_pool.pages.map (·.1) := fun hmem => by
      have h3 : id < ps.buffer_pool.storage.state.next_page_id :=
        hinv.pagesUB id (hinv.cacheSub id hmem)
      omega
    rw [hstep.marbleOut id hnot]
    exact hinv.marbleUB id hid2
  · intro k hk
    rcases hstep.keysSub k hk with h0 | h1
    · simp only [List.mem_singleton] at h0
      exact h0 ▸ hpid
    · exact hinv.cacheSub k h1
  · show bp2.storage.marble STORAGE_STATE_INDEX =
      some (bc.encodeState bp2.storage.state)
    have hnot : STORAGE_STATE_INDEX ∉ ps.buffer_pool.pages.map (·.1) :=
      fun hmem => by
        have := hinv.pagesLB _ (hinv.cacheSub _ hmem)
        simp [STORAGE_STATE_INDEX, DEFAULT_PAGE] at this
    rw [hstep.marbleOut _ hnot, hstep.stateEq]
    exact hinv.statePersisted
  · intro i pid2 hpid2
    obtain ⟨pg, hview, hhdr, ms, hms, hcnt, hrep⟩ := hinv.pageRep i pid2 hpid2
    exact ⟨pg, (hstep.view pid2).trans hview, hhdr, ms, hms, hcnt,
      PageRep_stable bc ps.marble bp2.storage.marble os.overflow_pages hagree
        pg.data ms hrep⟩

theorem Inv_set_msgss {γ : Type} {bc : Bincode γ} {ps ps2 : PagedStorage γ}
    {os : ObjectStorage} {msgss : List (List Message)}
    (hinv : Inv bc ps os msgss) (i : Nat) (pid : Nat) (newpg : Page γ)
    (newms : List Message)
    (hpid : os.pages[i]? = some pid)
    (hw : PSWrite bc ps ps2 pid newpg)
    (hhdr : newpg.header.id = pid)
    (hcnt : newpg.header.obj_count = newms.length)
    (hrep : PageRep bc ps.marble os.overflow_pages newpg.data newms) :
    Inv bc ps2 os (msgss.set i newms) := by
  have hagree : ∀ b ∈ os.overflow_pages, ps2.marble b = ps.marble b :=
    Inv_ovf_agree hinv ps2.marble hw.marbleOut
  have hpidmem : pid ∈ os.pages := by
    have := List.getElem?_eq_some.mp hpid
    exact this.2 ▸ List.getElem_mem this.1
  have hilt : i < os.pages.length := (List.getElem?_eq_some.mp hpid).1
  have hiltm : i < msgss.length := hinv.pagesLen ▸ hilt
  refine ⟨?_, ?_, hinv.pagesNodup, hinv.ovfNodup,
    hinv.pagesOvfDisjoint, hinv.pagesLB, hinv.ovfLB, ?_, ?_, ?_, ?_, ?_,
    hw.cacheOk, ?_, ?_⟩
  · show ps2.buffer_pool.storage.state.free_ids = []
    rw [hw.stateEq]
    exact hinv.freeNil
  · rw [List.length_set]
    exact hinv.pagesLen
  · intro id hid
    show id < ps2.buffer_pool.storage.state.next_page_id
    rw [hw.stateEq]
    exact hinv.pagesUB id hid
  · intro id hid
    show id < ps2.buffer_pool.storage.state.next_page_id
    rw [hw.stateEq]
    exact hinv.ovfUB id hid
  · show DEFAULT_PAGE ≤ ps2.buffer_pool.storage.state.next_page_id
    rw [hw.stateEq]
    exact hinv.nextLB
  · intro id hid
    show ps2.marble id = none
    have hid2 : ps2.buffer_pool.storage.state.next_page_id ≤ id := hid
    rw [hw.stateEq] at hid2
    have hnot : id ∉ ps.buffer_pool.pages.map (·.1) := fun hmem => by
      have h3 : id < ps.buffer_pool.storage.state.next_page_id :=
        hinv.pagesUB id (hinv.cacheSub id hmem)
      omega
    rw [hw.marbleOut id hnot]
    exact hinv.marbleUB id hid2
  · intro k hk
    rcases hw.keysSub k hk with h0 | h1
    · exact h0 ▸ hpidmem
    · exact hinv.cacheSub k h1
  · show ps2.marble STORAGE_STATE_INDEX =
      some (bc.encodeState ps2.buffer_pool.storage.state)
    have hnot : STORAGE_STATE_INDEX ∉ ps.buffer_pool.pages.map (·.1) :=
      fun hmem => by
        have := hinv.pagesLB _ (hinv.cacheSub _ hmem)
        simp [STORAGE_STATE_INDEX, DEFAULT_PAGE] at this
    rw [hw.marbleOut _ hnot, hw.stateEq]
    exact hinv.statePersisted
  · intro j pid2 hpid2
    by_cases hji : j = i
    · subst hji
      rw [hpid] at hpid2
      injection hpid2 with h2
      subst h2
      refine ⟨newpg, hw.viewId, hhdr, newms, ?_, hcnt,
        PageRep_stable bc ps.marble ps2.marble os.overflow_pages hagree
          newpg.data newms hrep⟩
      rw [List.getElem?_set_self]
      exact hiltm
    · obtain ⟨pg, hview, hhdr2, ms, hms, hcnt2, hrep2⟩ := hinv.pageRep j pid2 hpid2
      have hne : pid2 ≠ pid := by
        intro heq
        subst heq
        have h1 := List.getElem?_eq_some.mp hpid
        have h2 := List.getElem?_eq_some.mp hpid2
        exact hji (List.Nodup.getElem_inj_iff hinv.pagesNodup |>.mp
          (h2.2.trans h1.2.symm))
      refine ⟨pg, (hw.viewNe pid2 hne).trans hview, hhdr2, ms, ?_, hcnt2,
        PageRep_stable bc ps.marble ps2.marble os.overflow_pages hagree
          pg.data ms hrep2⟩
      rw [List.getElem?_set_ne]
      exact hms
      exact fun h => hji h.symm

/-! ## Iteration correctness -/

theorem UnwrapOK_stable {γ : Type} (bc : Bincode γ) (mar mar2 : Marble γ)
    (w : WrappedMessage) (m : Message) (h : UnwrapOK bc mar w m)
    (hag : ∀ id, w = .index id → mar2 id = mar id) : UnwrapOK bc mar2 w m := by
  cases w with
  | real m2 => exact h
  | index id =>
    obtain ⟨bs, hbs, k, hk⟩ := h
    exact ⟨bs, (hag id rfl) ▸ hbs, k, hk⟩

theorem decode_and_unwrap_chunk {γ : Type} (bc : Bincode γ) (st : Storage γ)
    (chunk data2 : List γ) (w : WrappedMessage) (m : Message)
    (hdec : ∀ rest, bc.decodeW (chunk ++ rest) = some (w, chunk.length))
    (hunw : UnwrapOK bc st.marble w m) :
    ObjectStorage.decode_and_unwrap bc st (chunk ++ data2) =
      some (m, chunk.length) := by
  unfold ObjectStorage.decode_and_unwrap
  rw [hdec data2]
  cases w with
  | real m2 =>
    have hm2 : m2 = m := hunw
    subst hm2
    rfl
  | index id =>
    obtain ⟨bs, hbs, k, hk⟩ := hunw
    simp only [hbs, hk]

theorem PageRep_cons_inv {γ : Type} (bc : Bincode γ) (mar : Marble γ)
    (ovf : List Nat) (data : List γ) (m : Message) (ms : List Message)
    (h : PageRep bc mar ovf data (m :: ms)) :
    ∃ chunk w data2, data = chunk ++ data2 ∧
      (∀ rest, bc.decodeW (chunk ++ rest) = some (w, chunk.length)) ∧
      UnwrapOK bc mar w m ∧
      (∀ id, w = .index id → id ∈ ovf) ∧
      PageRep bc mar ovf data2 ms := by
  cases h with
  | cons chunk w m2 data2 ms3 hdec hunw hovf htail =>
    exact ⟨chunk, w, data2, rfl, hdec, hunw, hovf, htail⟩

theorem runIter_spec {γ : Type} (bc : Bincode γ) (hbc : BincodeOK bc)
    (os : ObjectStorage) (msgss : List (List Message))
    (hnonempty : ∀ ms ∈ msgss, ms ≠ []) :
    ∀ (fuel : Nat) (remaining : List Message) (ps : PagedStorage γ)
      (it : MessageIterator),
      Inv bc ps os msgss → CursorOK bc ps os msgss it remaining →
      remaining.length < fuel →
      ∃ ps2, runIter bc os fuel ps it = some (remaining, ps2) := by
  intro fuel
  induction fuel with
  | zero => intro remaining ps it _ _ hlen; exact absurd hlen (by omega)
  | succ f ih =>
    intro remaining ps it hinv hcur hlen
    rcases hcur with ⟨hidx, hrem⟩ | ⟨pid, pg, done, restdata, rest_ms, hlt,
      hpid, hview, hdata, hoff, hrep, hne, hcount, hrem⟩
    · subst hrem
      have hnone : os.pages[it.page_index]? = none := by
        rw [List.getElem?_eq_none]
        rw [hinv.pagesLen, hidx]
      refine ⟨ps, ?_⟩
      rw [runIter]
      unfold iterNext
      rw [hnone]
    · have hpidmem : pid ∈ os.pages := by
        have := List.getElem?_eq_some.mp hpid
        exact this.2 ▸ List.getElem_mem this.1
      have hpidlt : it.page_index < os.pages.length :=
        (List.getElem?_eq_some.mp hpid).1
      obtain ⟨pg0, hview0, hhdr0, ms0, hms0, hcnt0, hrep0⟩ :=
        hinv.pageRep it.page_index pid hpid
      have hpg0 : pg = pg0 := by
        rw [hview] at hview0
        exact Option.some_injective _ hview0
      subst hpg0
      obtain ⟨d, bp2, hget, hstep, hlk⟩ :=
        get_page_step bc hbc ps.buffer_pool hinv.cache pid pg hview hhdr0
      have hinv2 : Inv bc ⟨bp2⟩ os msgss :=
        Inv_of_BPStep hinv bp2 pid hstep hpidmem
      have hagree : ∀ b ∈ os.overflow_pages, bp2.storage.marble b = ps.marble b :=
        Inv_ovf_agree hinv bp2.storage.marble hstep.marbleOut
      cases hrestms : rest_ms with
      | nil => exact absurd hrestms hne
      | cons m ms2 =>
        subst hrestms
        obtain ⟨chunk, w, data2, hrdata, hdec, hunw, hovf, htail⟩ :=
          PageRep_cons_inv bc ps.marble os.overflow_pages restdata m ms2 hrep
        subst hrdata
        have hunw2 : UnwrapOK bc bp2.storage.marble w m :=
          UnwrapOK_stable bc ps.marble bp2.storage.marble w m hunw
            (fun id hw => hagree id (hovf id hw))
        have hdecunw : ObjectStorage.decode_and_unwrap bc
            (⟨bp2⟩ : PagedStorage γ).storage (chunk ++ data2) =
            some (m, chunk.length) :=
          decode_and_unwrap_chunk bc _ chunk data2 w m hdec hunw2
        have hdrop : pg.data.drop it.page_offset = chunk ++ data2 := by
          rw [hdata, hoff, List.drop_left]
        by_cases hadv : it.page_obj_count + 1 = pg.header.obj_count
        · have hms2nil : ms2 = [] := by
            have hlen2 : it.page_obj_count + (m :: ms2).length =
                pg.header.obj_count := hcount
            rw [List.length_cons] at hlen2
            have : ms2.length = 0 := by omega
            exact List.length_eq_zero.mp this
          subst hms2nil
          have hiter : iterNext bc os ps it = some (some (m,
              ⟨it.page_index + 1, 0, 0⟩), ⟨bp2⟩) := by
            unfold iterNext
            simp only [hpid, hget, hdrop, hdecunw]
            split
            · rfl
            · rename_i hcond
              exact absurd hadv hcond
          have hcur2 : CursorOK bc ⟨bp2⟩ os msgss ⟨it.page_index + 1, 0, 0⟩
              ((msgss.drop (it.page_index + 1)).flatten) := by
            by_cases hend : it.page_index + 1 = msgss.length
            · left
              refine ⟨hend, ?_⟩
              rw [List.drop_eq_nil_of_le (by omega)]
              rfl
            · right
              have hlt2 : it.page_index + 1 < msgss.length := by
                have : it.page_index < msgss.length := hlt
                omega
              have hlt2p : it.page_index + 1 < os.pages.length := by
                rw [hinv.pagesLen]
                exact hlt2
              have hpid2 : os.pages[it.page_index + 1]? =
                  some os.pages[it.page_index + 1] :=
                List.getElem?_eq_getElem hlt2p
              obtain ⟨pg2, hview2, hhdr2, ms4, hms4, hcnt4, hrep4⟩ :=
                hinv2.pageRep (it.page_index + 1) _ hpid2
              have hms4mem : ms4 ∈ msgss := by
                have := List.getElem?_eq_some.mp hms4
                exact this.2 ▸ List.getElem_mem this.1
              refine ⟨_, pg2, [], pg2.data, ms4, hlt2, hpid2, hview2,
                (List.nil_append _).symm, rfl, hrep4, hnonempty ms4 hms4mem,
                by simpa using hcnt4.symm, ?_⟩
              have hdropstep : msgss.drop (it.page_index + 1) =
                  ms4 :: msgss.drop (it.page_index + 2) := by
                rw [List.drop_eq_getElem_cons hlt2]
                congr 1
                have := List.getElem?_eq_some.mp hms4
                exact this.2
              rw [hdropstep]
              rfl
          have hlen2 : ((msgss.drop (it.page_index + 1)).flatten).length < f := by
            rw [hrem] at hlen
            simp only [List.length_append, List.length_cons, List.length_nil]
              at hlen
            omega
          obtain ⟨ps3, hrun⟩ := ih ((msgss.drop (it.page_index + 1)).flatten)
            ⟨bp2⟩ ⟨it.page_index + 1, 0, 0⟩ hinv2 hcur2 hlen2
          refine ⟨ps3, ?_⟩
          rw [runIter]
          simp only [hiter, hrun, hrem]
          rfl
        · have hms2ne : ms2 ≠ [] := by
            intro hnil
            subst hnil
            have : it.page_obj_count + 1 = pg.header.obj_count := by
              have := hcount
              simpa using this
            exact hadv this
          have hiter : iterNext bc os ps it = some (some (m,
              ⟨it.page_index, it.page_offset + chunk.length,
                it.page_obj_count + 1⟩), ⟨bp2⟩) := by
            unfold iterNext
            simp only [hpid, hget, hdrop, hdecunw]
            split
            · rename_i hcond
              exact absurd hcond hadv
            · rfl
          have hcur2 : CursorOK bc ⟨bp2⟩ os msgss
              ⟨it.page_index, it.page_offset + chunk.length,
                it.page_obj_count + 1⟩
              (ms2 ++ (msgss.drop (it.page_index + 1)).flatten) := by
            right
            refine ⟨pid, pg, done ++ chunk, data2, ms2, hlt, hpid,
              (hstep.view pid).trans hview, ?_, ?_, ?_, hms2ne, ?_, rfl⟩
            · rw [hdata, List.append_assoc]
            · rw [List.length_append, hoff]
            · exact PageRep_stable bc ps.marble bp2.storage.marble
                os.overflow_pages hagree data2 ms2 htail
            · show it.page_obj_count + 1 + ms2.length = pg.header.obj_count
              have := hcount
              rw [List.length_cons] at this
              omega
          have hlen2 : (ms2 ++ (msgss.drop (it.page_index + 1)).flatten).length
              < f := by
            rw [hrem] at hlen
            simp only [List.length_append, List.length_cons] at hlen ⊢
            omega
          obtain ⟨ps3, hrun⟩ := ih _ ⟨bp2⟩ _ hinv2 hcur2 hlen2
          refine ⟨ps3, ?_⟩
          rw [runIter]
          simp only [hiter, hrun, hrem]
          rfl

/-! ## Insert-side helper lemmas -/

theorem set_append_last {α : Type} (l : List α) (a b : α) :
    (l ++ [a]).set l.length b = l ++ [b] := by
  induction l with
  | nil => rfl
  | cons x xs ih => simp [List.set, ih]

theorem flatten_concat_last {α : Type} (l : List (List α)) (a : List α) :
    (l ++ [a]).flatten = l.flatten ++ a := by
  simp

theorem set_append_last_of_len {α : Type} (l : List α) (a b : α) (n : Nat)
    (h : n = l.length) : (l ++ [a]).set n b = l ++ [b] := by
  subst h
  exact set_append_last l a b

theorem PSWrite_comp_st {γ : Type} {bc : Bincode γ} {ps psA psB : PagedStorage γ}
    {id : Nat} {p1 p2 : Page γ}
    (hw1 : PSWrite bc ps psA id p1) (hw2 : PSWrite bc psA psB id p2)
    (hst : psB.buffer_pool.storage = psA.buffer_pool.storage) :
    PSWrite bc ps psB id p2 := by
  refine ⟨hw2.viewId, ?_, ?_, hw2.stateEq.trans hw1.stateEq, ?_, hw2.cacheOk,
    hw2.capEq.trans hw1.capEq⟩
  · intro j hj
    exact (hw2.viewNe j hj).trans (hw1.viewNe j hj)
  · intro j hj
    have h2 : psB.marble j = psA.marble j := by
      show psB.buffer_pool.storage.marble j = psA.buffer_pool.storage.marble j
      rw [hst]
    exact h2.trans (hw1.marbleOut j hj)
  · intro k hk
    rcases hw2.keysSub k hk with h0 | h1
    · exact Or.inl h0
    · exact hw1.keysSub k h1

theorem bump_obj_count_cached {γ : Type} (bc : Bincode γ) (ps : PagedStorage γ)
    (hok : CacheOK bc ps.buffer_pool) (id : Nat) (pg : Page γ) (d : Bool)
    (hlk : alookup ps.buffer_pool.pages id = some (pg, d))
    (hhdr : pg.header.id = id) :
    ∃ ps2, PagedStorage.bump_obj_count bc ps id = (.ok (), ps2) ∧
      PSWrite bc ps ps2 id
        { pg with header := { pg.header with obj_count := pg.header.obj_count + 1 } } ∧
      ps2.buffer_pool.storage = ps.buffer_pool.storage := by
  refine ⟨⟨{ ps.buffer_pool with pages := (aupdate ps.buffer_pool.pages id
      ({ pg with header := { pg.header with obj_count := pg.header.obj_count + 1 } },
        true)) }⟩, ?_,
    PSWrite_of_update bc ps ps.buffer_pool id
      (BPStep_refl bc ps.buffer_pool hok [id]) _ hhdr, rfl⟩
  unfold PagedStorage.bump_obj_count
  unfold BufferPool.bump_page
  simp only [hlk, Option.isSome_some, if_pos]


theorem add_page_inv {γ : Type} (bc : Bincode γ) (hbc : BincodeOK bc)
    (os : ObjectStorage) (ps : PagedStorage γ) (msgss : List (List Message))
    (hinv : Inv bc ps os msgss)
    (id : Nat) (hid : id = ps.buffer_pool.storage.state.next_page_id) :
    ∃ ps2, ObjectStorage.add_page bc os ps =
        ({ os with pages := os.pages ++ [id] }, ps2) ∧
      Inv bc ps2 { os with pages := os.pages ++ [id] } (msgss ++ [[]]) ∧
      ps2.page_size = ps.page_size ∧
      pageView bc ps2 id =
        some { header := { id := id, page_type := .tableData, obj_count := 0 },
               data := [] } ∧
      (∀ b ∈ os.overflow_pages, ps2.marble b = ps.marble b) := by
  obtain ⟨pg, hpg⟩ : ∃ pg : Page γ, pg =
      ({ header := { id := id, page_type := .tableData, obj_count := 0 },
         data := [] } : Page γ) := ⟨_, rfl⟩
  obtain ⟨st2, hst2⟩ : ∃ st2 : Storage γ, st2 = Storage.write_page bc
      (Storage.save_state bc { ps.buffer_pool.storage with state :=
        { ps.buffer_pool.storage.state with next_page_id := id + 1 } }) pg :=
    ⟨_, rfl⟩
  obtain ⟨bp1, hbp1⟩ : ∃ bp1 : BufferPool γ,
      bp1 = { ps.buffer_pool with storage := st2 } := ⟨_, rfl⟩
  have hkfact : ∀ k ∈ ps.buffer_pool.pages.map (fun e => e.1),
      DEFAULT_PAGE ≤ k ∧ k < ps.buffer_pool.storage.state.next_page_id := by
    intro k hk
    have hkp := hinv.cacheSub k hk
    exact ⟨hinv.pagesLB k hkp, hinv.pagesUB k hkp⟩
  have hmar2 : ∀ j, j ≠ id → j ≠ STORAGE_STATE_INDEX →
      st2.marble j = ps.buffer_pool.storage.marble j := by
    intro j hj1 hj2
    rw [hst2, hpg]
    show (if j = id then _ else
      if j = STORAGE_STATE_INDEX then _
      else ps.buffer_pool.storage.marble j) = ps.buffer_pool.storage.marble j
    rw [if_neg hj1, if_neg hj2]
  have hmarid : st2.marble id = some (bc.encodePage pg) := by
    rw [hst2]
    show (if id = pg.header.id then some (bc.encodePage pg) else _) = _
    rw [if_pos (by rw [hpg])]
  have hid2 : id = ps.storage.state.next_page_id := hid
  have hst2state : st2.state =
      { ps.buffer_pool.storage.state with next_page_id := id + 1 } := by
    rw [hst2]
    rfl
  have hok1 : CacheOK bc bp1 := by
    refine ⟨?_, ?_, ?_⟩
    · rw [hbp1]
      exact hinv.cache.nodup
    · rw [hbp1]
      exact hinv.cache.headerId
    · intro k p hkp
      rw [hbp1] at hkp
      have hkmem : k ∈ ps.buffer_pool.pages.map (fun e => e.1) := by
        refine (alookup_isSome_iff _ _).mp ?_
        rw [hkp]
        rfl
      obtain ⟨hklb, hkub⟩ := hkfact k hkmem
      obtain ⟨bs, hbs, k2, hk2⟩ := hinv.cache.cleanDisk k p hkp
      refine ⟨bs, ?_, k2, hk2⟩
      show bp1.storage.marble k = some bs
      rw [hbp1]
      show st2.marble k = some bs
      rw [hmar2 k (by omega) (by
        show k ≠ STORAGE_STATE_INDEX
        simp only [STORAGE_STATE_INDEX]
        simp only [DEFAULT_PAGE] at hklb
        omega)]
      exact hbs
  have hnot : id ∉ bp1.pages.map (fun e => e.1) := by
    rw [hbp1]
    intro hmem
    have := (hkfact id hmem).2
    omega
  have hdisk : ∃ bs, bp1.storage.marble id = some bs ∧
      ∃ k2, bc.decodePage bs = some (pg, k2) := by
    refine ⟨bc.encodePage pg, ?_, hbc.decPage pg⟩
    rw [hbp1]
    exact hmarid
  obtain ⟨hstep, hlk⟩ := place_entry_step bc hbc bp1 hok1 id pg hnot hdisk
    (by rw [hpg])
  have hEqA : BufferPool.allocate_page bc ps.buffer_pool .tableData =
      (id, placeEntry bc bp1 id pg) := by
    subst hbp1
    subst hst2
    subst hpg
    subst hid
    rfl
  have hstate2 : (placeEntry bc bp1 id pg).storage.state =
      { ps.buffer_pool.storage.state with next_page_id := id + 1 } :=
    hstep.stateEq.trans (by rw [hbp1]; exact hst2state)
  have hnext2 : (placeEntry bc bp1 id pg).storage.state.next_page_id = id + 1 := by
    rw [hstate2]
  have hview2 : bpView bc (placeEntry bc bp1 id pg) id = some pg := by
    unfold bpView
    rw [hlk]
  have hmarbleNe : ∀ j, j ∉ ps.buffer_pool.pages.map (fun e => e.1) →
      j ≠ id → j ≠ STORAGE_STATE_INDEX →
      (placeEntry bc bp1 id pg).storage.marble j =
        ps.buffer_pool.storage.marble j := by
    intro j hj hj1 hj2
    have h1 : (placeEntry bc bp1 id pg).storage.marble j =
        bp1.storage.marble j := by
      refine hstep.marbleOut j ?_
      rw [hbp1]
      exact hj
    rw [h1, hbp1]
    exact hmar2 j hj1 hj2
  have hviewOld : ∀ p ∈ os.pages, bpView bc (placeEntry bc bp1 id pg) p =
      bpView bc ps.buffer_pool p := by
    intro p hp
    have hplb := hinv.pagesLB p hp
    have hpub : p < ps.buffer_pool.storage.state.next_page_id :=
      hinv.pagesUB p hp
    rw [hstep.view p, hbp1]
    unfold bpView
    cases hl : alookup ps.buffer_pool.pages p with
    | some e => rfl
    | none =>
      have hm : st2.marble p = ps.buffer_pool.storage.marble p := by
        refine hmar2 p (by omega) ?_
        show p ≠ STORAGE_STATE_INDEX
        simp only [STORAGE_STATE_INDEX]
        simp only [DEFAULT_PAGE] at hplb
        omega
      rw [hm]
  have hagree : ∀ b ∈ os.overflow_pages,
      (placeEntry bc bp1 id pg).storage.marble b =
        ps.buffer_pool.storage.marble b := by
    intro b hb
    have hblb := hinv.ovfLB b hb
    have hbub : b < ps.buffer_pool.storage.state.next_page_id :=
      hinv.ovfUB b hb
    refine hmarbleNe b ?_ (by omega) ?_
    · intro hmem
      exact hinv.pagesOvfDisjoint b (hinv.cacheSub b hmem) hb
    · show b ≠ STORAGE_STATE_INDEX
      simp only [STORAGE_STATE_INDEX]
      simp only [DEFAULT_PAGE] at hblb
      omega
  refine ⟨⟨placeEntry bc bp1 id pg⟩, ?_, ?_, ?_, ?_, hagree⟩
  · unfold ObjectStorage.add_page PagedStorage.allocate_page
    simp only [hEqA]
  · have hnext100 : DEFAULT_PAGE ≤ ps.buffer_pool.storage.state.next_page_id :=
      hinv.nextLB
    refine ⟨?_, ?_, ?_, hinv.ovfNodup, ?_, ?_, hinv.ovfLB, ?_, ?_, ?_, ?_, ?_,
      hstep.cacheOk, ?_, ?_⟩
    · show (placeEntry bc bp1 id pg).storage.state.free_ids = []
      rw [hstate2]
      exact hinv.freeNil
    · simp only [List.length_append, List.length_singleton]
      rw [hinv.pagesLen]
    · rw [List.nodup_append]
      refine ⟨hinv.pagesNodup, List.nodup_singleton id, ?_⟩
      intro a ha hamem
      have ha2 : a < ps.buffer_pool.storage.state.next_page_id :=
        hinv.pagesUB a ha
      simp only [List.mem_singleton] at hamem
      omega
    · intro a ha
      rcases List.mem_append.mp ha with h1 | h1
      · exact hinv.pagesOvfDisjoint a h1
      · simp only [List.mem_singleton] at h1
        subst h1
        intro hmem
        have ha2 : a < ps.buffer_pool.storage.state.next_page_id :=
          hinv.ovfUB a hmem
        omega
    · intro a ha
      rcases List.mem_append.mp ha with h1 | h1
      · exact hinv.pagesLB a h1
      · simp only [List.mem_singleton] at h1
        omega
    · intro a ha
      show a < (placeEntry bc bp1 id pg).storage.state.next_page_id
      rw [hnext2]
      rcases List.mem_append.mp ha with h1 | h1
      · have ha2 : a < ps.buffer_pool.storage.state.next_page_id :=
          hinv.pagesUB a h1
        omega
      · simp only [List.mem_singleton] at h1
        omega
    · intro a ha
      show a < (placeEntry bc bp1 id pg).storage.state.next_page_id
      rw [hnext2]
      have ha2 : a < ps.buffer_pool.storage.state.next_page_id :=
        hinv.ovfUB a ha
      omega
    · show DEFAULT_PAGE ≤ (placeEntry bc bp1 id pg).storage.state.next_page_id
      rw [hnext2]
      omega
    · intro j hj
      have hj2 : (placeEntry bc bp1 id pg).storage.state.next_page_id ≤ j := hj
      rw [hnext2] at hj2
      have hjlarge : id + 1 ≤ j := hj2
      have hnot2 : j ∉ ps.buffer_pool.pages.map (fun e => e.1) := by
        intro hmem
        have := (hkfact j hmem).2
        omega
      show (placeEntry bc bp1 id pg).storage.marble j = none
      rw [hmarbleNe j hnot2 (by omega) (by
        show j ≠ STORAGE_STATE_INDEX
        simp only [STORAGE_STATE_INDEX, DEFAULT_PAGE] at *
        omega)]
      refine hinv.marbleUB j ?_
      show ps.storage.state.next_page_id ≤ j
      omega
    · intro k hk
      rcases hstep.keysSub k hk with h0 | h1
      · simp only [List.mem_singleton] at h0
        subst h0
        exact List.mem_append.mpr (Or.inr (List.mem_singleton.mpr rfl))
      · rw [hbp1] at h1
        exact List.mem_append.mpr (Or.inl (hinv.cacheSub k h1))
    · show (placeEntry bc bp1 id pg).storage.marble STORAGE_STATE_INDEX =
        some (bc.encodeState (placeEntry bc bp1 id pg).storage.state)
      have h0cache : STORAGE_STATE_INDEX ∉
          ps.buffer_pool.pages.map (fun e => e.1) := by
        intro hmem
        have := (hkfact _ hmem).1
        simp [STORAGE_STATE_INDEX, DEFAULT_PAGE] at this
      have h1 : (placeEntry bc bp1 id pg).storage.marble STORAGE_STATE_INDEX =
          bp1.storage.marble STORAGE_STATE_INDEX := by
        refine hstep.marbleOut _ ?_
        rw [hbp1]
        exact h0cache
      have hne0 : STORAGE_STATE_INDEX ≠ id := by
        have h100 : DEFAULT_PAGE ≤ ps.buffer_pool.storage.state.next_page_id :=
          hinv.nextLB
        simp only [STORAGE_STATE_INDEX]
        simp only [DEFAULT_PAGE] at h100
        omega
      have h2 : bp1.storage.marble STORAGE_STATE_INDEX =
          st2.marble STORAGE_STATE_INDEX := by
        rw [hbp1]
      rw [h1, h2, hstate2, hst2, hpg]
      simp only [Storage.write_page, Storage.save_state, Marble.write]
      rw [if_neg hne0]
      simp
    · intro i pid2 hpid2
      have hibound := (List.getElem?_eq_some.mp hpid2).1
      simp only [List.length_append, List.length_singleton] at hibound
      by_cases hi : i < os.pages.length
      · rw [List.getElem?_append_left hi] at hpid2
        obtain ⟨pg0, hview0, hhdr0, ms0, hms0, hcnt0, hrep0⟩ :=
          hinv.pageRep i pid2 hpid2
        have hpmem : pid2 ∈ os.pages := by
          have := List.getElem?_eq_some.mp hpid2
          exact this.2 ▸ List.getElem_mem this.1
        refine ⟨pg0, (hviewOld pid2 hpmem).trans hview0, hhdr0, ms0, ?_, hcnt0,
          PageRep_stable bc ps.buffer_pool.storage.marble _ os.overflow_pages
            hagree pg0.data ms0 hrep0⟩
        rw [List.getElem?_append_left (by rw [hinv.pagesLen] at hi; exact hi)]
        exact hms0
      · have hieq : i = os.pages.length := by omega
        subst hieq
        rw [List.getElem?_concat_length] at hpid2
        injection hpid2 with h2
        subst h2
        refine ⟨pg, hview2, by rw [hpg], [], ?_, by rw [hpg]; rfl, ?_⟩
        · rw [hinv.pagesLen, List.getElem?_concat_length]
        · rw [hpg]
          exact PageRep.nil
  · show (placeEntry bc bp1 id pg).storage.state.page_size =
      ps.buffer_pool.storage.state.page_size
    rw [hstate2]
  · show bpView bc (placeEntry bc bp1 id pg) id = _
    rw [← hpg]
    exact hview2

theorem wrap_and_encode_inv {γ : Type} (bc : Bincode γ) (hbc : BincodeOK bc)
    (os : ObjectStorage) (ps : PagedStorage γ) (msgss : List (List Message))
    (hinv : Inv bc ps os msgss) (hps64 : 64 ≤ ps.page_size) (m : Message) :
    ∃ encoded os2 st2 w,
      ObjectStorage.wrap_and_encode bc os m ps.storage = (encoded, os2, st2) ∧
      Inv bc ⟨{ ps.buffer_pool with storage := st2 }⟩ os2 msgss ∧
      os2.schema = os.schema ∧
      os2.pages = os.pages ∧
      st2.state.page_size = ps.page_size ∧
      encoded.length ≤ ps.page_size ∧
      (∀ rest, bc.decodeW (encoded ++ rest) = some (w, encoded.length)) ∧
      UnwrapOK bc st2.marble w m ∧
      (∀ id, w = WrappedMessage.index id → id ∈ os2.overflow_pages) := by
  by_cases hfit : (bc.encodeW (.real m)).length ≤ ps.storage.page_size
  · refine ⟨bc.encodeW (.real m), os, ps.storage, .real m, ?_, hinv, rfl, rfl,
      rfl, hfit, hbc.decW (.real m), rfl, ?_⟩
    · unfold ObjectStorage.wrap_and_encode
      rw [if_pos hfit]
    · intro id h
      cases h
  · obtain ⟨id, hid⟩ : ∃ id : Nat,
        id = ps.buffer_pool.storage.state.next_page_id := ⟨_, rfl⟩
    obtain ⟨st2, hst2⟩ : ∃ st2 : Storage γ, st2 =
        { Storage.save_state bc { ps.buffer_pool.storage with state :=
            { ps.buffer_pool.storage.state with next_page_id := id + 1 } } with
          marble := (Storage.save_state bc { ps.buffer_pool.storage with state :=
            { ps.buffer_pool.storage.state with next_page_id := id + 1 } }).marble.write
            id (some (bc.encodeW (.real m))) } := ⟨_, rfl⟩
    have hid2 : id = ps.storage.state.next_page_id := hid
    have hnext100 : DEFAULT_PAGE ≤ ps.buffer_pool.storage.state.next_page_id :=
      hinv.nextLB
    have hkfact : ∀ k ∈ ps.buffer_pool.pages.map (fun e => e.1),
        DEFAULT_PAGE ≤ k ∧ k < ps.buffer_pool.storage.state.next_page_id := by
      intro k hk
      have hkp := hinv.cacheSub k hk
      exact ⟨hinv.pagesLB k hkp, hinv.pagesUB k hkp⟩
    have hmar2 : ∀ j, j ≠ id → j ≠ STORAGE_STATE_INDEX →
        st2.marble j = ps.buffer_pool.storage.marble j := by
      intro j hj1 hj2
      rw [hst2]
      show (if j = id then _ else
        if j = STORAGE_STATE_INDEX then _
        else ps.buffer_pool.storage.marble j) = ps.buffer_pool.storage.marble j
      rw [if_neg hj1, if_neg hj2]
    have hmarid : st2.marble id = some (bc.encodeW (.real m)) := by
      rw [hst2]
      show (if id = id then some (bc.encodeW (.real m)) else _) = _
      rw [if_pos rfl]
    have hmar0 : st2.marble STORAGE_STATE_INDEX =
        some (bc.encodeState
          { ps.buffer_pool.storage.state with next_page_id := id + 1 }) := by
      have hne0 : STORAGE_STATE_INDEX ≠ id := by
        simp only [STORAGE_STATE_INDEX]
        simp only [DEFAULT_PAGE] at hnext100
        omega
      rw [hst2]
      simp only [Storage.save_state, Marble.write]
      rw [if_neg hne0]
      simp
    have hstState : st2.state =
        { ps.buffer_pool.storage.state with next_page_id := id + 1 } := by
      rw [hst2]
      rfl
    have hEq : ObjectStorage.wrap_and_encode bc os m ps.storage =
        (bc.encodeW (.index id),
         { os with overflow_pages := os.overflow_pages ++ [id] }, st2) := by
      rw [hst2, hid]
      unfold ObjectStorage.wrap_and_encode
      rw [if_neg hfit]
      have hfree : ps.buffer_pool.storage.state.free_ids = [] := hinv.freeNil
      simp only [Storage.allocate_id, hinv.freeNil, hfree]
      rfl
    have hviewOld : ∀ p ∈ os.pages,
        bpView bc { ps.buffer_pool with storage := st2 } p =
          bpView bc ps.buffer_pool p := by
      intro p hp
      have hplb := hinv.pagesLB p hp
      have hpub : p < ps.buffer_pool.storage.state.next_page_id :=
        hinv.pagesUB p hp
      have hm : st2.marble p = ps.buffer_pool.storage.marble p := by
        refine hmar2 p (by omega) ?_
        show p ≠ STORAGE_STATE_INDEX
        simp only [STORAGE_STATE_INDEX]
        simp only [DEFAULT_PAGE] at hplb
        omega
      unfold bpView
      cases hl : alookup ps.buffer_pool.pages p with
      | some e => rfl
      | none => rw [hm]
    have hagree : ∀ b ∈ os.overflow_pages,
        st2.marble b = ps.buffer_pool.storage.marble b := by
      intro b hb
      have hblb := hinv.ovfLB b hb
      have hbub : b < ps.buffer_pool.storage.state.next_page_id :=
        hinv.ovfUB b hb
      refine hmar2 b (by omega) ?_
      show b ≠ STORAGE_STATE_INDEX
      simp only [STORAGE_STATE_INDEX]
      simp only [DEFAULT_PAGE] at hblb
      omega
    have hinv2 : Inv bc ⟨{ ps.buffer_pool with storage := st2 }⟩
        { os with overflow_pages := os.overflow_pages ++ [id] } msgss := by
      refine ⟨?_, hinv.pagesLen, hinv.pagesNodup, ?_, ?_, hinv.pagesLB, ?_,
        ?_, ?_, ?_, ?_, ?_, ?_, ?_, ?_⟩
      · show st2.state.free_ids = []
        rw [hstState]
        exact hinv.freeNil
      · rw [List.nodup_append]
        refine ⟨hinv.ovfNodup, List.nodup_singleton id, ?_⟩
        intro a ha hamem
        have ha2 : a < ps.buffer_pool.storage.state.next_page_id :=
          hinv.ovfUB a ha
        simp only [List.mem_singleton] at hamem
        omega
      · intro a ha hmem
        rcases List.mem_append.mp hmem with h1 | h1
        · exact hinv.pagesOvfDisjoint a ha h1
        · simp only [List.mem_singleton] at h1
          have ha2 : a < ps.buffer_pool.storage.state.next_page_id :=
            hinv.pagesUB a ha
          omega
      · intro a ha
        rcases List.mem_append.mp ha with h1 | h1
        · exact hinv.ovfLB a h1
        · simp only [List.mem_singleton] at h1
          omega
      · intro a ha
        show a < st2.state.next_page_id
        rw [hstState]
        show a < id + 1
        have ha2 : a < ps.buffer_pool.storage.state.next_page_id :=
          hinv.pagesUB a ha
        omega
      · intro a ha
        show a < st2.state.next_page_id
        rw [hstState]
        show a < id + 1
        rcases List.mem_append.mp ha with h1 | h1
        · have ha2 : a < ps.buffer_pool.storage.state.next_page_id :=
            hinv.ovfUB a h1
          omega
        · simp only [List.mem_singleton] at h1
          omega
      · show DEFAULT_PAGE ≤ st2.state.next_page_id
        rw [hstState]
        show DEFAULT_PAGE ≤ id + 1
        omega
      · intro j hj
        have hj2 : st2.state.next_page_id ≤ j := hj
        rw [hstState] at hj2
        have hjlarge : id + 1 ≤ j := hj2
        show st2.marble j = none
        rw [hmar2 j (by omega) (by
          show j ≠ STORAGE_STATE_INDEX
          simp only [STORAGE_STATE_INDEX, DEFAULT_PAGE] at *
          omega)]
        refine hinv.marbleUB j ?_
        show ps.storage.state.next_page_id ≤ j
        omega
      · intro k hk
        exact hinv.cacheSub k hk
      · refine ⟨hinv.cache.nodup, hinv.cache.headerId, ?_⟩
        intro k p hkp
        have hkmem : k ∈ ps.buffer_pool.pages.map (fun e => e.1) := by
          refine (alookup_isSome_iff _ _).mp ?_
          rw [hkp]
          rfl
        obtain ⟨hklb, hkub⟩ := hkfact k hkmem
        obtain ⟨bs, hbs, k2, hk2⟩ := hinv.cache.cleanDisk k p hkp
        refine ⟨bs, ?_, k2, hk2⟩
        show st2.marble k = some bs
        rw [hmar2 k (by omega) (by
          show k ≠ STORAGE_STATE_INDEX
          simp only [STORAGE_STATE_INDEX]
          simp only [DEFAULT_PAGE] at hklb
          omega)]
        exact hbs
      · show st2.marble STORAGE_STATE_INDEX = some (bc.encodeState st2.state)
        rw [hmar0, hstState]
      · intro i pid2 hpid2
        obtain ⟨pg0, hview0, hhdr0, ms0, hms0, hcnt0, hrep0⟩ :=
          hinv.pageRep i pid2 hpid2
        have hpmem : pid2 ∈ os.pages := by
          have := List.getElem?_eq_some.mp hpid2
          exact this.2 ▸ List.getElem_mem this.1
        refine ⟨pg0, (hviewOld pid2 hpmem).trans hview0, hhdr0, ms0, hms0,
          hcnt0, ?_⟩
        refine PageRep_mono_ovf bc st2.marble os.overflow_pages _
          (fun a ha => List.mem_append.mpr (Or.inl ha)) pg0.data ms0 ?_
        exact PageRep_stable bc ps.buffer_pool.storage.marble st2.marble
          os.overflow_pages hagree pg0.data ms0 hrep0
    refine ⟨bc.encodeW (.index id),
      { os with overflow_pages := os.overflow_pages ++ [id] }, st2, .index id,
      hEq, hinv2, rfl, rfl, ?_, ?_, hbc.decW (.index id), ?_, ?_⟩
    · show st2.state.page_size = ps.page_size
      rw [hstState]
      rfl
    · have := hbc.indexSmall id
      have hx : (64 : Nat) ≤ ps.page_size := hps64
      omega
    · refine ⟨bc.encodeW (.real m), hmarid, (bc.encodeW (.real m)).length, ?_⟩
      have h2 := hbc.decW (.real m) []
      simpa using h2
    · intro id0 h
      cases h
      exact List.mem_append.mpr (Or.inr (List.mem_singleton.mpr rfl))

theorem eq_take_concat_of_getElem_last {α : Type} (l : List α) (n : Nat) (a : α)
    (hlen : l.length = n + 1) (hget : l[n]? = some a) :
    l = l.take n ++ [a] := by
  have hn : n < l.length := by omega
  have h1 : l = l.take n ++ l.drop n := (List.take_append_drop n l).symm
  have h2 : l.drop n = l[n] :: l.drop (n + 1) := List.drop_eq_getElem_cons hn
  have h3 : l.drop (n + 1) = [] := List.drop_eq_nil_of_le (by omega)
  have h4 : l[n] = a := by
    rw [List.getElem?_eq_getElem hn] at hget
    injection hget
  rw [h2, h3, h4] at h1
  exact h1

theorem PageRep_data_ne_nil {γ : Type} {bc : Bincode γ} {mar : Marble γ}
    {ovf : List Nat} {data : List γ} {ms : List Message}
    (h : PageRep bc mar ovf data ms) (hne : data ≠ []) : ms ≠ [] := by
  cases h with
  | nil => exact absurd rfl hne
  | cons chunk w m data2 ms2 hdec hunw hovf htail => exact List.cons_ne_nil m ms2

theorem take_getElem_mem_of_lt {α : Type} (l : List α) (n : Nat) (a : α)
    (hmem : a ∈ l.take n) : ∃ i, i < n ∧ l[i]? = some a := by
  obtain ⟨i, hi, hgi⟩ := List.getElem_of_mem hmem
  have hlen : i < n := lt_of_lt_of_le hi (by
    rw [List.length_take]
    exact min_le_left n l.length)
  have hil : i < l.length := lt_of_lt_of_le hi (by
    rw [List.length_take]
    exact min_le_right n l.length)
  refine ⟨i, hlen, ?_⟩
  rw [List.getElem?_eq_getElem hil]
  rw [List.getElem_take] at hgi
  exact congrArg some hgi

theorem insert_step {γ : Type} (bc : Bincode γ) (hbc : BincodeOK bc)
    (os : ObjectStorage) (ps : PagedStorage γ) (msgss : List (List Message))
    (hinv : Inv bc ps os msgss) (hps64 : 64 ≤ ps.page_size)
    (m : Message) (hmatch : os.schema.match_message m = true)
    (hpne : os.pages ≠ [])
    (hNEL : ∀ i, i + 1 < msgss.length → msgss[i]? ≠ some [])
    (rest : List Message) :
    ∃ os2 ps2 msgss2,
      ObjectStorage.insert_loop bc (m :: rest) os ps =
        ObjectStorage.insert_loop bc rest os2 ps2 ∧
      Inv bc ps2 os2 msgss2 ∧
      os2.schema = os.schema ∧
      os2.pages ≠ [] ∧
      ps2.page_size = ps.page_size ∧
      msgss2.flatten = msgss.flatten ++ [m] ∧
      (∀ ms ∈ msgss2, ms ≠ []) := by
  obtain ⟨encoded, osW, stW, w, hEqW, hinvW, hschemaW, hpagesW, hpszW, hlenW,
    hdecW, hunwW, hovfW⟩ := wrap_and_encode_inv bc hbc os ps msgss hinv hps64 m
  rcases List.eq_nil_or_concat os.pages with hnil | ⟨pinit, lastId, hdecomp⟩
  · exact absurd hnil hpne
  rw [List.concat_eq_append] at hdecomp
  have hpageslen : os.pages.length = pinit.length + 1 := by
    rw [hdecomp]
    simp
  have hmslen : msgss.length = pinit.length + 1 := by
    rw [← hinv.pagesLen]
    exact hpageslen
  have hpidx : osW.pages[pinit.length]? = some lastId := by
    rw [hpagesW, hdecomp]
    exact List.getElem?_concat_length pinit lastId
  have hlastW : osW.pages.getLast? = some lastId := by
    rw [hpagesW, hdecomp]
    exact List.getLast?_concat _
  have hlastmem : lastId ∈ osW.pages := by
    rw [hpagesW, hdecomp]
    exact List.mem_append.mpr (Or.inr (List.mem_singleton.mpr rfl))
  obtain ⟨pgL, hviewL, hhdrL, msL, hmsL, hcntL, hrepL⟩ :=
    hinvW.pageRep pinit.length lastId hpidx
  have hmsdecomp : msgss = msgss.take pinit.length ++ [msL] :=
    eq_take_concat_of_getElem_last msgss pinit.length msL hmslen hmsL
  have htklen : (msgss.take pinit.length).length = pinit.length := by
    rw [List.length_take]
    omega
  have hpszW2 : (⟨{ ps.buffer_pool with storage := stW }⟩ :
      PagedStorage γ).page_size = ps.page_size := hpszW
  by_cases hfit2 : pgL.data.length + encoded.length ≤ ps.page_size
  · obtain ⟨psA, hA, hwA, hlkA⟩ := append_data_ok bc hbc
      ⟨{ ps.buffer_pool with storage := stW }⟩ hinvW.cache lastId pgL hviewL
      hhdrL encoded (by rw [hpszW2]; exact hfit2)
    obtain ⟨psB, hB, hwB, hstB⟩ := bump_obj_count_cached bc psA hwA.cacheOk
      lastId { pgL with data := pgL.data ++ encoded } true hlkA hhdrL
    have hwAB : PSWrite bc ⟨{ ps.buffer_pool with storage := stW }⟩ psB lastId
        { header :=
            { pgL.header with obj_count := pgL.header.obj_count + 1 },
          data := pgL.data ++ encoded } :=
      PSWrite_comp_st hwA hwB hstB
    have hinv2 : Inv bc psB osW (msgss.set pinit.length (msL ++ [m])) := by
      refine Inv_set_msgss hinvW pinit.length lastId _ (msL ++ [m]) hpidx hwAB
        hhdrL ?_ ?_
      · show pgL.header.obj_count + 1 = (msL ++ [m]).length
        rw [List.length_append, hcntL]
        rfl
      · show PageRep bc stW.marble osW.overflow_pages
          (pgL.data ++ encoded) (msL ++ [m])
        exact PageRep_snoc bc stW.marble osW.overflow_pages encoded w m hdecW
          hunwW hovfW pgL.data msL hrepL
    have htp : ObjectStorage.try_push bc osW
        (⟨{ ps.buffer_pool with storage := stW }⟩ : PagedStorage γ) encoded =
        some (Except.ok (), psA) := by
      unfold ObjectStorage.try_push
      simp only [hlastW, hA]
      rfl
    have hloop : ObjectStorage.insert_loop bc (m :: rest) os ps =
        ObjectStorage.insert_loop bc rest osW psB := by
      simp only [ObjectStorage.insert_loop, hmatch, Bool.not_true]
      simp only [hEqW]
      simp only [htp, hlastW, hB]
      simp
    have hset : msgss.set pinit.length (msL ++ [m]) =
        msgss.take pinit.length ++ [msL ++ [m]] := by
      conv_lhs => rw [hmsdecomp]
      exact set_append_last_of_len _ _ _ _ htklen.symm
    refine ⟨osW, psB, msgss.set pinit.length (msL ++ [m]), hloop, hinv2,
      hschemaW, ?_, ?_, ?_, ?_⟩
    · rw [hpagesW]
      exact hpne
    · have h1 : psB.page_size = psA.page_size :=
        congrArg (fun s => s.state.page_size) hstB
      have h2 : psA.page_size = (⟨{ ps.buffer_pool with storage := stW }⟩ :
          PagedStorage γ).page_size :=
        congrArg (fun s => s.page_size) hwA.stateEq
      rw [h1, h2, hpszW2]
    · rw [hset, flatten_concat_last]
      conv_rhs => rw [hmsdecomp]
      rw [flatten_concat_last, List.append_assoc]
    · intro ms hmem
      rw [hset] at hmem
      rcases List.mem_append.mp hmem with h1 | h1
      · obtain ⟨i, hilt, hig⟩ := take_getElem_mem_of_lt msgss pinit.length ms h1
        intro hmsnil
        subst hmsnil
        exact hNEL i (by omega) hig
      · simp only [List.mem_singleton] at h1
        subst h1
        simp
  · obtain ⟨bpF, hAerr, hstepF⟩ := append_data_full bc hbc
      ⟨{ ps.buffer_pool with storage := stW }⟩ hinvW.cache lastId pgL hviewL
      hhdrL encoded (by rw [hpszW2]; omega)
    have hinvF : Inv bc ⟨bpF⟩ osW msgss :=
      Inv_of_BPStep hinvW bpF lastId hstepF hlastmem
    have hagreeF : ∀ b ∈ osW.overflow_pages,
        bpF.storage.marble b = stW.marble b :=
      Inv_ovf_agree hinvW bpF.storage.marble hstepF.marbleOut
    obtain ⟨newId, hnewId⟩ : ∃ x : Nat,
        x = (⟨bpF⟩ : PagedStorage γ).buffer_pool.storage.state.next_page_id :=
      ⟨_, rfl⟩
    obtain ⟨psG, haddG, hinvG, hpszG, hviewG, hmarG⟩ :=
      add_page_inv bc hbc osW ⟨bpF⟩ msgss hinvF newId hnewId
    have hagreeG : ∀ b ∈ osW.overflow_pages, psG.marble b = stW.marble b := by
      intro b hb
      rw [hmarG b hb]
      exact hagreeF b hb
    have hunwG : UnwrapOK bc psG.marble w m :=
      UnwrapOK_stable bc stW.marble psG.marble w m hunwW
        (fun i hw => hagreeG i (hovfW i hw))
    have hFps : (⟨bpF⟩ : PagedStorage γ).page_size = ps.page_size := by
      have h1 : (⟨bpF⟩ : PagedStorage γ).page_size =
          (⟨{ ps.buffer_pool with storage := stW }⟩ :
            PagedStorage γ).page_size :=
        congrArg (fun s => s.page_size) hstepF.stateEq
      rw [h1, hpszW2]
    have hGps : psG.page_size = ps.page_size := by
      rw [hpszG, hFps]
    have hlastG : ({ osW with pages := osW.pages ++ [newId] } :
        ObjectStorage).pages.getLast? = some newId := by
      show (osW.pages ++ [newId]).getLast? = some newId
      exact List.getLast?_concat _
    have hpidx2 : ({ osW with pages := osW.pages ++ [newId] } :
        ObjectStorage).pages[osW.pages.length]? = some newId := by
      show (osW.pages ++ [newId])[osW.pages.length]? = some newId
      exact List.getElem?_concat_length osW.pages newId
    obtain ⟨psA, hA2, hwA2, hlkA2⟩ := append_data_ok bc hbc psG hinvG.cache
      newId { header := { id := newId, page_type := .tableData, obj_count := 0 },
              data := [] } hviewG rfl encoded (by
        show List.length ([] : List γ) + encoded.length ≤ psG.page_size
        rw [hGps]
        simpa using hlenW)
    obtain ⟨psB, hB2, hwB2, hstB2⟩ := bump_obj_count_cached bc psA hwA2.cacheOk
      newId { header := { id := newId, page_type := .tableData, obj_count := 0 },
              data := [] ++ encoded } true hlkA2 rfl
    have hwAB2 : PSWrite bc psG psB newId
        { header := { id := newId, page_type := .tableData, obj_count := 0 + 1 },
          data := [] ++ encoded } :=
      PSWrite_comp_st hwA2 hwB2 hstB2
    have hinv2 : Inv bc psB { osW with pages := osW.pages ++ [newId] }
        ((msgss ++ [[]]).set osW.pages.length [m]) := by
      refine Inv_set_msgss hinvG osW.pages.length newId _ [m] hpidx2 hwAB2
        rfl rfl ?_
      show PageRep bc psG.marble osW.overflow_pages ([] ++ encoded) [m]
      have := PageRep_snoc bc psG.marble osW.overflow_pages encoded w m hdecW
        hunwG (fun i hw => hovfW i hw) [] [] PageRep.nil
      simpa using this
    have hset2 : (msgss ++ [[]]).set osW.pages.length [m] = msgss ++ [[m]] := by
      rw [hinvW.pagesLen, set_append_last]
    rw [hset2] at hinv2
    have htpErr : ObjectStorage.try_push bc osW
        (⟨{ ps.buffer_pool with storage := stW }⟩ : PagedStorage γ) encoded =
        some (Except.error StorageError.pageFull, ⟨bpF⟩) := by
      unfold ObjectStorage.try_push
      simp only [hlastW, hAerr]
      rfl
    have htp2 : ObjectStorage.try_push bc
        { osW with pages := osW.pages ++ [newId] } psG encoded =
        some (Except.ok (), psA) := by
      unfold ObjectStorage.try_push
      simp only [hlastG, hA2]
      rfl
    have hloop : ObjectStorage.insert_loop bc (m :: rest) os ps =
        ObjectStorage.insert_loop bc rest
          { osW with pages := osW.pages ++ [newId] } psB := by
      simp only [ObjectStorage.insert_loop, hmatch, Bool.not_true]
      simp only [hEqW]
      simp only [htpErr, haddG, htp2, hlastG, hB2]
      simp
    have hdataNe : pgL.data ≠ [] := by
      intro h
      rw [h] at hfit2
      simp only [List.length_nil, Nat.zero_add] at hfit2
      exact hfit2 hlenW
    have hmsLne : msL ≠ [] := PageRep_data_ne_nil hrepL hdataNe
    refine ⟨{ osW with pages := osW.pages ++ [newId] }, psB, msgss ++ [[m]],
      hloop, hinv2, hschemaW, ?_, ?_, flatten_concat_last msgss [m], ?_⟩
    · simp
    · have h1 : psB.page_size = psA.page_size :=
        congrArg (fun s => s.state.page_size) hstB2
      have h2 : psA.page_size = psG.page_size :=
        congrArg (fun s => s.page_size) hwA2.stateEq
      rw [h1, h2, hGps]
    · intro ms hmem
      rcases List.mem_append.mp hmem with h1 | h1
      · obtain ⟨i, hi, hgi⟩ := List.getElem_of_mem h1
        have hig : msgss[i]? = some ms := by
          rw [List.getElem?_eq_getElem hi]
          exact congrArg some hgi
        by_cases hii : i + 1 < msgss.length
        · intro hmsnil
          subst hmsnil
          exact hNEL i hii hig
        · have hieq : i = pinit.length := by omega
          subst hieq
          rw [hmsL] at hig
          injection hig with h2
          exact h2 ▸ hmsLne
      · simp only [List.mem_singleton] at h1
        subst h1
        simp

theorem insert_loop_prefix {γ : Type} (bc : Bincode γ) (hbc : BincodeOK bc) :
    ∀ (pre tail : List Message) (os : ObjectStorage) (ps : PagedStorage γ)
      (msgss : List (List Message)),
      Inv bc ps os msgss → 64 ≤ ps.page_size →
      (∀ m ∈ pre, os.schema.match_message m = true) →
      os.pages ≠ [] →
      (∀ i, i + 1 < msgss.length → msgss[i]? ≠ some []) →
      ∃ os2 ps2 msgss2,
        ObjectStorage.insert_loop bc (pre ++ tail) os ps =
          ObjectStorage.insert_loop bc tail os2 ps2 ∧
        Inv bc ps2 os2 msgss2 ∧
        os2.schema = os.schema ∧
        os2.pages ≠ [] ∧
        ps2.page_size = ps.page_size ∧
        msgss2.flatten = msgss.flatten ++ pre ∧
        ((∀ ms ∈ msgss, ms ≠ []) → ∀ ms ∈ msgss2, ms ≠ []) ∧
        (pre ≠ [] → ∀ ms ∈ msgss2, ms ≠ []) := by
  intro pre
  induction pre with
  | nil =>
    intro tail os ps msgss hinv hps64 hpre hpne hNEL
    refine ⟨os, ps, msgss, by rw [List.nil_append], hinv, rfl, hpne, rfl,
      (List.append_nil _).symm, fun h => h, fun h => absurd rfl h⟩
  | cons m pre ih =>
    intro tail os ps msgss hinv hps64 hpre hpne hNEL
    obtain ⟨os2, ps2, msgss2, hstep, hinv2, hschema2, hpne2, hpsz2, hflat2,
      hNEx2⟩ := insert_step bc hbc os ps msgss hinv hps64 m
        (hpre m (List.mem_cons_self m pre)) hpne hNEL (pre ++ tail)
    have hNEL2 : ∀ i, i + 1 < msgss2.length → msgss2[i]? ≠ some [] := by
      intro i hi hcontra
      have hmem : ([] : List Message) ∈ msgss2 := by
        have := List.getElem?_eq_some.mp hcontra
        exact this.2 ▸ List.getElem_mem this.1
      exact hNEx2 [] hmem rfl
    obtain ⟨os3, ps3, msgss3, hloop3, hinv3, hschema3, hpne3, hpsz3, hflat3,
      hNExPres3, hNEx3⟩ := ih tail os2 ps2 msgss2 hinv2 (by rw [hpsz2]; exact hps64)
      (by
        intro m2 hm2
        rw [hschema2]
        exact hpre m2 (List.mem_cons_of_mem m hm2)) hpne2 hNEL2
    refine ⟨os3, ps3, msgss3, ?_, hinv3, hschema3.trans hschema2, hpne3,
      hpsz3.trans hpsz2, ?_, ?_, ?_⟩
    · rw [List.cons_append, hstep, hloop3]
    · rw [hflat3, hflat2, List.append_assoc]
      rfl
    · intro _
      exact hNExPres3 hNEx2
    · intro _
      exact hNExPres3 hNEx2

theorem insert_messages_all_ok {γ : Type} (bc : Bincode γ) (hbc : BincodeOK bc)
    (os : ObjectStorage) (ps : PagedStorage γ)
    (hinv : Inv bc ps os []) (hps64 : 64 ≤ ps.page_size)
    (msgs : List Message)
    (hall : ∀ m ∈ msgs, os.schema.match_message m = true)
    (hpages0 : os.pages = []) :
    ∃ os2 ps2 msgss2,
      ObjectStorage.insert_messages bc os ps msgs =
        some (Except.ok (), os2, ps2) ∧
      Inv bc ps2 os2 msgss2 ∧
      msgss2.flatten = msgs ∧
      (msgs ≠ [] → ∀ ms ∈ msgss2, ms ≠ []) := by
  obtain ⟨newId, hnewId⟩ : ∃ x : Nat,
      x = ps.buffer_pool.storage.state.next_page_id := ⟨_, rfl⟩
  obtain ⟨psG, haddG, hinvG, hpszG, hviewG, hmarG⟩ :=
    add_page_inv bc hbc os ps [] hinv newId hnewId
  obtain ⟨os3, ps3, msgss3, hloop3, hinv3, hschema3, hpne3, hpsz3, hflat3,
    hNExPres3, hNEx3⟩ := insert_loop_prefix bc hbc msgs []
      { os with pages := os.pages ++ [newId] } psG ([] ++ [[]]) hinvG
      (by rw [hpszG]; exact hps64)
      (by intro m2 hm2; exact hall m2 hm2)
      (by simp)
      (by intro i hi; simp at hi)
  rw [List.append_nil] at hloop3
  refine ⟨os3, ps3, msgss3, ?_, hinv3, ?_, ?_⟩
  · unfold ObjectStorage.insert_messages
    rw [hpages0]
    simp only [List.length_nil, haddG]
    rw [if_pos trivial]
    rw [hloop3]
    rfl
  · rw [hflat3]
    rfl
  · intro h
    exact hNEx3 h

theorem insert_messages_prefix_mismatch {γ : Type} (bc : Bincode γ)
    (hbc : BincodeOK bc) (os : ObjectStorage) (ps : PagedStorage γ)
    (hinv : Inv bc ps os []) (hps64 : 64 ≤ ps.page_size)
    (pre : List Message) (bad : Message) (rest : List Message)
    (hpre : ∀ m ∈ pre, os.schema.match_message m = true)
    (hbad : os.schema.match_message bad = false)
    (hpages0 : os.pages = []) :
    ∃ os2 ps2 msgss2,
      ObjectStorage.insert_messages bc os ps (pre ++ bad :: rest) =
        some (Except.error ExecutorError.messageTypeMismatch, os2, ps2) ∧
      Inv bc ps2 os2 msgss2 ∧
      msgss2.flatten = pre ∧
      (pre ≠ [] → ∀ ms ∈ msgss2, ms ≠ []) := by
  obtain ⟨newId, hnewId⟩ : ∃ x : Nat,
      x = ps.buffer_pool.storage.state.next_page_id := ⟨_, rfl⟩
  obtain ⟨psG, haddG, hinvG, hpszG, hviewG, hmarG⟩ :=
    add_page_inv bc hbc os ps [] hinv newId hnewId
  obtain ⟨os3, ps3, msgss3, hloop3, hinv3, hschema3, hpne3, hpsz3, hflat3,
    hNExPres3, hNEx3⟩ := insert_loop_prefix bc hbc pre (bad :: rest)
      { os with pages := os.pages ++ [newId] } psG ([] ++ [[]]) hinvG
      (by rw [hpszG]; exact hps64)
      (by intro m2 hm2; exact hpre m2 hm2)
      (by simp)
      (by intro i hi; simp at hi)
  have hbad3 : os3.schema.match_message bad = false := by
    rw [hschema3]
    exact hbad
  have hmismatch : ObjectStorage.insert_loop bc (bad :: rest) os3 ps3 =
      some (Except.error ExecutorError.messageTypeMismatch, os3, ps3) := by
    simp only [ObjectStorage.insert_loop, hbad3, Bool.not_false]
    rfl
  refine ⟨os3, ps3, msgss3, ?_, hinv3, ?_, ?_⟩
  · unfold ObjectStorage.insert_messages
    rw [hpages0]
    simp only [List.length_nil, haddG]
    rw [if_pos trivial]
    rw [hloop3, hmismatch]
  · rw [hflat3]
    rfl
  · intro h
    exact hNEx3 h

theorem CursorOK_start {γ : Type} (bc : Bincode γ) (ps : PagedStorage γ)
    (os : ObjectStorage) (msgss : List (List Message))
    (hinv : Inv bc ps os msgss) (hne : ∀ ms ∈ msgss, ms ≠ []) :
    CursorOK bc ps os msgss ObjectStorage.iter msgss.flatten := by
  cases msgss with
  | nil => exact Or.inl ⟨rfl, rfl⟩
  | cons ms0 msrest =>
    right
    have hlen0p : 0 < os.pages.length := by
      rw [hinv.pagesLen]
      simp
    have hpid0 : os.pages[0]? = some os.pages[0] :=
      List.getElem?_eq_getElem hlen0p
    obtain ⟨pg, hview, hhdr, ms, hmsg, hcnt, hrep⟩ :=
      hinv.pageRep 0 os.pages[0] hpid0
    have hms0 : ms = ms0 := by
      simp only [List.getElem?_cons_zero] at hmsg
      injection hmsg with h
      exact h.symm
    subst hms0
    refine ⟨os.pages[0], pg, [], pg.data, ms, ?_, hpid0, hview,
      (List.nil_append _).symm, rfl, hrep,
      hne ms (List.mem_cons_self _ _), ?_, ?_⟩
    · show (0 : Nat) < (ms :: msrest).length
      simp
    · show 0 + ms.length = pg.header.obj_count
      rw [Nat.zero_add]
      exact hcnt.symm
    · show (ms :: msrest).flatten = ms ++ (List.drop (0 + 1) (ms :: msrest)).flatten
      rfl

theorem iterate_all {γ : Type} (bc : Bincode γ) (hbc : BincodeOK bc)
    (os : ObjectStorage) (msgss : List (List Message)) (ps : PagedStorage γ)
    (fuel : Nat) (hinv : Inv bc ps os msgss)
    (hne : ∀ ms ∈ msgss, ms ≠ [])
    (hfuel : msgss.flatten.length < fuel) :
    ∃ ps2, runIter bc os fuel ps ObjectStorage.iter =
      some (msgss.flatten, ps2) :=
  runIter_spec bc hbc os msgss hne fuel msgss.flatten ps ObjectStorage.iter
    hinv (CursorOK_start bc ps os msgss hinv hne) hfuel

theorem Inv_fresh {γ : Type} (bc : Bincode γ) (mar : Marble γ)
    (st : StorageState) (cap : Nat) (schema : MessageType)
    (hfree : st.free_ids = [])
    (hnext : st.next_page_id = DEFAULT_PAGE)
    (hmarUB : ∀ j, DEFAULT_PAGE ≤ j → mar j = none)
    (hpers : mar STORAGE_STATE_INDEX = some (bc.encodeState st)) :
    Inv bc ⟨⟨⟨mar, st⟩, [], cap⟩⟩ (ObjectStorage.new schema) [] := by
  refine ⟨hfree, rfl, ?_, ?_, ?_, ?_, ?_, ?_, ?_, ?_, ?_, ?_, ⟨?_, ?_, ?_⟩,
    hpers, ?_⟩
  · exact List.nodup_nil
  · exact List.nodup_nil
  · intro a ha
    simp [ObjectStorage.new] at ha
  · intro a ha
    simp [ObjectStorage.new] at ha
  · intro a ha
    simp [ObjectStorage.new] at ha
  · intro a ha
    simp [ObjectStorage.new] at ha
  · intro a ha
    simp [ObjectStorage.new] at ha
  · show DEFAULT_PAGE ≤ st.next_page_id
    rw [hnext]
  · intro j hj
    have hj2 : st.next_page_id ≤ j := hj
    rw [hnext] at hj2
    exact hmarUB j hj2
  · intro k hk
    simp [cacheKeys] at hk
  · exact List.nodup_nil
  · intro k p d h
    simp [alookup] at h
  · intro k p h
    simp [alookup] at h
  · intro i pid h
    simp [ObjectStorage.new] at h

theorem fresh_ps_spec {γ : Type} (bc : Bincode γ) (page_size cap : Nat)
    (hcap : cap ≠ 0) :
    PagedStorage.new bc (Marble.empty : Marble γ) page_size cap =
      some (Except.ok ⟨⟨⟨Marble.empty.write STORAGE_STATE_INDEX
        (some (bc.encodeState ⟨page_size, DEFAULT_PAGE, []⟩)),
        ⟨page_size, DEFAULT_PAGE, []⟩⟩, [], cap⟩⟩) := by
  unfold PagedStorage.new BufferPool.new Storage.new
  rw [if_neg hcap]
  rfl

theorem wvalBincodeOK : BincodeOK wvalBincode := by
  refine ⟨fun w rest => rfl, fun p => ⟨1, rfl⟩, fun s => ⟨1, rfl⟩,
    fun c => ⟨1, rfl⟩, fun id => ?_⟩
  show (1 : Nat) ≤ 64
  omega

/-- Claim C2: insert_messages validates each message against the schema
before storing it; the first mismatch aborts the batch with
MessageTypeMismatch, stores nothing of the failing or later messages,
and iteration afterwards yields exactly the previously inserted prefix
(stated for a non-empty prefix: with no stored row the iterator's decode
of an empty page is the panic the source would also hit). -/
theorem insert_mismatch_keeps_prefix {γ : Type} (bc : Bincode γ)
    (hbc : BincodeOK bc) (page_size cap : Nat) (schema : MessageType)
    (pre : List Message) (bad : Message) (rest : List Message)
    (hps64 : 64 ≤ page_size) (hcap : cap ≠ 0)
    (hpre : ∀ m ∈ pre, schema.match_message m = true)
    (hbad : schema.match_message bad = false)
    (hprene : pre ≠ []) :
    c2Run bc page_size cap schema (pre ++ bad :: rest) =
      some (Except.error ExecutorError.messageTypeMismatch, some pre) := by
  have hfresh := fresh_ps_spec bc page_size cap hcap
  obtain ⟨ps0, hps0⟩ : ∃ ps0 : PagedStorage γ, ps0 =
      (⟨⟨⟨Marble.empty.write STORAGE_STATE_INDEX
        (some (bc.encodeState ⟨page_size, DEFAULT_PAGE, []⟩)),
        ⟨page_size, DEFAULT_PAGE, []⟩⟩, [], cap⟩⟩ : PagedStorage γ) := ⟨_, rfl⟩
  rw [← hps0] at hfresh
  have hinv0 : Inv bc ps0 (ObjectStorage.new schema) [] := by
    rw [hps0]
    refine Inv_fresh bc _ _ cap schema rfl rfl ?_ ?_
    · intro j hj
      show (if j = STORAGE_STATE_INDEX then
        some (bc.encodeState ⟨page_size, DEFAULT_PAGE, []⟩)
        else (Marble.empty : Marble γ) j) = none
      rw [if_neg (by
        show j ≠ STORAGE_STATE_INDEX
        simp only [STORAGE_STATE_INDEX]
        simp only [DEFAULT_PAGE] at hj
        omega)]
      rfl
    · show (if STORAGE_STATE_INDEX = STORAGE_STATE_INDEX then
        some (bc.encodeState ⟨page_size, DEFAULT_PAGE, []⟩)
        else (Marble.empty : Marble γ) STORAGE_STATE_INDEX) = _
      rw [if_pos rfl]
  have hpssize : ps0.page_size = page_size := by
    rw [hps0]
    rfl
  obtain ⟨os2, ps2, msgss2, hins, hinv2, hflat2, hNEx2⟩ :=
    insert_messages_prefix_mismatch bc hbc (ObjectStorage.new schema) ps0 hinv0
      (by rw [hpssize]; exact hps64) pre bad rest
      (by
        intro m2 hm2
        show schema.match_message m2 = true
        exact hpre m2 hm2)
      hbad rfl
  obtain ⟨psI, hiter⟩ := iterate_all bc hbc os2 msgss2 ps2
    ((pre ++ bad :: rest).length + 2) hinv2 (hNEx2 hprene)
    (by
      rw [hflat2, List.length_append]
      simp only [List.length_cons]
      omega)
  rw [hflat2] at hiter
  unfold c2Run
  simp only [hfresh, hins, hiter]

/-- Witness for C2 at a one-column Bool table: a Bool row inserts, an Int
row mismatches, iteration returns the single Bool row. -/
theorem insert_mismatch_keeps_prefix_witness :
    c2Run wvalBincode 64 1 (MessageType.mk "T" [Column.mk "a" DBType.bool []])
      ([Message.mk none [DBValue.bool true]] ++
        Message.mk none [DBValue.int 0] :: []) =
      some (Except.error ExecutorError.messageTypeMismatch,
        some [Message.mk none [DBValue.bool true]]) :=
  insert_mismatch_keeps_prefix wvalBincode wvalBincodeOK 64 1
    (MessageType.mk "T" [Column.mk "a" DBType.bool []])
    [Message.mk none [DBValue.bool true]] (Message.mk none [DBValue.int 0]) []
    (by decide) (by decide) (by decide) (by decide) (by decide)

theorem flushEntries_spec {γ : Type} (bc : Bincode γ) (hbc : BincodeOK bc) :
    ∀ (entries : List (Nat × Page γ × Bool)) (st : Storage γ),
      (entries.map (fun e => e.1)).Nodup →
      (∀ e ∈ entries, e.2.1.header.id = e.1) →
      (∀ k p, (k, p, false) ∈ entries →
        ∃ bs, st.marble k = some bs ∧ ∃ k2, bc.decodePage bs = some (p, k2)) →
      (flushEntries bc st entries).2.map (fun e => e.1) =
          entries.map (fun e => e.1) ∧
      (∀ k, (alookup (flushEntries bc st entries).2 k).map (fun e => e.1) =
          (alookup entries k).map (fun e => e.1)) ∧
      (∀ e ∈ (flushEntries bc st entries).2, e.2.2 = false) ∧
      (flushEntries bc st entries).1.state = st.state ∧
      (∀ j, j ∉ entries.map (fun e => e.1) →
        (flushEntries bc st entries).1.marble j = st.marble j) ∧
      (∀ k p d, (k, p, d) ∈ entries →
        ∃ bs, (flushEntries bc st entries).1.marble k = some bs ∧
          ∃ k2, bc.decodePage bs = some (p, k2)) := by
  intro entries
  induction entries with
  | nil =>
    intro st hnodup hids hclean
    refine ⟨rfl, fun k => rfl, ?_, rfl, fun j hj => rfl, ?_⟩
    · intro e he
      simp [flushEntries] at he
    · intro k p d h
      simp at h
  | cons entry rest ih =>
    obtain ⟨id, p, d⟩ := entry
    intro st hnodup hids hclean
    have hid : p.header.id = id := hids (id, p, d) (List.mem_cons_self _ _)
    have hnodup2 : (rest.map (fun e => e.1)).Nodup := by
      rw [List.map_cons, List.nodup_cons] at hnodup
      exact hnodup.2
    have hidnotin : id ∉ rest.map (fun e => e.1) := by
      rw [List.map_cons, List.nodup_cons] at hnodup
      exact hnodup.1
    have hids2 : ∀ e ∈ rest, e.2.1.header.id = e.1 :=
      fun e he => hids e (List.mem_cons_of_mem _ he)
    cases d with
    | false =>
      have hred : flushEntries bc st ((id, p, false) :: rest) =
          ((flushEntries bc st rest).1,
            (id, p, false) :: (flushEntries bc st rest).2) := rfl
      have hclean2 : ∀ k q, (k, q, false) ∈ rest →
          ∃ bs, st.marble k = some bs ∧
            ∃ k2, bc.decodePage bs = some (q, k2) :=
        fun k q hk => hclean k q (List.mem_cons_of_mem _ hk)
      obtain ⟨ihKeys, ihLk, ihClean, ihState, ihMar, ihDisk⟩ :=
        ih st hnodup2 hids2 hclean2
      rw [hred]
      refine ⟨?_, ?_, ?_, ihState, ?_, ?_⟩
      · simp only [List.map_cons, ihKeys]
      · intro k
        show (if id = k then some (p, false) else
          alookup (flushEntries bc st rest).2 k).map (fun e => e.1) =
          (if id = k then some (p, false) else alookup rest k).map
            (fun e => e.1)
        by_cases hk : id = k
        · rw [if_pos hk, if_pos hk]
        · rw [if_neg hk, if_neg hk]
          exact ihLk k
      · intro e he
        rcases List.mem_cons.mp he with h1 | h1
        · rw [h1]
        · exact ihClean e h1
      · intro j hj
        rw [List.map_cons] at hj
        have hj1 : j ∉ rest.map (fun e => e.1) := by
          intro hmem
          exact hj (List.mem_cons_of_mem _ hmem)
        exact ihMar j hj1
      · intro k q d2 hk
        rcases List.mem_cons.mp hk with h1 | h1
        · injection h1 with h2 h3
          injection h3 with h4 h5
          subst h2
          subst h4
          obtain ⟨bs, hbs, k2, hk2⟩ := hclean k q (by
            rw [h5] at hk
            exact List.mem_cons_self _ _)
          exact ⟨bs, (ihMar k hidnotin).trans hbs, k2, hk2⟩
        · exact ihDisk k q d2 h1
    | true =>
      have hred : flushEntries bc st ((id, p, true) :: rest) =
          ((flushEntries bc (Storage.write_page bc st p) rest).1,
            (id, p, false) ::
              (flushEntries bc (Storage.write_page bc st p) rest).2) := rfl
      have hmarW : ∀ j, j ≠ id →
          (Storage.write_page bc st p).marble j = st.marble j := by
        intro j hj
        show (if j = p.header.id then _ else st.marble j) = st.marble j
        rw [if_neg (by rw [hid]; exact hj)]
      have hmarWid : (Storage.write_page bc st p).marble id =
          some (bc.encodePage p) := by
        show (if id = p.header.id then some (bc.encodePage p) else _) = _
        rw [if_pos (by rw [hid])]
      have hclean2 : ∀ k q, (k, q, false) ∈ rest →
          ∃ bs, (Storage.write_page bc st p).marble k = some bs ∧
            ∃ k2, bc.decodePage bs = some (q, k2) := by
        intro k q hk
        obtain ⟨bs, hbs, k2, hk2⟩ := hclean k q (List.mem_cons_of_mem _ hk)
        have hkne : k ≠ id := by
          intro heq
          subst heq
          exact hidnotin (List.mem_map.mpr ⟨(k, q, false), hk, rfl⟩)
        exact ⟨bs, (hmarW k hkne).trans hbs, k2, hk2⟩
      obtain ⟨ihKeys, ihLk, ihClean, ihState, ihMar, ihDisk⟩ :=
        ih (Storage.write_page bc st p) hnodup2 hids2 hclean2
      rw [hred]
      refine ⟨?_, ?_, ?_, ?_, ?_, ?_⟩
      · simp only [List.map_cons, ihKeys]
      · intro k
        show (if id = k then some (p, false) else
          alookup (flushEntries bc (Storage.write_page bc st p) rest).2 k).map
            (fun e => e.1) =
          (if id = k then some (p, true) else alookup rest k).map
            (fun e => e.1)
        by_cases hk : id = k
        · rw [if_pos hk, if_pos hk]
          rfl
        · rw [if_neg hk, if_neg hk]
          exact ihLk k
      · intro e he
        rcases List.mem_cons.mp he with h1 | h1
        · rw [h1]
        · exact ihClean e h1
      · rw [ihState]
        rfl
      · intro j hj
        rw [List.map_cons] at hj
        have hj0 : j ≠ id := by
          intro heq
          exact hj (heq ▸ List.mem_cons_self _ _)
        have hj1 : j ∉ rest.map (fun e => e.1) := by
          intro hmem
          exact hj (List.mem_cons_of_mem _ hmem)
        rw [ihMar j hj1]
        exact hmarW j hj0
      · intro k q d2 hk
        rcases List.mem_cons.mp hk with h1 | h1
        · injection h1 with h2 h3
          injection h3 with h4 h5
          subst h2
          subst h4
          refine ⟨bc.encodePage q, ?_, hbc.decPage q⟩
          rw [ihMar k hidnotin]
          exact hmarWid
        · exact ihDisk k q d2 h1

theorem slookup_cons_self {α : Type} (k : String) (v : α)
    (l : List (String × α)) : slookup ((k, v) :: l) k = some v := by
  unfold slookup
  rw [if_pos rfl]

theorem supdate_cons_self {α : Type} (k : String) (v v2 : α)
    (l : List (String × α)) : supdate ((k, v) :: l) k v2 = (k, v2) :: l := by
  unfold supdate
  rw [if_pos rfl]

theorem flush_inv {γ : Type} (bc : Bincode γ) (hbc : BincodeOK bc)
    (ps : PagedStorage γ) (os : ObjectStorage) (msgss : List (List Message))
    (hinv : Inv bc ps os msgss) :
    Inv bc (PagedStorage.flush bc ps) os msgss ∧
    (∀ k e, alookup (PagedStorage.flush bc ps).buffer_pool.pages k = some e →
      e.2 = false) ∧
    (PagedStorage.flush bc ps).buffer_pool.storage.state =
      ps.buffer_pool.storage.state ∧
    (∀ j, j ∉ ps.buffer_pool.pages.map (fun e => e.1) →
      (PagedStorage.flush bc ps).marble j = ps.marble j) := by
  have hids : ∀ e ∈ ps.buffer_pool.pages, e.2.1.header.id = e.1 := by
    intro e he
    obtain ⟨k, p, d⟩ := e
    exact hinv.cache.headerId k p d
      (alookup_of_mem_nodup _ _ _ hinv.cache.nodup he)
  have hcleanIn : ∀ k p, (k, p, false) ∈ ps.buffer_pool.pages →
      ∃ bs, ps.buffer_pool.storage.marble k = some bs ∧
        ∃ k2, bc.decodePage bs = some (p, k2) := by
    intro k p hk
    exact hinv.cache.cleanDisk k p
      (alookup_of_mem_nodup _ _ _ hinv.cache.nodup hk)
  obtain ⟨hKeys, hLk, hClean, hState, hMar, hDisk⟩ :=
    flushEntries_spec bc hbc ps.buffer_pool.pages ps.buffer_pool.storage
      hinv.cache.nodup hids hcleanIn
  have hflEq : PagedStorage.flush bc ps = ⟨{ ps.buffer_pool with
      storage := (flushEntries bc ps.buffer_pool.storage
        ps.buffer_pool.pages).1,
      pages := (flushEntries bc ps.buffer_pool.storage
        ps.buffer_pool.pages).2 }⟩ := rfl
  have hkfact : ∀ k ∈ ps.buffer_pool.pages.map (fun e => e.1),
      DEFAULT_PAGE ≤ k ∧ k < ps.buffer_pool.storage.state.next_page_id := by
    intro k hk
    have hkp := hinv.cacheSub k hk
    exact ⟨hinv.pagesLB k hkp, hinv.pagesUB k hkp⟩
  have hlkRel : ∀ k, ∀ e2, alookup (flushEntries bc ps.buffer_pool.storage
      ps.buffer_pool.pages).2 k = some e2 →
      ∃ d1, alookup ps.buffer_pool.pages k = some (e2.1, d1) := by
    intro k e2 h2
    have := hLk k
    rw [h2] at this
    cases h1 : alookup ps.buffer_pool.pages k with
    | none =>
      rw [h1] at this
      exact absurd this (by simp)
    | some e1 =>
      rw [h1] at this
      simp only [Option.map_some'] at this
      injection this with h3
      refine ⟨e1.2, ?_⟩
      rw [h3]
  have hlkRel2 : ∀ k e1, alookup ps.buffer_pool.pages k = some e1 →
      ∃ d2, alookup (flushEntries bc ps.buffer_pool.storage
        ps.buffer_pool.pages).2 k = some (e1.1, d2) := by
    intro k e1 h1
    have := hLk k
    rw [h1] at this
    cases h2 : alookup (flushEntries bc ps.buffer_pool.storage
        ps.buffer_pool.pages).2 k with
    | none =>
      rw [h2] at this
      exact absurd this (by simp)
    | some e2 =>
      rw [h2] at this
      simp only [Option.map_some'] at this
      injection this with h3
      refine ⟨e2.2, ?_⟩
      rw [← h3]
  have hview : ∀ id, pageView bc (PagedStorage.flush bc ps) id =
      pageView bc ps id := by
    intro id
    rw [hflEq]
    show (match alookup (flushEntries bc ps.buffer_pool.storage
        ps.buffer_pool.pages).2 id with
      | some (q, _) => some q
      | none =>
        match (flushEntries bc ps.buffer_pool.storage
            ps.buffer_pool.pages).1.marble id with
        | some bs => (bc.decodePage bs).map (fun e => e.1)
        | none => none) = bpView bc ps.buffer_pool id
    cases h2 : alookup (flushEntries bc ps.buffer_pool.storage
        ps.buffer_pool.pages).2 id with
    | some e2 =>
      obtain ⟨d1, h1⟩ := hlkRel id e2 h2
      unfold bpView
      rw [h1]
    | none =>
      have hnotin : id ∉ ps.buffer_pool.pages.map (fun e => e.1) := by
        intro hmem
        have hsome := (alookup_isSome_iff ps.buffer_pool.pages id).mpr hmem
        cases h1 : alookup ps.buffer_pool.pages id with
        | none => rw [h1] at hsome; exact absurd hsome (by simp)
        | some e1 =>
          obtain ⟨d2, h2b⟩ := hlkRel2 id e1 h1
          rw [h2] at h2b
          exact absurd h2b (by simp)
      unfold bpView
      cases h1 : alookup ps.buffer_pool.pages id with
      | some e1 =>
        obtain ⟨d2, h2b⟩ := hlkRel2 id e1 h1
        rw [h2] at h2b
        exact absurd h2b (by simp)
      | none =>
        rw [hMar id hnotin]
  have hagree : ∀ b ∈ os.overflow_pages,
      (PagedStorage.flush bc ps).marble b = ps.marble b := by
    intro b hb
    rw [hflEq]
    show (flushEntries bc ps.buffer_pool.storage
      ps.buffer_pool.pages).1.marble b = ps.marble b
    refine hMar b ?_
    intro hmem
    exact hinv.pagesOvfDisjoint b (hinv.cacheSub b hmem) hb
  refine ⟨?_, ?_, ?_, ?_⟩
  · refine ⟨?_, hinv.pagesLen, hinv.pagesNodup, hinv.ovfNodup,
      hinv.pagesOvfDisjoint, hinv.pagesLB, hinv.ovfLB, ?_, ?_, ?_, ?_, ?_,
      ⟨?_, ?_, ?_⟩, ?_, ?_⟩
    · show (PagedStorage.flush bc ps).buffer_pool.storage.state.free_ids = []
      rw [hflEq]
      show (flushEntries bc ps.buffer_pool.storage
        ps.buffer_pool.pages).1.state.free_ids = []
      rw [hState]
      exact hinv.freeNil
    · intro a ha
      show a < (PagedStorage.flush bc ps).buffer_pool.storage.state.next_page_id
      rw [hflEq]
      show a < (flushEntries bc ps.buffer_pool.storage
        ps.buffer_pool.pages).1.state.next_page_id
      rw [hState]
      exact hinv.pagesUB a ha
    · intro a ha
      show a < (PagedStorage.flush bc ps).buffer_pool.storage.state.next_page_id
      rw [hflEq]
      show a < (flushEntries bc ps.buffer_pool.storage
        ps.buffer_pool.pages).1.state.next_page_id
      rw [hState]
      exact hinv.ovfUB a ha
    · show DEFAULT_PAGE ≤
        (PagedStorage.flush bc ps).buffer_pool.storage.state.next_page_id
      rw [hflEq]
      show DEFAULT_PAGE ≤ (flushEntries bc ps.buffer_pool.storage
        ps.buffer_pool.pages).1.state.next_page_id
      rw [hState]
      exact hinv.nextLB
    · intro j hj
      show (PagedStorage.flush bc ps).marble j = none
      have hj2 : (flushEntries bc ps.buffer_pool.storage
          ps.buffer_pool.pages).1.state.next_page_id ≤ j := by
        have := hj
        rw [hflEq] at this
        exact this
      rw [hState] at hj2
      have hnot : j ∉ ps.buffer_pool.pages.map (fun e => e.1) := by
        intro hmem
        have := (hkfact j hmem).2
        omega
      rw [hflEq]
      show (flushEntries bc ps.buffer_pool.storage
        ps.buffer_pool.pages).1.marble j = none
      rw [hMar j hnot]
      exact hinv.marbleUB j hj2
    · intro k hk
      refine hinv.cacheSub k ?_
      have := hk
      rw [hflEq] at this
      show k ∈ cacheKeys ps.buffer_pool
      unfold cacheKeys at this ⊢
      rw [← hKeys]
      exact this
    · show ((flushEntries bc ps.buffer_pool.storage
        ps.buffer_pool.pages).2.map (fun e => e.1)).Nodup
      rw [hKeys]
      exact hinv.cache.nodup
    · intro k p d h
      have h2 : alookup (flushEntries bc ps.buffer_pool.storage
          ps.buffer_pool.pages).2 k = some (p, d) := h
      obtain ⟨d1, h1⟩ := hlkRel k (p, d) h2
      exact hinv.cache.headerId k p d1 h1
    · intro k p h
      have h2 : alookup (flushEntries bc ps.buffer_pool.storage
          ps.buffer_pool.pages).2 k = some (p, false) := h
      obtain ⟨d1, h1⟩ := hlkRel k (p, false) h2
      have hmem : (k, p, d1) ∈ ps.buffer_pool.pages := alookup_mem _ _ _ h1
      obtain ⟨bs, hbs, k2, hk2⟩ := hDisk k p d1 hmem
      exact ⟨bs, hbs, k2, hk2⟩
    · show (PagedStorage.flush bc ps).marble STORAGE_STATE_INDEX =
        some (bc.encodeState
          (PagedStorage.flush bc ps).buffer_pool.storage.state)
      have h0 : STORAGE_STATE_INDEX ∉
          ps.buffer_pool.pages.map (fun e => e.1) := by
        intro hmem
        have := (hkfact _ hmem).1
        simp [STORAGE_STATE_INDEX, DEFAULT_PAGE] at this
      rw [hflEq]
      show (flushEntries bc ps.buffer_pool.storage
        ps.buffer_pool.pages).1.marble STORAGE_STATE_INDEX =
        some (bc.encodeState (flushEntries bc ps.buffer_pool.storage
          ps.buffer_pool.pages).1.state)
      rw [hMar _ h0, hState]
      exact hinv.statePersisted
    · intro i pid hpid
      obtain ⟨pg, hview0, hhdr0, ms, hms, hcnt, hrep⟩ := hinv.pageRep i pid hpid
      refine ⟨pg, (hview pid).trans hview0, hhdr0, ms, hms, hcnt, ?_⟩
      exact PageRep_stable bc ps.marble (PagedStorage.flush bc ps).marble
        os.overflow_pages hagree pg.data ms hrep
  · intro k e h
    have h2 : alookup (flushEntries bc ps.buffer_pool.storage
        ps.buffer_pool.pages).2 k = some e := h
    have hmem : (k, e) ∈ (flushEntries bc ps.buffer_pool.storage
        ps.buffer_pool.pages).2 := alookup_mem _ _ _ h2
    exact hClean (k, e) hmem
  · rw [hflEq]
    exact hState
  · intro j hj
    rw [hflEq]
    exact hMar j hj

theorem reopen_spec {γ : Type} (bc : Bincode γ) (hbc : BincodeOK bc)
    (ps : PagedStorage γ) (os : ObjectStorage) (msgss : List (List Message))
    (hinv : Inv bc ps os msgss)
    (hclean : ∀ k e, alookup ps.buffer_pool.pages k = some e → e.2 = false)
    (psz2 cap2 : Nat) (hcap2 : cap2 ≠ 0) :
    PagedStorage.new bc ps.marble psz2 cap2 =
      some (Except.ok ⟨⟨⟨ps.marble, ps.buffer_pool.storage.state⟩, [],
        cap2⟩⟩) ∧
    Inv bc ⟨⟨⟨ps.marble, ps.buffer_pool.storage.state⟩, [], cap2⟩⟩ os msgss := by
  obtain ⟨kd, hkd⟩ := hbc.decState ps.buffer_pool.storage.state
  constructor
  · unfold PagedStorage.new BufferPool.new Storage.new
    rw [if_neg hcap2]
    have hp : ps.marble STORAGE_STATE_INDEX =
        some (bc.encodeState ps.buffer_pool.storage.state) :=
      hinv.statePersisted
    simp only [hp, hkd]
    rfl
  · have hview : ∀ p ∈ os.pages,
        bpView bc ⟨⟨ps.marble, ps.buffer_pool.storage.state⟩, [], cap2⟩ p =
          bpView bc ps.buffer_pool p := by
      intro p hp
      show (match (alookup [] p : Option (Page γ × Bool)) with
        | some (q, _) => some q
        | none =>
          match ps.marble p with
          | some bs => (bc.decodePage bs).map (fun e => e.1)
          | none => none) = bpView bc ps.buffer_pool p
      unfold bpView
      cases h1 : alookup ps.buffer_pool.pages p with
      | none => rfl
      | some e1 =>
        obtain ⟨pg1, d1⟩ := e1
        have hd : d1 = false := by
          have := hclean p (pg1, d1) h1
          simpa using this
        subst hd
        obtain ⟨bs, hbs, k2, hk2⟩ := hinv.cache.cleanDisk p pg1 h1
        have hbs2 : ps.marble p = some bs := hbs
        show (match ps.marble p with
          | some bs => (bc.decodePage bs).map (fun e => e.1)
          | none => none) = some pg1
        simp only [hbs2]
        rw [hk2]
        rfl
    refine ⟨hinv.freeNil, hinv.pagesLen, hinv.pagesNodup, hinv.ovfNodup,
      hinv.pagesOvfDisjoint, hinv.pagesLB, hinv.ovfLB, hinv.pagesUB,
      hinv.ovfUB, hinv.nextLB, hinv.marbleUB, ?_, ⟨List.nodup_nil, ?_, ?_⟩,
      hinv.statePersisted, ?_⟩
    · intro k hk
      simp [cacheKeys] at hk
    · intro k p d h
      simp [alookup] at h
    · intro k p h
      simp [alookup] at h
    · intro i pid hpid
      obtain ⟨pg, hview0, hhdr0, ms, hms, hcnt, hrep⟩ := hinv.pageRep i pid hpid
      have hpmem : pid ∈ os.pages := by
        have := List.getElem?_eq_some.mp hpid
        exact this.2 ▸ List.getElem_mem this.1
      exact ⟨pg, (hview pid hpmem).trans hview0, hhdr0, ms, hms, hcnt, hrep⟩

theorem Inv_marble_write_low {γ : Type} (bc : Bincode γ) (ps : PagedStorage γ)
    (os : ObjectStorage) (msgss : List (List Message))
    (hinv : Inv bc ps os msgss) (idx : Nat) (v : Option (List γ))
    (hlow : 0 < idx) (hlow2 : idx < DEFAULT_PAGE) :
    Inv bc ⟨{ ps.buffer_pool with storage := { ps.buffer_pool.storage with
      marble := ps.buffer_pool.storage.marble.write idx v } }⟩ os msgss := by
  have hkfact : ∀ k ∈ ps.buffer_pool.pages.map (fun e => e.1),
      DEFAULT_PAGE ≤ k ∧ k < ps.buffer_pool.storage.state.next_page_id := by
    intro k hk
    have hkp := hinv.cacheSub k hk
    exact ⟨hinv.pagesLB k hkp, hinv.pagesUB k hkp⟩
  have hmar : ∀ j, j ≠ idx →
      ps.buffer_pool.storage.marble.write idx v j =
        ps.buffer_pool.storage.marble j := by
    intro j hj
    show (if j = idx then v else ps.buffer_pool.storage.marble j) =
      ps.buffer_pool.storage.marble j
    rw [if_neg hj]
  have hview : ∀ p ∈ os.pages,
      bpView bc { ps.buffer_pool with storage := { ps.buffer_pool.storage with
        marble := ps.buffer_pool.storage.marble.write idx v } } p =
        bpView bc ps.buffer_pool p := by
    intro p hp
    have hplb := hinv.pagesLB p hp
    have hm : ps.buffer_pool.storage.marble.write idx v p =
        ps.buffer_pool.storage.marble p := by
      refine hmar p ?_
      simp only [DEFAULT_PAGE] at hplb hlow2
      omega
    show (match alookup ps.buffer_pool.pages p with
      | some (q, _) => some q
      | none =>
        match ps.buffer_pool.storage.marble.write idx v p with
        | some bs => (bc.decodePage bs).map (fun e => e.1)
        | none => none) = bpView bc ps.buffer_pool p
    rw [hm]
    rfl
  refine ⟨hinv.freeNil, hinv.pagesLen, hinv.pagesNodup, hinv.ovfNodup,
    hinv.pagesOvfDisjoint, hinv.pagesLB, hinv.ovfLB, hinv.pagesUB,
    hinv.ovfUB, hinv.nextLB, ?_, hinv.cacheSub,
    ⟨hinv.cache.nodup, hinv.cache.headerId, ?_⟩, ?_, ?_⟩
  · intro j hj
    have hj2 : ps.buffer_pool.storage.state.next_page_id ≤ j := hj
    have h100 : DEFAULT_PAGE ≤ ps.buffer_pool.storage.state.next_page_id :=
      hinv.nextLB
    show ps.buffer_pool.storage.marble.write idx v j = none
    rw [hmar j (by
      simp only [DEFAULT_PAGE] at h100 hlow2
      omega)]
    exact hinv.marbleUB j hj2
  · intro k p h
    obtain ⟨bs, hbs, k2, hk2⟩ := hinv.cache.cleanDisk k p h
    refine ⟨bs, ?_, k2, hk2⟩
    show ps.buffer_pool.storage.marble.write idx v k = some bs
    have hkmem : k ∈ ps.buffer_pool.pages.map (fun e => e.1) := by
      refine (alookup_isSome_iff _ _).mp ?_
      rw [h]
      rfl
    have hklb := (hkfact k hkmem).1
    rw [hmar k (by
      simp only [DEFAULT_PAGE] at hklb hlow2
      omega)]
    exact hbs
  · show ps.buffer_pool.storage.marble.write idx v STORAGE_STATE_INDEX =
      some (bc.encodeState ps.buffer_pool.storage.state)
    rw [hmar STORAGE_STATE_INDEX (by
      simp only [STORAGE_STATE_INDEX]
      omega)]
    exact hinv.statePersisted
  · intro i pid hpid
    obtain ⟨pg, hview0, hhdr0, ms, hms, hcnt, hrep⟩ := hinv.pageRep i pid hpid
    have hpmem : pid ∈ os.pages := by
      have := List.getElem?_eq_some.mp hpid
      exact this.2 ▸ List.getElem_mem this.1
    refine ⟨pg, (hview pid hpmem).trans hview0, hhdr0, ms, hms, hcnt, ?_⟩
    refine PageRep_stable bc ps.marble _ os.overflow_pages ?_ pg.data ms hrep
    intro b hb
    have hblb := hinv.ovfLB b hb
    show ps.buffer_pool.storage.marble.write idx v b = ps.marble b
    rw [hmar b (by
      simp only [DEFAULT_PAGE] at hblb hlow2
      omega)]
    rfl

/-- Claim C1: for a schema-matching message and page_size at least 64,
creating a table, inserting the message and iterating yields [m], and
after reopening the persisted blob store in a fresh process the
iteration again yields [m]. -/
theorem insert_iterate_reopen_roundtrip {γ : Type} (bc : Bincode γ)
    (hbc : BincodeOK bc) (page_size cap psz2 cap2 : Nat) (name : String)
    (schema : MessageType) (m : Message)
    (hps64 : 64 ≤ page_size) (hcap : cap ≠ 0) (hcap2 : cap2 ≠ 0)
    (hm : schema.match_message m = true) :
    c1Run bc page_size cap psz2 cap2 name schema m = some ([m], [m]) := by
  have hfresh := fresh_ps_spec bc page_size cap hcap
  obtain ⟨ps0, hps0⟩ : ∃ ps0 : PagedStorage γ, ps0 =
      (⟨⟨⟨Marble.empty.write STORAGE_STATE_INDEX
        (some (bc.encodeState ⟨page_size, DEFAULT_PAGE, []⟩)),
        ⟨page_size, DEFAULT_PAGE, []⟩⟩, [], cap⟩⟩ : PagedStorage γ) := ⟨_, rfl⟩
  rw [← hps0] at hfresh
  have htm0 : TableManager.new bc ps0 =
      .ok ⟨⟨[]⟩, ps0⟩ := by
    rw [hps0]
    rfl
  obtain ⟨ps1, hps1⟩ : ∃ ps1 : PagedStorage γ, ps1 =
      (⟨⟨⟨(Marble.empty.write STORAGE_STATE_INDEX
        (some (bc.encodeState ⟨page_size, DEFAULT_PAGE, []⟩))).write
          TABLE_STATE_INDEX (some (bc.encodeCatalog
            ⟨[(name, ObjectStorage.new schema)]⟩)),
        ⟨page_size, DEFAULT_PAGE, []⟩⟩, [], cap⟩⟩ : PagedStorage γ) := ⟨_, rfl⟩
  have hct : TableManager.create_table bc (⟨⟨[]⟩, ps0⟩ : TableManager γ)
      name schema = .ok ⟨⟨[(name, ObjectStorage.new schema)]⟩, ps1⟩ := by
    rw [hps0, hps1]
    rfl
  have hinv1 : Inv bc ps1 (ObjectStorage.new schema) [] := by
    rw [hps1]
    refine Inv_fresh bc _ _ cap schema rfl rfl ?_ ?_
    · intro j hj
      have hj2 : (100 : Nat) ≤ j := by
        simp only [DEFAULT_PAGE] at hj
        exact hj
      show (if j = TABLE_STATE_INDEX then
          some (bc.encodeCatalog ⟨[(name, ObjectStorage.new schema)]⟩)
        else if j = STORAGE_STATE_INDEX then
          some (bc.encodeState ⟨page_size, DEFAULT_PAGE, []⟩)
        else (Marble.empty : Marble γ) j) = none
      rw [if_neg (by
        show j ≠ TABLE_STATE_INDEX
        simp only [TABLE_STATE_INDEX]
        omega), if_neg (by
        show j ≠ STORAGE_STATE_INDEX
        simp only [STORAGE_STATE_INDEX]
        omega)]
      rfl
    · show (if STORAGE_STATE_INDEX = TABLE_STATE_INDEX then
          some (bc.encodeCatalog ⟨[(name, ObjectStorage.new schema)]⟩)
        else if STORAGE_STATE_INDEX = STORAGE_STATE_INDEX then
          some (bc.encodeState ⟨page_size, DEFAULT_PAGE, []⟩)
        else (Marble.empty : Marble γ) STORAGE_STATE_INDEX) =
        some (bc.encodeState ⟨page_size, DEFAULT_PAGE, []⟩)
      rw [if_neg (by decide), if_pos rfl]
  have hpsz1 : ps1.page_size = page_size := by
    rw [hps1]
    rfl
  obtain ⟨os2, ps2, msgss2, hins, hinv2, hflat2, hNEx2all⟩ :=
    insert_messages_all_ok bc hbc (ObjectStorage.new schema) ps1 hinv1
      (by rw [hpsz1]; exact hps64) [m]
      (by
        intro m2 hm2
        rw [List.mem_singleton] at hm2
        subst hm2
        show schema.match_message m2 = true
        exact hm) rfl
  have hNEx2 : ∀ ms ∈ msgss2, ms ≠ [] := hNEx2all (by simp)
  have hsl1 : slookup [(name, ObjectStorage.new schema)] name =
      some (ObjectStorage.new schema) := slookup_cons_self name _ []
  obtain ⟨psW2, hpsW2⟩ : ∃ x : PagedStorage γ, x =
      (⟨{ ps2.buffer_pool with storage := { ps2.buffer_pool.storage with
        marble := ps2.buffer_pool.storage.marble.write TABLE_STATE_INDEX
          (some (bc.encodeCatalog ⟨[(name, os2)]⟩)) } }⟩ : PagedStorage γ) :=
    ⟨_, rfl⟩
  have hinv3 : Inv bc psW2 os2 msgss2 := by
    rw [hpsW2]
    exact Inv_marble_write_low bc ps2 os2 msgss2 hinv2 TABLE_STATE_INDEX _
      (by decide) (by decide)
  obtain ⟨hinv4, hclean4, hstate4, hmarout4⟩ :=
    flush_inv bc hbc psW2 os2 msgss2 hinv3
  obtain ⟨psF, hpsF⟩ : ∃ x : PagedStorage γ, x = PagedStorage.flush bc psW2 :=
    ⟨_, rfl⟩
  rw [← hpsF] at hinv4 hclean4 hstate4 hmarout4
  have htmins : TableManager.insert_messages bc
      (⟨⟨[(name, ObjectStorage.new schema)]⟩, ps1⟩ : TableManager γ) name [m] =
      some (.ok (), ⟨⟨[(name, os2)]⟩, psF⟩) := by
    unfold TableManager.insert_messages
    simp only [hsl1]
    simp only [hins]
    simp only [supdate_cons_self]
    rw [hpsF, hpsW2]
    rfl
  have hiter1 : TableManager.iter
      (⟨⟨[(name, os2)]⟩, psF⟩ : TableManager γ) name =
      .ok (os2, ObjectStorage.iter) := by
    unfold TableManager.iter
    simp only [slookup_cons_self]
  obtain ⟨psI, hrun1⟩ := iterate_all bc hbc os2 msgss2 psF 2 hinv4 hNEx2
    (by rw [hflat2]; simp)
  rw [hflat2] at hrun1
  obtain ⟨hreopen, hinvR⟩ :=
    reopen_spec bc hbc psF os2 msgss2 hinv4 hclean4 psz2 cap2 hcap2
  obtain ⟨psR, hpsR⟩ : ∃ x : PagedStorage γ, x =
      (⟨⟨⟨psF.marble, psF.buffer_pool.storage.state⟩, [], cap2⟩⟩ :
        PagedStorage γ) := ⟨_, rfl⟩
  rw [← hpsR] at hreopen hinvR
  have h1notin : (TABLE_STATE_INDEX : Nat) ∉
      psW2.buffer_pool.pages.map (fun e => e.1) := by
    intro hmem
    have hmem2 : (TABLE_STATE_INDEX : Nat) ∈
        ps2.buffer_pool.pages.map (fun e => e.1) := by
      rw [hpsW2] at hmem
      exact hmem
    have := hinv2.pagesLB _ (hinv2.cacheSub _ hmem2)
    simp [TABLE_STATE_INDEX, DEFAULT_PAGE] at this
  have hW2val : psW2.marble TABLE_STATE_INDEX =
      some (bc.encodeCatalog ⟨[(name, os2)]⟩) := by
    rw [hpsW2]
    show (if (TABLE_STATE_INDEX : Nat) = TABLE_STATE_INDEX then
      some (bc.encodeCatalog ⟨[(name, os2)]⟩) else
      ps2.buffer_pool.storage.marble TABLE_STATE_INDEX) = _
    rw [if_pos rfl]
  have hmarcat : psR.marble TABLE_STATE_INDEX =
      some (bc.encodeCatalog ⟨[(name, os2)]⟩) := by
    rw [hpsR]
    show psF.marble TABLE_STATE_INDEX = _
    rw [hmarout4 _ h1notin]
    exact hW2val
  obtain ⟨kc, hkc⟩ := hbc.decCatalog (⟨[(name, os2)]⟩ : TableManagerState)
  have htmR : TableManager.new bc psR = .ok ⟨⟨[(name, os2)]⟩, psR⟩ := by
    unfold TableManager.new
    simp only [hmarcat, hkc]
  have hiter2 : TableManager.iter
      (⟨⟨[(name, os2)]⟩, psR⟩ : TableManager γ) name =
      .ok (os2, ObjectStorage.iter) := by
    unfold TableManager.iter
    simp only [slookup_cons_self]
  obtain ⟨psI2, hrun2⟩ := iterate_all bc hbc os2 msgss2 psR 2 hinvR hNEx2
    (by rw [hflat2]; simp)
  rw [hflat2] at hrun2
  unfold c1Run
  simp only [hfresh, htm0, hct, htmins, hiter1, hrun1, hreopen, htmR, hiter2,
    hrun2]

/-- Witness for C1 at a one-column Bool table with page_size 64 and
cache capacity 1: the inserted row is returned by both iterations. -/
theorem insert_iterate_reopen_roundtrip_witness :
    c1Run wvalBincode 64 1 64 1 "t"
      (MessageType.mk "T" [Column.mk "a" DBType.bool []])
      (Message.mk none [DBValue.bool true]) =
      some ([Message.mk none [DBValue.bool true]],
        [Message.mk none [DBValue.bool true]]) :=
  insert_iterate_reopen_roundtrip wvalBincode wvalBincodeOK 64 1 64 1 "t"
    (MessageType.mk "T" [Column.mk "a" DBType.bool []])
    (Message.mk none [DBValue.bool true])
    (by decide) (by decide) (by decide) (by decide)

end DbufDb
